import Mathlib

/-!
Verification development for the MyDBMS query and storage kernel.

Shallow embedding of the C++ sources under `src/` (expression engine,
expression tokenizer and recursive-descent expression reader, B+ tree index,
index manager, logical optimizer, physical plan generation, pull executor,
and the database facade mutating path).  Machine `int64_t` values are
modelled as unbounded `Int` (no claim under study depends on overflow) and
IEEE `double` values are modelled as exact unreduced fractions; the only
NaN-producing operation reachable in the claims (`std::fmod` with zero
divisor) is modelled explicitly where it occurs.  C++ functions that throw
are modelled with `Except String`.  The storage layer (slotted page, buffer
pool, disk manager, write-ahead log) is not part of `src/`; the parts of it
that the database facade calls are modelled from the specification and are
marked `Modelled from the spec:` at their definitions.
-/

namespace DbmsSpec

/-- Decidable equality for `Except`, used to state and decide concrete
evaluation results. -/
def exceptDecEq {e a : Type} [DecidableEq e] [DecidableEq a] :
    DecidableEq (Except e a)
  | .ok x, .ok y =>
      if h : x = y then isTrue (by rw [h])
      else isFalse (by intro hc; cases hc; exact h rfl)
  | .ok _, .error _ => isFalse (by intro h; cases h)
  | .error _, .ok _ => isFalse (by intro h; cases h)
  | .error x, .error y =>
      if h : x = y then isTrue (by rw [h])
      else isFalse (by intro hc; cases hc; exact h rfl)

instance {e a : Type} [DecidableEq e] [DecidableEq a] : DecidableEq (Except e a) :=
  exceptDecEq

/-! ### Byte-wise string ordering

`std::string` comparison in the sources is lexicographic on bytes.  Lean
strings are compared here character-by-character on code points, which
agrees with the byte order on the ASCII data used throughout the system.
-/

def charListLt : List Char → List Char → Bool
  | [], [] => false
  | [], _ :: _ => true
  | _ :: _, [] => false
  | a :: as, b :: bs =>
      if a.toNat < b.toNat then true
      else if b.toNat < a.toNat then false
      else charListLt as bs

def keyLt (a b : String) : Bool := charListLt a.toList b.toList

/-- `std::string::compare` reduced to its sign (-1, 0, 1); only the sign is
ever consumed by the sources. -/
def strCmp (a b : String) : Int :=
  if keyLt a b then -1 else if keyLt b a then 1 else 0

/-! ### Numeric text conversions

Models of `std::stoll`, `std::stod` and `std::to_string` as used by the
expression engine.  `stoll` skips leading whitespace, accepts an optional
sign, requires at least one decimal digit and ignores trailing characters.
`stod` additionally accepts a fractional part and a decimal exponent (the
hexadecimal, infinity and NaN forms never occur in the data handled by the
claims and are not modelled).
-/

def isSpaceChar (c : Char) : Bool :=
  c = ' ' || c = '\t' || c = '\n' || c = '\x0b' || c = '\x0c' || c = '\r'

def digitVal (c : Char) : Option Nat :=
  if '0' ≤ c && c ≤ '9' then some (c.toNat - '0'.toNat) else none

def takeDigits : List Char → Nat → Nat × Nat × List Char
  | [], acc => (acc, 0, [])
  | c :: cs, acc =>
      match digitVal c with
      | some d =>
          let r := takeDigits cs (acc * 10 + d)
          (r.1, r.2.1 + 1, r.2.2)
      | none => (acc, 0, c :: cs)

/-- Leading-whitespace and sign handling shared by the numeric readers:
returns (negative?, rest). -/
def stripSpaceSign (l : List Char) : Bool × List Char :=
  let rest := l.dropWhile isSpaceChar
  match rest with
  | '-' :: cs => (true, cs)
  | '+' :: cs => (false, cs)
  | cs => (false, cs)

/-- Model of `std::stoll` (base 10, overflow not modelled). -/
def stollModel (s : String) : Except String Int :=
  let (neg, rest) := stripSpaceSign s.toList
  let (value, count, _) := takeDigits rest 0
  if count = 0 then .error ("stoll: no conversion")
  else .ok (if neg then -(value : Int) else (value : Int))

/-- Unreduced fractions modelling IEEE doubles exactly on the decimal data
the engine handles.  The denominator is kept positive by construction of
every operation below. -/
structure Frac where
  n : Int := 0
  d : Nat := 1
deriving DecidableEq, Repr

def fracOfInt (i : Int) : Frac := { n := i, d := 1 }

def fracAdd (a b : Frac) : Frac := { n := a.n * b.d + b.n * a.d, d := a.d * b.d }

def fracSub (a b : Frac) : Frac := { n := a.n * b.d - b.n * a.d, d := a.d * b.d }

def fracMul (a b : Frac) : Frac := { n := a.n * b.n, d := a.d * b.d }

def fracDiv (a b : Frac) : Frac :=
  if b.n = 0 then { n := 0, d := 1 }
  else { n := a.n * b.d * (if b.n < 0 then -1 else 1), d := a.d * b.n.natAbs }

def fracNeg (a : Frac) : Frac := { n := -a.n, d := a.d }

def fracAbs (a : Frac) : Frac := { n := (a.n.natAbs : Int), d := a.d }

def fracLt (a b : Frac) : Bool := a.n * b.d < b.n * a.d

def fracIsZero (a : Frac) : Bool := a.n = 0

/-- Floor of a fraction (denominator positive). -/
def fracFloor (a : Frac) : Int := Int.fdiv a.n (a.d : Int)

/-- Truncation toward zero, as C++ integer conversion and `std::fmod` use. -/
def fracTruncInt (a : Frac) : Int := Int.tdiv a.n (a.d : Int)

/-- The comparison tolerance 1e-9 used by `ExprValue::compare` and the
division-by-zero guard of `BinaryOpExpr::evaluate`. -/
def epsFrac : Frac := { n := 1, d := 1000000000 }

/-- Model of `std::stod` on decimal text (hex/inf/nan forms not modelled). -/
def stodModel (s : String) : Except String Frac :=
  let (neg, rest) := stripSpaceSign s.toList
  let (ip, ipCount, rest₁) := takeDigits rest 0
  let (fp, fpCount, rest₂) :=
    match rest₁ with
    | '.' :: cs => takeDigits cs 0
    | _ => (0, 0, rest₁)
  if ipCount = 0 ∧ fpCount = 0 then .error ("stod: no conversion")
  else
    let mantissa : Frac := fracAdd (fracOfInt (ip : Int)) { n := (fp : Int), d := 10 ^ fpCount }
    let expVal : Int :=
      match rest₂ with
      | 'e' :: cs | 'E' :: cs =>
          let (eneg, ecs) :=
            match cs with
            | '-' :: cs' => (true, cs')
            | '+' :: cs' => (false, cs')
            | cs' => (false, cs')
          let (ev, ecount, _) := takeDigits ecs 0
          if ecount = 0 then 0 else (if eneg then -(ev : Int) else (ev : Int))
      | _ => 0
    let scaled : Frac :=
      if expVal < 0 then { n := mantissa.n, d := mantissa.d * 10 ^ expVal.natAbs }
      else { n := mantissa.n * (10 : Int) ^ expVal.natAbs, d := mantissa.d }
    .ok (if neg then fracNeg scaled else scaled)

/-- Left-pad a numeral with zeros to the given width. -/
def padZeros (s : String) (width : Nat) : String :=
  String.mk (List.replicate (width - s.length) '0') ++ s

/-- Model of `std::to_string(double)`: fixed %f formatting with six decimal
places, rounding to nearest with ties to even. -/
def fracToFixed6 (q : Frac) : String :=
  let sign := if q.n < 0 then "-" else ""
  let n6 : Frac := fracMul (fracAbs q) (fracOfInt 1000000)
  let i : Int := fracFloor n6
  let fracNum : Int := n6.n - i * n6.d
  let r : Int :=
    if 2 * fracNum > (n6.d : Int) then i + 1
    else if 2 * fracNum < (n6.d : Int) then i
    else if i % 2 = 0 then i else i + 1
  let rn : Nat := r.toNat
  let ipart : Nat := rn / 1000000
  let fpart : Nat := rn % 1000000
  sign ++ toString ipart ++ "." ++ padZeros (toString fpart) 6

/-- Model of `std::to_string(int64_t)`. -/
def intToString (i : Int) : String := toString i

/-- Model of `std::fmod` for a nonzero divisor (exact on the fractions):
`fmod(x, y) = x - trunc(x / y) * y`. -/
def fmodFrac (x y : Frac) : Frac :=
  fracSub x (fracMul (fracOfInt (fracTruncInt (fracDiv x y))) y)

/-! ### Typed runtime values (`ExprValue`, expression.h / expression.cpp) -/

inductive EType where
  | NULL_VALUE | INTEGER | DOUBLE | STRING | BOOLEAN
deriving DecidableEq, Repr

structure ExprValue where
  type : EType := .NULL_VALUE
  stringValue : String := ""
deriving DecidableEq, Repr

namespace ExprValue

def isNull (v : ExprValue) : Bool := v.type = .NULL_VALUE

def asInt (v : ExprValue) : Except String Int :=
  if v.type = .NULL_VALUE then .error ("cannot convert NULL to integer")
  else
    match stollModel v.stringValue with
    | .ok i => .ok i
    | .error _ => .error ("failed to convert to integer")

def asDouble (v : ExprValue) : Except String Frac :=
  if v.type = .NULL_VALUE then .error ("cannot convert NULL to double")
  else
    match stodModel v.stringValue with
    | .ok q => .ok q
    | .error _ => .error ("failed to convert to double")

def asBool (v : ExprValue) : Bool :=
  if v.type = .NULL_VALUE then false
  else if v.type = .BOOLEAN then v.stringValue = "true" || v.stringValue = "1"
  else !(v.stringValue = "")

def asString (v : ExprValue) : String :=
  if v.type = .NULL_VALUE then "NULL" else v.stringValue

/-- The `(type == DOUBLE) ? asDouble() : double(asInt())` operand pattern
used by both `ExprValue::compare` and `BinaryOpExpr::evaluate`. -/
def doubleOperand (v : ExprValue) : Except String Frac :=
  if v.type = .DOUBLE then v.asDouble
  else do
    let i ← v.asInt
    pure (fracOfInt i)

/-- `ExprValue::compare`: NULLs first, typed numeric comparison with a 1e-9
equality tolerance, byte-wise string comparison otherwise. -/
def compare (v other : ExprValue) : Except String Int :=
  if v.isNull ∧ other.isNull then .ok 0
  else if v.isNull then .ok (-1)
  else if other.isNull then .ok 1
  else if v.type = .INTEGER ∧ other.type = .INTEGER then do
    let a ← v.asInt
    let b ← other.asInt
    .ok (if a < b then -1 else if a > b then 1 else 0)
  else if (v.type = .DOUBLE ∨ v.type = .INTEGER) ∧
          (other.type = .DOUBLE ∨ other.type = .INTEGER) then do
    let a ← v.doubleOperand
    let b ← other.doubleOperand
    if fracLt (fracAbs (fracSub a b)) epsFrac then .ok 0
    else .ok (if fracLt a b then -1 else 1)
  else .ok (strCmp v.stringValue other.stringValue)

end ExprValue

/-! ### Runtime schema and tuples (schema.h / schema.cpp) -/

inductive ColumnType where
  | Integer | Double | String
deriving DecidableEq, Repr

structure ColumnInfo where
  name : String := ""
  type : ColumnType := .Integer
  sourceIndex : Nat := 0
  tableName : String := ""
deriving DecidableEq, Repr

/-- `columnIndex_` is an `unordered_map` with overwrite-on-assign semantics;
modelled as an association list where the most recent binding is first. -/
structure Schema where
  columns : List ColumnInfo := []
  columnIndex : List (String × Nat) := []
deriving DecidableEq, Repr

namespace Schema

def findColumn (s : Schema) (name : String) : Option Nat :=
  (s.columnIndex.find? (fun p => p.1 == name)).map (·.2)

def addColumn (s : Schema) (col : ColumnInfo) : Schema :=
  let idx := s.columns.length
  let withName := (col.name, idx) :: s.columnIndex
  let withQualified :=
    if col.tableName = "" then withName
    else (col.tableName ++ "." ++ col.name, idx) :: withName
  { columns := s.columns ++ [col], columnIndex := withQualified }

def addAlias (s : Schema) (aliasName : String) (index : Nat) : Except String Schema :=
  if index ≥ s.columns.length then .error ("alias refers to invalid column index")
  else .ok { s with columnIndex := (aliasName, index) :: s.columnIndex }

def getColumn (s : Schema) (index : Nat) : Except String ColumnInfo :=
  match s.columns.get? index with
  | some c => .ok c
  | none => .error ("column index out of range")

def columnCount (s : Schema) : Nat := s.columns.length

def hasColumn (s : Schema) (name : String) : Bool := (s.findColumn name).isSome

def ofColumns (cols : List ColumnInfo) : Schema :=
  cols.foldl addColumn {}

end Schema

structure Tuple where
  values : List String := []
  schema : Option Schema := none
deriving DecidableEq, Repr

namespace Tuple

def getValue (t : Tuple) (index : Nat) : Except String String :=
  match t.values.get? index with
  | some v => .ok v
  | none => .error ("tuple value index out of range")

end Tuple

/-! ### Expression trees (expression.h) and evaluation (expression.cpp) -/

inductive CompOp where
  | EQ | NE | LT | LE | GT | GE
deriving DecidableEq, Repr

inductive LogicOp where
  | AND | OR
deriving DecidableEq, Repr

inductive BinOp where
  | ADD | SUB | MUL | DIV | MOD
deriving DecidableEq, Repr

/-- Expression node variants.  The C++ `LogicalExpr` stores NOT as an
operator tag with a null right child; here NOT is a dedicated constructor
holding the single operand (stored in `left_` in the source). -/
inductive Expression where
  | columnRef (name : String)
  | literal (value : ExprValue)
  | comparison (op : CompOp) (left right : Expression)
  | logical (op : LogicOp) (left right : Expression)
  | logicalNot (operand : Expression)
  | binaryOp (op : BinOp) (left right : Expression)
deriving DecidableEq, Repr

namespace Expression

/-- `ColumnRefExpr::evaluate`: resolve the column, read the value, and type
it from the column info; the literal string NULL denotes SQL NULL. -/
def evalColumnRef (name : String) (t : Tuple) : Except String ExprValue := do
  match t.schema with
  | none => .error ("tuple has no schema")
  | some sch =>
      match sch.findColumn name with
      | none => .error ("column not found")
      | some idx => do
          let value ← t.getValue idx
          let colInfo ← sch.getColumn idx
          if value = "NULL" then
            .ok { type := .NULL_VALUE, stringValue := "NULL" }
          else
            .ok { type :=
                    match colInfo.type with
                    | .Integer => .INTEGER
                    | .Double => .DOUBLE
                    | .String => .STRING,
                  stringValue := value }

/-- `BinaryOpExpr::evaluate` arithmetic once both operands are evaluated. -/
def evalBinary (op : BinOp) (leftVal rightVal : ExprValue) :
    Except String ExprValue :=
  let isDouble := leftVal.type = .DOUBLE ∨ rightVal.type = .DOUBLE
  if isDouble then do
    let left ← leftVal.doubleOperand
    let right ← rightVal.doubleOperand
    match op with
    | .ADD => .ok { type := .DOUBLE, stringValue := fracToFixed6 (fracAdd left right) }
    | .SUB => .ok { type := .DOUBLE, stringValue := fracToFixed6 (fracSub left right) }
    | .MUL => .ok { type := .DOUBLE, stringValue := fracToFixed6 (fracMul left right) }
    | .DIV =>
        if fracLt (fracAbs right) epsFrac then .error ("division by zero")
        else .ok { type := .DOUBLE, stringValue := fracToFixed6 (fracDiv left right) }
    | .MOD =>
        -- std::fmod never throws; with a zero divisor it returns NaN,
        -- which %f formatting prints as nan.
        if fracIsZero right then .ok { type := .DOUBLE, stringValue := "nan" }
        else .ok { type := .DOUBLE, stringValue := fracToFixed6 (fmodFrac left right) }
  else do
    let left ← leftVal.asInt
    let right ← rightVal.asInt
    match op with
    | .ADD => .ok { type := .INTEGER, stringValue := intToString (left + right) }
    | .SUB => .ok { type := .INTEGER, stringValue := intToString (left - right) }
    | .MUL => .ok { type := .INTEGER, stringValue := intToString (left * right) }
    | .DIV =>
        if right = 0 then .error ("division by zero")
        else .ok { type := .INTEGER, stringValue := intToString (Int.tdiv left right) }
    | .MOD =>
        if right = 0 then .error ("division by zero")
        else .ok { type := .INTEGER, stringValue := intToString (Int.tmod left right) }

def evaluate : Expression → Tuple → Except String ExprValue
  | .columnRef name, t => evalColumnRef name t
  | .literal v, _ => .ok v
  | .comparison op l r, t => do
      let leftVal ← evaluate l t
      let rightVal ← evaluate r t
      let cmp ← leftVal.compare rightVal
      let result : Bool :=
        match op with
        | .EQ => cmp == 0
        | .NE => !(cmp == 0)
        | .LT => decide (cmp < 0)
        | .LE => decide (cmp ≤ 0)
        | .GT => decide (cmp > 0)
        | .GE => decide (cmp ≥ 0)
      .ok { type := .BOOLEAN, stringValue := if result then "true" else "false" }
  | .logical op l r, t => do
      match op with
      | .AND => do
          let leftVal ← evaluate l t
          if leftVal.asBool = false then
            .ok { type := .BOOLEAN, stringValue := "false" }
          else do
            let rightVal ← evaluate r t
            .ok { type := .BOOLEAN,
                  stringValue := if rightVal.asBool then "true" else "false" }
      | .OR => do
          let leftVal ← evaluate l t
          if leftVal.asBool then
            .ok { type := .BOOLEAN, stringValue := "true" }
          else do
            let rightVal ← evaluate r t
            .ok { type := .BOOLEAN,
                  stringValue := if rightVal.asBool then "true" else "false" }
  | .logicalNot e, t => do
      let v ← evaluate e t
      .ok { type := .BOOLEAN, stringValue := if v.asBool then "false" else "true" }
  | .binaryOp op l r, t => do
      let leftVal ← evaluate l t
      let rightVal ← evaluate r t
      evalBinary op leftVal rightVal

/-- `Expression::getType` (static result type). -/
def getType : Expression → EType
  | .columnRef _ => .STRING
  | .literal v => v.type
  | .comparison _ _ _ => .BOOLEAN
  | .logical _ _ _ => .BOOLEAN
  | .logicalNot _ => .BOOLEAN
  | .binaryOp _ l r =>
      if getType l = .DOUBLE ∨ getType r = .DOUBLE then .DOUBLE else .INTEGER

end Expression

/-! ### Expression tokenizer and recursive-descent reader
(expression_parser.h / expression_parser.cpp)

The C++ tokenizer is a `while` loop over character positions and the
reader a family of mutually recursive functions over a token index.  Both
are modelled with an explicit fuel argument so that they remain structural
(and hence kernel-computable); every loop iteration and every recursive
call consumes at least one unit, and the entry points pass enough fuel that
the out-of-fuel branches are unreachable on any input.
-/

inductive ExprTokType where
  | STRING | NUMBER | IDENTIFIER | KEYWORD | OPERATOR | LPAREN | RPAREN | END
deriving DecidableEq, Repr

structure ExprToken where
  type : ExprTokType
  value : String
deriving DecidableEq, Repr

def isDigitChar (c : Char) : Bool := '0'.toNat ≤ c.toNat && c.toNat ≤ '9'.toNat

def isAlphaChar (c : Char) : Bool :=
  ('a'.toNat ≤ c.toNat && c.toNat ≤ 'z'.toNat) ||
  ('A'.toNat ≤ c.toNat && c.toNat ≤ 'Z'.toNat)

def isAlnumChar (c : Char) : Bool := isDigitChar c || isAlphaChar c

/-- String-literal scan: characters up to the closing quote. -/
def scanQuoted (quote : Char) : List Char → Option (List Char × List Char)
  | [] => none
  | c :: cs =>
      if c = quote then some ([], cs)
      else
        match scanQuoted quote cs with
        | some (body, rest) => some (c :: body, rest)
        | none => none

/-- Number scan: digits with at most one decimal point; a second point
terminates the token (as the C++ loop `break` does). -/
def scanNumber : List Char → Bool → List Char × List Char
  | [], _ => ([], [])
  | c :: cs, hasDecimal =>
      if isDigitChar c then
        let (body, rest) := scanNumber cs hasDecimal
        (c :: body, rest)
      else if c = '.' then
        if hasDecimal then ([], c :: cs)
        else
          let (body, rest) := scanNumber cs true
          (c :: body, rest)
      else ([], c :: cs)

/-- Identifier scan: alphanumerics, underscores and dotted qualifiers. -/
def scanIdent : List Char → List Char × List Char
  | [] => ([], [])
  | c :: cs =>
      if isAlnumChar c || c = '_' || c = '.' then
        let (body, rest) := scanIdent cs
        (c :: body, rest)
      else ([], c :: cs)

def keywordToken (value : List Char) : ExprToken :=
  let s := String.mk value
  if s = "AND" ∨ s = "and" then { type := .KEYWORD, value := "AND" }
  else if s = "OR" ∨ s = "or" then { type := .KEYWORD, value := "OR" }
  else if s = "NOT" ∨ s = "not" then { type := .KEYWORD, value := "NOT" }
  else { type := .IDENTIFIER, value := s }

def tokenizeFuel : Nat → List Char → Except String (List ExprToken)
  | 0, _ => .error ("tokenize: out of fuel")
  | _ + 1, [] => .ok [{ type := .END, value := "" }]
  | fuel + 1, ch :: rest =>
      if isSpaceChar ch then tokenizeFuel fuel rest
      else if ch = '\'' ∨ ch = '"' then
        match scanQuoted ch rest with
        | none => .error ("unterminated string literal")
        | some (body, rest') => do
            let tl ← tokenizeFuel fuel rest'
            .ok ({ type := .STRING, value := String.mk body } :: tl)
      else if isDigitChar ch ||
              (ch = '.' && match rest with
                           | c :: _ => isDigitChar c
                           | [] => false) then
        let (body, rest') := scanNumber (ch :: rest) false
        (do
          let tl ← tokenizeFuel fuel rest'
          .ok ({ type := .NUMBER, value := String.mk body } :: tl))
      else if isAlphaChar ch ∨ ch = '_' then
        let (body, rest') := scanIdent (ch :: rest)
        (do
          let tl ← tokenizeFuel fuel rest'
          .ok (keywordToken body :: tl))
      else if ch = '=' ∨ ch = '<' ∨ ch = '>' ∨ ch = '!' then
        let (opStr, rest') :=
          match rest with
          | c :: cs =>
              if (ch = '<' ∨ ch = '>' ∨ ch = '!') ∧ c = '=' then
                (String.mk [ch, '='], cs)
              else if ch = '<' ∧ c = '>' then ("<>", cs)
              else (String.mk [ch], rest)
          | [] => (String.mk [ch], rest)
        (do
          let tl ← tokenizeFuel fuel rest'
          .ok ({ type := .OPERATOR, value := opStr } :: tl))
      else if ch = '+' ∨ ch = '-' ∨ ch = '*' ∨ ch = '/' ∨ ch = '%' then do
        let tl ← tokenizeFuel fuel rest
        .ok ({ type := .OPERATOR, value := String.mk [ch] } :: tl)
      else if ch = '(' then do
        let tl ← tokenizeFuel fuel rest
        .ok ({ type := .LPAREN, value := "(" } :: tl)
      else if ch = ')' then do
        let tl ← tokenizeFuel fuel rest
        .ok ({ type := .RPAREN, value := ")" } :: tl)
      else .error ("unexpected character")

def tokenizeModel (s : String) : Except String (List ExprToken) :=
  tokenizeFuel (s.toList.length + 1) s.toList

/-- `current()` beyond the stored tokens returns the END sentinel. -/
def peekTok : List ExprToken → ExprToken
  | [] => { type := .END, value := "" }
  | t :: _ => t

def compOpOfString (op : String) : Option CompOp :=
  if op = "=" then some .EQ
  else if op = "<>" ∨ op = "!=" then some .NE
  else if op = "<" then some .LT
  else if op = "<=" then some .LE
  else if op = ">" then some .GT
  else if op = ">=" then some .GE
  else none

mutual

def parseOrExpr : Nat → List ExprToken → Except String (Expression × List ExprToken)
  | 0, _ => .error ("parse: out of fuel")
  | fuel + 1, toks => do
      let (left, rest) ← parseAndExpr fuel toks
      parseOrLoop fuel left rest

def parseOrLoop : Nat → Expression → List ExprToken →
    Except String (Expression × List ExprToken)
  | 0, _, _ => .error ("parse: out of fuel")
  | fuel + 1, left, toks =>
      if (peekTok toks).type = .KEYWORD ∧ (peekTok toks).value = "OR" then do
        let (right, rest) ← parseAndExpr fuel toks.tail
        parseOrLoop fuel (.logical .OR left right) rest
      else .ok (left, toks)

def parseAndExpr : Nat → List ExprToken → Except String (Expression × List ExprToken)
  | 0, _ => .error ("parse: out of fuel")
  | fuel + 1, toks => do
      let (left, rest) ← parseComparisonExpr fuel toks
      parseAndLoop fuel left rest

def parseAndLoop : Nat → Expression → List ExprToken →
    Except String (Expression × List ExprToken)
  | 0, _, _ => .error ("parse: out of fuel")
  | fuel + 1, left, toks =>
      if (peekTok toks).type = .KEYWORD ∧ (peekTok toks).value = "AND" then do
        let (right, rest) ← parseComparisonExpr fuel toks.tail
        parseAndLoop fuel (.logical .AND left right) rest
      else .ok (left, toks)

def parseComparisonExpr : Nat → List ExprToken →
    Except String (Expression × List ExprToken)
  | 0, _ => .error ("parse: out of fuel")
  | fuel + 1, toks => do
      let (left, rest) ← parseAdditiveExpr fuel toks
      if (peekTok rest).type = .OPERATOR then
        match compOpOfString (peekTok rest).value with
        | some compOp => do
            let (right, rest') ← parseAdditiveExpr fuel rest.tail
            .ok (.comparison compOp left right, rest')
        | none => .ok (left, rest)
      else .ok (left, rest)

def parseAdditiveExpr : Nat → List ExprToken →
    Except String (Expression × List ExprToken)
  | 0, _ => .error ("parse: out of fuel")
  | fuel + 1, toks => do
      let (left, rest) ← parseMultiplicativeExpr fuel toks
      parseAdditiveLoop fuel left rest

def parseAdditiveLoop : Nat → Expression → List ExprToken →
    Except String (Expression × List ExprToken)
  | 0, _, _ => .error ("parse: out of fuel")
  | fuel + 1, left, toks =>
      if (peekTok toks).type = .OPERATOR ∧
          ((peekTok toks).value = "+" ∨ (peekTok toks).value = "-") then do
        let binOp : BinOp := if (peekTok toks).value = "+" then .ADD else .SUB
        let (right, rest) ← parseMultiplicativeExpr fuel toks.tail
        parseAdditiveLoop fuel (.binaryOp binOp left right) rest
      else .ok (left, toks)

def parseMultiplicativeExpr : Nat → List ExprToken →
    Except String (Expression × List ExprToken)
  | 0, _ => .error ("parse: out of fuel")
  | fuel + 1, toks => do
      let (left, rest) ← parseUnaryExpr fuel toks
      parseMultiplicativeLoop fuel left rest

def parseMultiplicativeLoop : Nat → Expression → List ExprToken →
    Except String (Expression × List ExprToken)
  | 0, _, _ => .error ("parse: out of fuel")
  | fuel + 1, left, toks =>
      if (peekTok toks).type = .OPERATOR ∧
          ((peekTok toks).value = "*" ∨ (peekTok toks).value = "/" ∨
            (peekTok toks).value = "%") then do
        let binOp : BinOp :=
          if (peekTok toks).value = "*" then .MUL
          else if (peekTok toks).value = "/" then .DIV
          else .MOD
        let (right, rest) ← parseUnaryExpr fuel toks.tail
        parseMultiplicativeLoop fuel (.binaryOp binOp left right) rest
      else .ok (left, toks)

def parseUnaryExpr : Nat → List ExprToken →
    Except String (Expression × List ExprToken)
  | 0, _ => .error ("parse: out of fuel")
  | fuel + 1, toks =>
      if (peekTok toks).type = .KEYWORD ∧ (peekTok toks).value = "NOT" then do
        let (operand, rest) ← parseUnaryExpr fuel toks.tail
        .ok (.logicalNot operand, rest)
      else parsePrimaryExpr fuel toks

def parsePrimaryExpr : Nat → List ExprToken →
    Except String (Expression × List ExprToken)
  | 0, _ => .error ("parse: out of fuel")
  | fuel + 1, toks =>
      match toks with
      | { type := .LPAREN, value := _ } :: rest => do
          let (e, rest') ← parseOrExpr fuel rest
          match rest' with
          | { type := .RPAREN, value := _ } :: rest'' => .ok (e, rest'')
          | _ => .error ("expected closing parenthesis")
      | { type := .STRING, value := v } :: rest =>
          .ok (.literal { type := .STRING, stringValue := v }, rest)
      | { type := .NUMBER, value := v } :: rest =>
          let isDouble := v.toList.contains '.'
          .ok (.literal { type := if isDouble then .DOUBLE else .INTEGER,
                          stringValue := v }, rest)
      | { type := .IDENTIFIER, value := v } :: rest =>
          .ok (.columnRef v, rest)
      | _ => .error ("unexpected token in expression")

end

/-- `ExpressionParser::parse`: tokenize, then read one expression starting
at the first token (trailing tokens are ignored, as in the source). -/
def parseExpressionModel (s : String) : Except String Expression := do
  let toks ← tokenizeModel s
  let (e, _) ← parseOrExpr (8 * (toks.length + 1)) toks
  pure e

/-! ### B+ tree index (b_plus_tree.h)

The C++ tree is an arena of nodes addressed by integer ids (`nodes_`,
`rootId_`, `nextNodeId_`); child links and the root are ids.  The embedding
represents the same tree structurally: a child id becomes the child
subtree.  The arena ids and the next-leaf chain (`hasNext`/`nextLeaf`,
consumed only by `describePages` and the file format) are representation
bookkeeping and are not modelled.  A mutual `BTNode`/`NodeList` pair is
used instead of `List BTNode` so that all operations are structurally
recursive and kernel-computable.
-/

structure BlockAddress where
  table : String := ""
  index : Nat := 0
deriving DecidableEq, Repr

structure IndexPointer where
  address : BlockAddress := {}
  slot : Nat := 0
deriving DecidableEq, Repr

mutual
inductive BTNode where
  | leaf (keys : List String) (values : List IndexPointer)
  | internal (keys : List String) (children : NodeList)
inductive NodeList where
  | nil
  | cons (head : BTNode) (tail : NodeList)
end

def defaultNode : BTNode := .leaf [] []

namespace NodeList

def length : NodeList → Nat
  | .nil => 0
  | .cons _ t => t.length + 1

def get? : NodeList → Nat → Option BTNode
  | .nil, _ => none
  | .cons h _, 0 => some h
  | .cons _ t, n + 1 => t.get? n

def getD (l : NodeList) (n : Nat) : BTNode := (l.get? n).getD defaultNode

def set : NodeList → Nat → BTNode → NodeList
  | .nil, _, _ => .nil
  | .cons _ t, 0, x => .cons x t
  | .cons h t, n + 1, x => .cons h (t.set n x)

def insertAt : NodeList → Nat → BTNode → NodeList
  | l, 0, x => .cons x l
  | .nil, _ + 1, x => .cons x .nil
  | .cons h t, n + 1, x => .cons h (t.insertAt n x)

def eraseAt : NodeList → Nat → NodeList
  | .nil, _ => .nil
  | .cons _ t, 0 => t
  | .cons h t, n + 1 => .cons h (t.eraseAt n)

def take : NodeList → Nat → NodeList
  | _, 0 => .nil
  | .nil, _ => .nil
  | .cons h t, n + 1 => .cons h (t.take n)

def drop : NodeList → Nat → NodeList
  | l, 0 => l
  | .nil, _ + 1 => .nil
  | .cons _ t, n + 1 => t.drop n

def headD (l : NodeList) : BTNode := l.getD 0

def lastD : NodeList → BTNode
  | .nil => defaultNode
  | .cons h .nil => h
  | .cons _ (.cons h t) => lastD (.cons h t)

def popBack : NodeList → NodeList
  | .nil => .nil
  | .cons _ .nil => .nil
  | .cons h (.cons h' t) => .cons h (popBack (.cons h' t))

def tailNL : NodeList → NodeList
  | .nil => .nil
  | .cons _ t => t

def appendNL : NodeList → NodeList → NodeList
  | .nil, r => r
  | .cons h t, r => .cons h (appendNL t r)

def toList : NodeList → List BTNode
  | .nil => []
  | .cons h t => h :: t.toList

end NodeList

namespace BTNode

def isLeaf : BTNode → Bool
  | .leaf _ _ => true
  | .internal _ _ => false

def keysOf : BTNode → List String
  | .leaf ks _ => ks
  | .internal ks _ => ks

def valuesOf : BTNode → List IndexPointer
  | .leaf _ vs => vs
  | .internal _ _ => []

def childrenOf : BTNode → NodeList
  | .leaf _ _ => .nil
  | .internal _ cs => cs

end BTNode

/-- `std::lower_bound` position on a sorted key list: the first index whose
key is not less than the probe. -/
def lowerBoundIdx : List String → String → Nat
  | [], _ => 0
  | k :: ks, key => if keyLt k key then lowerBoundIdx ks key + 1 else 0

/-- `std::upper_bound` position (`findChildIndex`): the first index whose
key is greater than the probe. -/
def upperBoundIdx : List String → String → Nat
  | [], _ => 0
  | k :: ks, key => if keyLt key k then 0 else upperBoundIdx ks key + 1

/-- `BPlusTree::splitLeaf`: the upper half moves to a new right leaf and the
right leaf head key is promoted. -/
def splitLeaf (ks : List String) (vs : List IndexPointer) :
    BTNode × Option (String × BTNode) :=
  let mid := ks.length / 2
  let rightKeys := ks.drop mid
  let rightVals := vs.drop mid
  (.leaf (ks.take mid) (vs.take mid),
    some (rightKeys.headD "", .leaf rightKeys rightVals))

/-- `BPlusTree::splitInternal`: the median key is promoted; keys and
children right of it move to a new internal node. -/
def splitInternal (ks : List String) (cs : NodeList) :
    BTNode × Option (String × BTNode) :=
  let mid := ks.length / 2
  let promote := ks.getD mid ""
  (.internal (ks.take mid) (cs.take (mid + 1)),
    some (promote, .internal (ks.drop (mid + 1)) (cs.drop (mid + 1))))

mutual

/-- `BPlusTree::insertRecursive`.  Returns the rewritten node and the
optional `(promoted key, new right sibling)` split information. -/
def insertRecNode (maxKeys : Nat) (key : String) (ptr : IndexPointer)
    (failOnDuplicate : Bool) :
    BTNode → Except String (BTNode × Option (String × BTNode))
  | .leaf ks vs =>
      let idx := lowerBoundIdx ks key
      let isDup : Bool := match ks.get? idx with
                   | some k => k = key
                   | none => false
      if isDup then
        if failOnDuplicate then .error ("duplicate index key")
        else .ok (.leaf ks (vs.set idx ptr), none)
      else
        let ks' := ks.insertIdx idx key
        let vs' := vs.insertIdx idx ptr
        if ks'.length > maxKeys then .ok (splitLeaf ks' vs')
        else .ok (.leaf ks' vs', none)
  | .internal ks cs => do
      let childPos := upperBoundIdx ks key
      let (cs₁, split?) ← insertRecChild maxKeys key ptr failOnDuplicate childPos cs
      match split? with
      | none => .ok (.internal ks cs₁, none)
      | some (skey, snode) =>
          let ks' := ks.insertIdx childPos skey
          let cs' := cs₁.insertAt (childPos + 1) snode
          if ks'.length > maxKeys then .ok (splitInternal ks' cs')
          else .ok (.internal ks' cs', none)

def insertRecChild (maxKeys : Nat) (key : String) (ptr : IndexPointer)
    (failOnDuplicate : Bool) :
    Nat → NodeList → Except String (NodeList × Option (String × BTNode))
  | _, .nil => .ok (.nil, none)
  | 0, .cons h t => do
      let (h', split?) ← insertRecNode maxKeys key ptr failOnDuplicate h
      .ok (.cons h' t, split?)
  | pos + 1, .cons h t => do
      let (t', split?) ← insertRecChild maxKeys key ptr failOnDuplicate pos t
      .ok (.cons h t', split?)

end

mutual

/-- `BPlusTree::find` (descent via `locateLeaf` plus the leaf probe). -/
def findNode (key : String) : BTNode → Option IndexPointer
  | .leaf ks vs =>
      let idx := lowerBoundIdx ks key
      match ks.get? idx with
      | some k => if k = key then vs.get? idx else none
      | none => none
  | .internal ks cs => findChild key (upperBoundIdx ks key) cs

def findChild (key : String) : Nat → NodeList → Option IndexPointer
  | _, .nil => none
  | 0, .cons h _ => findNode key h
  | pos + 1, .cons _ t => findChild key pos t

end

mutual

/-- `BPlusTree::update`: locate the leaf, replace the stored pointer if the
key is present. -/
def updateNode (key : String) (ptr : IndexPointer) : BTNode → BTNode × Bool
  | .leaf ks vs =>
      let idx := lowerBoundIdx ks key
      match ks.get? idx with
      | some k =>
          if k = key then (.leaf ks (vs.set idx ptr), true) else (.leaf ks vs, false)
      | none => (.leaf ks vs, false)
  | .internal ks cs =>
      let (cs', found) := updateChild key ptr (upperBoundIdx ks key) cs
      (.internal ks cs', found)

def updateChild (key : String) (ptr : IndexPointer) :
    Nat → NodeList → NodeList × Bool
  | _, .nil => (.nil, false)
  | 0, .cons h t =>
      let (h', found) := updateNode key ptr h
      (.cons h' t, found)
  | pos + 1, .cons h t =>
      let (t', found) := updateChild key ptr pos t
      (.cons h t', found)

end

inductive DeleteState where
  | NotFound | Balanced | NeedsRebalance
deriving DecidableEq, Repr

/-- `BPlusTree::borrowFromLeftLeaf` on the parent key list and children. -/
def borrowFromLeftLeaf (ks : List String) (cs : NodeList) (childIndex : Nat) :
    List String × NodeList :=
  let left := cs.getD (childIndex - 1)
  let child := cs.getD childIndex
  let child' : BTNode := .leaf (left.keysOf.getLastD "" :: child.keysOf)
    (left.valuesOf.getLastD { } :: child.valuesOf)
  let left' : BTNode := .leaf left.keysOf.dropLast left.valuesOf.dropLast
  (ks.set (childIndex - 1) (child'.keysOf.headD ""),
    (cs.set (childIndex - 1) left').set childIndex child')

/-- `BPlusTree::borrowFromRightLeaf`. -/
def borrowFromRightLeaf (ks : List String) (cs : NodeList) (childIndex : Nat) :
    List String × NodeList :=
  let right := cs.getD (childIndex + 1)
  let child := cs.getD childIndex
  let child' : BTNode := .leaf (child.keysOf ++ [right.keysOf.headD ""])
    (child.valuesOf ++ [right.valuesOf.headD { }])
  let right' : BTNode := .leaf right.keysOf.tail right.valuesOf.tail
  (ks.set childIndex (right'.keysOf.headD ""),
    (cs.set childIndex child').set (childIndex + 1) right')

/-- `BPlusTree::mergeLeaves` at `leftIndex`. -/
def mergeLeaves (ks : List String) (cs : NodeList) (leftIndex : Nat) :
    List String × NodeList :=
  if leftIndex + 1 ≥ cs.length then (ks, cs)
  else
    let left := cs.getD leftIndex
    let right := cs.getD (leftIndex + 1)
    let left' : BTNode := .leaf (left.keysOf ++ right.keysOf)
      (left.valuesOf ++ right.valuesOf)
    (ks.eraseIdx leftIndex, (cs.set leftIndex left').eraseAt (leftIndex + 1))

/-- `BPlusTree::borrowFromLeftInternal`. -/
def borrowFromLeftInternal (ks : List String) (cs : NodeList) (childIndex : Nat) :
    List String × NodeList :=
  let left := cs.getD (childIndex - 1)
  let child := cs.getD childIndex
  let child' : BTNode := .internal (ks.getD (childIndex - 1) "" :: child.keysOf)
    (.cons (left.childrenOf.lastD) child.childrenOf)
  let left' : BTNode := .internal left.keysOf.dropLast left.childrenOf.popBack
  (ks.set (childIndex - 1) (left.keysOf.getLastD ""),
    (cs.set (childIndex - 1) left').set childIndex child')

/-- `BPlusTree::borrowFromRightInternal`. -/
def borrowFromRightInternal (ks : List String) (cs : NodeList) (childIndex : Nat) :
    List String × NodeList :=
  let right := cs.getD (childIndex + 1)
  let child := cs.getD childIndex
  let child' : BTNode := .internal (child.keysOf ++ [ks.getD childIndex ""])
    (child.childrenOf.appendNL (.cons right.childrenOf.headD .nil))
  let right' : BTNode := .internal right.keysOf.tail right.childrenOf.tailNL
  (ks.set childIndex (right.keysOf.headD ""),
    (cs.set childIndex child').set (childIndex + 1) right')

/-- `BPlusTree::mergeInternal` at `leftIndex`. -/
def mergeInternal (ks : List String) (cs : NodeList) (leftIndex : Nat) :
    List String × NodeList :=
  if leftIndex + 1 ≥ cs.length then (ks, cs)
  else
    let left := cs.getD leftIndex
    let right := cs.getD (leftIndex + 1)
    let left' : BTNode := .internal
      (left.keysOf ++ [ks.getD leftIndex ""] ++ right.keysOf)
      (left.childrenOf.appendNL right.childrenOf)
    (ks.eraseIdx leftIndex, (cs.set leftIndex left').eraseAt (leftIndex + 1))

/-- `BPlusTree::rebalanceChild`: borrow from the left then the right
sibling when it has more than `minKeys` keys, otherwise merge with the left
sibling (or with the right when the child is leftmost). -/
def rebalanceChild (minKeys : Nat) (ks : List String) (cs : NodeList)
    (childIndex₀ : Nat) : List String × NodeList :=
  if cs.length = 0 then (ks, cs)
  else
    let childIndex := if childIndex₀ ≥ cs.length then cs.length - 1 else childIndex₀
    let child := cs.getD childIndex
    if child.isLeaf then
      if childIndex > 0 ∧ (cs.getD (childIndex - 1)).keysOf.length > minKeys then
        borrowFromLeftLeaf ks cs childIndex
      else if childIndex + 1 < cs.length ∧
          (cs.getD (childIndex + 1)).keysOf.length > minKeys then
        borrowFromRightLeaf ks cs childIndex
      else if childIndex > 0 then mergeLeaves ks cs (childIndex - 1)
      else if cs.length ≥ 2 then mergeLeaves ks cs 0
      else (ks, cs)
    else
      if childIndex > 0 ∧ (cs.getD (childIndex - 1)).keysOf.length > minKeys then
        borrowFromLeftInternal ks cs childIndex
      else if childIndex + 1 < cs.length ∧
          (cs.getD (childIndex + 1)).keysOf.length > minKeys then
        borrowFromRightInternal ks cs childIndex
      else if childIndex > 0 then mergeInternal ks cs (childIndex - 1)
      else if cs.length ≥ 2 then mergeInternal ks cs 0
      else (ks, cs)

mutual

/-- `BPlusTree::eraseRecursive`. -/
def eraseRecNode (minKeys : Nat) (key : String) (isRoot : Bool) :
    BTNode → BTNode × DeleteState
  | .leaf ks vs =>
      let idx := lowerBoundIdx ks key
      let found : Bool := match ks.get? idx with
                   | some k => k = key
                   | none => false
      if found then
        let ks' := ks.eraseIdx idx
        let vs' := vs.eraseIdx idx
        if isRoot then (.leaf ks' vs', .Balanced)
        else if ks'.length < minKeys then (.leaf ks' vs', .NeedsRebalance)
        else (.leaf ks' vs', .Balanced)
      else (.leaf ks vs, .NotFound)
  | .internal ks cs =>
      let childIndex₀ := upperBoundIdx ks key
      let childIndex := if childIndex₀ ≥ cs.length then cs.length - 1 else childIndex₀
      let (cs', state) := eraseRecChild minKeys key childIndex cs
      if state = .NotFound then (.internal ks cs', .NotFound)
      else
        let (ks₂, cs₂) :=
          if state = .NeedsRebalance then rebalanceChild minKeys ks cs' childIndex
          else (ks, cs')
        if isRoot then
          if ks₂.isEmpty ∧ cs₂.length = 1 then (cs₂.headD, .Balanced)
          else (.internal ks₂ cs₂, .Balanced)
        else if ks₂.length < minKeys then (.internal ks₂ cs₂, .NeedsRebalance)
        else (.internal ks₂ cs₂, .Balanced)

def eraseRecChild (minKeys : Nat) (key : String) :
    Nat → NodeList → NodeList × DeleteState
  | _, .nil => (.nil, .NotFound)
  | 0, .cons h t =>
      let (h', st) := eraseRecNode minKeys key false h
      (.cons h' t, st)
  | pos + 1, .cons h t =>
      let (t', st) := eraseRecChild minKeys key pos t
      (.cons h t', st)

end

/-- The B+ tree object (arena fields `nodes_`/`rootId_`/`nextNodeId_`
represented by the structural root). -/
structure BPlusTree where
  root : Option BTNode := none
  maxKeys : Nat := 0
  minKeys : Nat := 0
  pageSize : Nat := 0
  keyLength : Nat := 0

namespace BPlusTree

/-- `BPlusTree::computeMaxKeys`: header 32 bytes; per entry the key bytes
plus an 8-byte pointer (`2 * sizeof(uint32_t)`) and a 2-byte slot
(`sizeof(uint16_t)`). -/
def computeMaxKeys (pageSizeBytes keyBytes : Nat) : Nat :=
  let headerBytes := 32
  let pointerBytes := 8
  let slotBytes := 2
  if pageSizeBytes ≤ headerBytes then 3
  else
    let usable := pageSizeBytes - headerBytes
    let perEntry := max 1 (keyBytes + pointerBytes + slotBytes)
    max 3 (usable / perEntry)

/-- `BPlusTree::initialize` (including the `clearNodes` call); named
`initializeTree` because the source name is a reserved word in Lean. -/
def initializeTree (pageSizeBytes keyBytes : Nat) : BPlusTree :=
  let mk₀ := computeMaxKeys pageSizeBytes keyBytes
  let mk := if mk₀ < 3 then 3 else mk₀
  { pageSize := pageSizeBytes, keyLength := keyBytes,
    maxKeys := mk, minKeys := max 1 (mk / 2), root := none }

def entriesPerPage (t : BPlusTree) : Nat := t.maxKeys

/-- `ensureRoot` + `insertRecursive` + `promoteToNewRoot` with
`failOnDuplicate = false`, exactly as `BPlusTree::insertUnique` passes it. -/
def insertWith (t : BPlusTree) (key : String) (ptr : IndexPointer)
    (failOnDuplicate : Bool) : Except String BPlusTree := do
  if t.maxKeys = 0 then .error ("B+ tree must be initialized before use")
  else
    let root := t.root.getD (.leaf [] [])
    let (root', split?) ← insertRecNode t.maxKeys key ptr failOnDuplicate root
    match split? with
    | none => .ok { t with root := some root' }
    | some (skey, snode) =>
        .ok { t with root := some (.internal [skey] (.cons root' (.cons snode .nil))) }

/-- `BPlusTree::insertUnique` passes `failOnDuplicate = false` to
`insertRecursive` (line 74 of b_plus_tree.h). -/
def insertUnique (t : BPlusTree) (key : String) (ptr : IndexPointer) :
    Except String BPlusTree :=
  insertWith t key ptr false

/-- `BPlusTree::insertOrAssign` also passes `failOnDuplicate = false`. -/
def insertOrAssign (t : BPlusTree) (key : String) (ptr : IndexPointer) :
    Except String BPlusTree :=
  insertWith t key ptr false

def find (t : BPlusTree) (key : String) : Option IndexPointer :=
  match t.root with
  | none => none
  | some root => findNode key root

/-- `BPlusTree::update`: false when the tree is empty or the key absent. -/
def update (t : BPlusTree) (key : String) (ptr : IndexPointer) :
    Bool × BPlusTree :=
  match t.root with
  | none => (false, t)
  | some root =>
      let (root', found) := updateNode key ptr root
      if found then (true, { t with root := some root' }) else (false, t)

/-- `BPlusTree::erase`, including the second root-collapse check performed
at the top level after `eraseRecursive` returns. -/
def erase (t : BPlusTree) (key : String) : Bool × BPlusTree :=
  match t.root with
  | none => (false, t)
  | some root =>
      let (root', state) := eraseRecNode t.minKeys key true root
      if state = .NotFound then (false, t)
      else
        let root'' :=
          match root' with
          | .internal ks cs =>
              if ks.isEmpty ∧ cs.length = 1 then cs.headD else .internal ks cs
          | n => n
        (true, { t with root := some root'' })

def clearNodes (t : BPlusTree) : BPlusTree := { t with root := none }

/-- `BPlusTree::bulkInsert`: clear, sort the entries by key, insert each
with `insertUnique`.  The source sorts with `std::sort` on the key only;
its order on equal keys is unspecified, and the one caller (`createIndex`)
removes duplicate keys beforehand, so a stable merge sort is an adequate
model. -/
def bulkInsert (t : BPlusTree) (entries : List (String × IndexPointer)) :
    Except String BPlusTree := do
  let t := t.clearNodes
  if entries.isEmpty then .ok t
  else
    let sorted := entries.mergeSort (fun a b => !(keyLt b.1 a.1))
    sorted.foldlM (fun acc e => acc.insertUnique e.1 e.2) t

end BPlusTree

/-- Sample pointers and a one-leaf tree used by concrete B+ tree theorems. -/
def c3Ptr1 : IndexPointer := { address := { table := "t", index := 0 }, slot := 1 }

def c3Ptr2 : IndexPointer := { address := { table := "t", index := 0 }, slot := 2 }

def c3SampleTree : BPlusTree :=
  { root := some (.leaf ["a"] [c3Ptr1]), maxKeys := 3, minKeys := 1,
    pageSize := 62, keyLength := 10 }

/-! ### Records, key slicing (common/types.h) and the index manager
(index_manager.h) -/

structure Record where
  values : List String := []
deriving DecidableEq, Repr

/-- `sliceIndexKey`: the first keyLength bytes of the indexed column value;
out-of-range column index yields the empty key. -/
def sliceIndexKey (record : Record) (columnIndex keyLength : Nat) : String :=
  match record.values.get? columnIndex with
  | none => ""
  | some v => String.mk (v.toList.take keyLength)

structure IndexDefinition where
  name : String := ""
  tableName : String := ""
  columnName : String := ""
  columnIndex : Nat := 0
  keyLength : Nat := 0
  unique : Bool := true
deriving DecidableEq, Repr

structure BPlusTreeIndex where
  definition : IndexDefinition := {}
  tree : BPlusTree := {}

namespace BPlusTreeIndex

/-- The two-argument `BPlusTreeIndex` constructor. -/
def mk' (definition : IndexDefinition) (pageSizeBytes : Nat) : BPlusTreeIndex :=
  { definition := definition,
    tree := BPlusTree.initializeTree pageSizeBytes definition.keyLength }

def extractKey (idx : BPlusTreeIndex) (record : Record) : String :=
  sliceIndexKey record idx.definition.columnIndex idx.definition.keyLength

def projectKey (idx : BPlusTreeIndex) (record : Record) : String :=
  idx.extractKey record

def entriesPerPage (idx : BPlusTreeIndex) : Nat := idx.tree.entriesPerPage

/-- `BPlusTreeIndex::insertRecord`: note that the extracted key is inserted
unconditionally - an empty key is not filtered out here. -/
def insertRecord (idx : BPlusTreeIndex) (record : Record)
    (addr : BlockAddress) (slot : Nat) : Except String BPlusTreeIndex := do
  let key := idx.extractKey record
  let tree' ← idx.tree.insertUnique key { address := addr, slot := slot }
  .ok { idx with tree := tree' }

/-- `BPlusTreeIndex::updateRecord`. -/
def updateRecord (idx : BPlusTreeIndex) (before after : Record)
    (addr : BlockAddress) (slot : Nat) : Except String BPlusTreeIndex := do
  let oldKey := idx.extractKey before
  let newKey := idx.extractKey after
  if oldKey = newKey then
    .ok { idx with tree := (idx.tree.update newKey { address := addr, slot := slot }).2 }
  else do
    let afterErase := (idx.tree.erase oldKey).2
    let tree' ← afterErase.insertUnique newKey { address := addr, slot := slot }
    .ok { idx with tree := tree' }

/-- `BPlusTreeIndex::deleteRecord`. -/
def deleteRecord (idx : BPlusTreeIndex) (record : Record) : BPlusTreeIndex :=
  { idx with tree := (idx.tree.erase (idx.extractKey record)).2 }

def find (idx : BPlusTreeIndex) (key : String) : Option IndexPointer :=
  idx.tree.find key

/-- `BPlusTreeIndex::rebuild`. -/
def rebuild (idx : BPlusTreeIndex) (entries : List (String × IndexPointer)) :
    Except String BPlusTreeIndex := do
  let tree' ← idx.tree.bulkInsert entries
  .ok { idx with tree := tree' }

end BPlusTreeIndex

/-- An index on column 0 of a sample table, used by concrete theorems. -/
def c8Index : BPlusTreeIndex :=
  BPlusTreeIndex.mk' { name := "idx", tableName := "t", columnName := "c",
                       columnIndex := 0, keyLength := 8, unique := false } 4096

/-! ### Structural well-formedness of B+ tree nodes

`WfN h lo hi n` states that `n` is a well-formed subtree of height `h`
whose leaf keys lie in `[lo, hi)` and whose separator keys lie in
`(lo, hi)`; `WfC` pairs an internal node's keys with its children so that
the claim's arity invariant (children = keys + 1) and the range discipline
are enforced simultaneously.  This is the inductive invariant from which
the claim's three properties (sorted keys, leaf alignment, internal arity)
are derived.
-/

def lowOk : Option String → String → Prop
  | none, _ => True
  | some l, k => keyLt k l = false

def highOk : Option String → String → Prop
  | none, _ => True
  | some u, k => keyLt u k = false

/-- The key lies in the closed range `[lo, hi]`. -/
def inB (lo hi : Option String) (k : String) : Prop := lowOk lo k ∧ highOk hi k

/-- Keys in non-decreasing order (the claim's "keys sorted"). -/
def sortedKeys (ks : List String) : Prop :=
  List.Pairwise (fun a b => keyLt b a = false) ks

mutual

def WfN (h : Nat) (lo hi : Option String) : BTNode → Prop
  | .leaf ks vs =>
      h = 0 ∧ sortedKeys ks ∧ vs.length = ks.length ∧ ∀ k ∈ ks, inB lo hi k
  | .internal ks cs =>
      0 < h ∧ sortedKeys ks ∧ (∀ k ∈ ks, inB lo hi k) ∧
      WfC (h - 1) lo hi ks cs

def WfC (h : Nat) (lo hi : Option String) : List String → NodeList → Prop
  | [], .cons c .nil => WfN h lo hi c
  | k :: ks, .cons c rest => WfN h lo (some k) c ∧ WfC h (some k) hi ks rest
  | _, _ => False

end

/-- The well-formedness package of an internal node's keys and children
relative to the node's own range. -/
def WfPack (h : Nat) (lo hi : Option String) (p : List String × NodeList) :
    Prop :=
  sortedKeys p.1 ∧ (∀ k ∈ p.1, inB lo hi k) ∧ WfC h lo hi p.1 p.2

/-- Well-formedness of the whole tree state. -/
def WfT (t : BPlusTree) : Prop :=
  match t.root with
  | none => True
  | some n => ∃ h, WfN h none none n

/-- Non-decreasing key order check (the claim's "keys sorted"). -/
def sortedKeysB : List String → Bool
  | [] => true
  | [_] => true
  | a :: b :: rest => !(keyLt b a) && sortedKeysB (b :: rest)

mutual

/-- The claim's three invariants, decidably, over every node of a tree:
keys sorted, leaf key/value alignment, internal arity. -/
def nodeInvariantB : BTNode → Bool
  | .leaf ks vs => sortedKeysB ks && (vs.length == ks.length)
  | .internal ks cs =>
      sortedKeysB ks && (cs.length == ks.length + 1) && childrenInvariantB cs

def childrenInvariantB : NodeList → Bool
  | .nil => true
  | .cons h t => nodeInvariantB h && childrenInvariantB t

end

def treeInvariantB (t : BPlusTree) : Bool :=
  match t.root with
  | none => true
  | some n => nodeInvariantB n

/-- One mutation of the B+ tree public interface. -/
inductive TreeOp where
  | insertUniqueOp (key : String) (ptr : IndexPointer)
  | insertOrAssignOp (key : String) (ptr : IndexPointer)
  | updateOp (key : String) (ptr : IndexPointer)
  | eraseOp (key : String)

def applyTreeOp (t : BPlusTree) : TreeOp → Except String BPlusTree
  | .insertUniqueOp k p => t.insertUnique k p
  | .insertOrAssignOp k p => t.insertOrAssign k p
  | .updateOp k p => .ok (t.update k p).2
  | .eraseOp k => .ok (t.erase k).2

def applyTreeOps : BPlusTree → List TreeOp → Except String BPlusTree
  | t, [] => .ok t
  | t, op :: ops => do applyTreeOps (← applyTreeOp t op) ops

mutual

def decEqNode : (a b : BTNode) → Decidable (a = b)
  | .leaf ks vs, .leaf ks' vs' =>
      match decEq ks ks', decEq vs vs' with
      | isTrue h1, isTrue h2 => isTrue (by rw [h1, h2])
      | isFalse h1, _ => isFalse (by intro hc; injection hc; contradiction)
      | _, isFalse h2 => isFalse (by intro hc; injection hc; contradiction)
  | .leaf _ _, .internal _ _ => isFalse (by intro hc; exact BTNode.noConfusion hc)
  | .internal _ _, .leaf _ _ => isFalse (by intro hc; exact BTNode.noConfusion hc)
  | .internal ks cs, .internal ks' cs' =>
      match decEq ks ks', decEqList cs cs' with
      | isTrue h1, isTrue h2 => isTrue (by rw [h1, h2])
      | isFalse h1, _ => isFalse (by intro hc; injection hc; contradiction)
      | _, isFalse h2 => isFalse (by intro hc; injection hc; contradiction)

def decEqList : (a b : NodeList) → Decidable (a = b)
  | .nil, .nil => isTrue rfl
  | .nil, .cons _ _ => isFalse (by intro hc; exact NodeList.noConfusion hc)
  | .cons _ _, .nil => isFalse (by intro hc; exact NodeList.noConfusion hc)
  | .cons h t, .cons h' t' =>
      match decEqNode h h', decEqList t t' with
      | isTrue h1, isTrue h2 => isTrue (by rw [h1, h2])
      | isFalse h1, _ => isFalse (by intro hc; injection hc; contradiction)
      | _, isFalse h2 => isFalse (by intro hc; injection hc; contradiction)

end

instance : DecidableEq BTNode := decEqNode

instance : DecidableEq NodeList := decEqList

instance : DecidableEq BPlusTree := fun a b =>
  if h : a.root = b.root ∧ a.maxKeys = b.maxKeys ∧ a.minKeys = b.minKeys ∧
      a.pageSize = b.pageSize ∧ a.keyLength = b.keyLength then
    isTrue (by
      obtain ⟨h1, h2, h3, h4, h5⟩ := h
      cases a; cases b; simp_all)
  else
    isFalse (by
      intro hc; subst hc
      exact h ⟨rfl, rfl, rfl, rfl, rfl⟩)

/-- Well-formedness of an `insertRecursive` result at a node of height `h`
and range `[lo, hi]`: on a split, both halves are well formed on the two
sides of the separator and the separator lies in the range. -/
def InsResOk (h : Nat) (lo hi : Option String) :
    Except String (BTNode × Option (String × BTNode)) → Prop
  | .error _ => True
  | .ok (n, none) => WfN h lo hi n
  | .ok (n, some (s, rn)) =>
      WfN h lo (some s) n ∧ WfN h (some s) hi rn ∧ inB lo hi s

/-- Well-formedness of an `insertRecursive` child-list result, phrased
after the parent applies its split surgery at position `pos`. -/
def InsChildOk (h : Nat) (lo hi : Option String) (ks : List String)
    (pos : Nat) :
    Except String (NodeList × Option (String × BTNode)) → Prop
  | .error _ => True
  | .ok (cs₁, none) => WfC h lo hi ks cs₁
  | .ok (cs₁, some (s, rn)) =>
      sortedKeys (ks.insertIdx pos s) ∧
      (∀ k ∈ ks.insertIdx pos s, inB lo hi k) ∧
      WfC h lo hi (ks.insertIdx pos s) (cs₁.insertAt (pos + 1) rn)

/-- A sample operation sequence exercising splits, update and erase with
rebalancing, used by concrete invariant theorems. -/
def c9Ops : List TreeOp :=
  [.insertUniqueOp "c" c3Ptr1, .insertOrAssignOp "a" c3Ptr1,
    .insertUniqueOp "e" c3Ptr1, .insertUniqueOp "b" c3Ptr2,
    .insertUniqueOp "d" c3Ptr2, .updateOp "c" c3Ptr2,
    .eraseOp "a", .eraseOp "d", .eraseOp "b"]

def c9Result : BPlusTree :=
  match applyTreeOps (BPlusTree.initializeTree 62 10) c9Ops with
  | .ok t => t
  | .error _ => { }

/-! ### Aggregate operator (aggregate.h / aggregate.cpp)

`AggregateOperator::init` materializes all child tuples into groups, adds
the default global group when the input is empty and there is no GROUP BY,
builds one output row per group, and filters rows through the HAVING
expression.  `std::unordered_map` iteration order is unspecified in the
source; the model keeps groups in insertion order, which is irrelevant for
the empty-input theorems below (at most one group exists there).  The
`alias` field is named `aliasName` because `alias` is reserved in Lean.
-/

inductive AggFunc where
  | SUM | COUNT | AVG | MIN | MAX
deriving DecidableEq, Repr

structure AggregateSpec where
  func : AggFunc
  expression : String := ""
  aliasName : String := ""
deriving DecidableEq, Repr

structure PreparedAggregate where
  func : AggFunc
  expression : String := ""
  aliasName : String := ""
  exprNode : Option Expression := none
  resultType : ColumnType := .Integer
deriving DecidableEq, Repr

structure AggregateAccumulator where
  intSum : Int := 0
  doubleSum : Frac := { n := 0, d := 1 }
  count : Int := 0
  extreme : ExprValue := { }
  hasValue : Bool := false
deriving DecidableEq, Repr

/-- The anonymous-namespace `trim` helper. -/
def trimModel (s : String) : String :=
  String.mk (((s.toList.dropWhile isSpaceChar).reverse.dropWhile
    isSpaceChar).reverse)

/-- `AggregateOperator::funcName`. -/
def funcNameModel : AggFunc → String
  | .SUM => "SUM"
  | .COUNT => "COUNT"
  | .AVG => "AVG"
  | .MIN => "MIN"
  | .MAX => "MAX"

/-- `AggregateOperator::inferExpressionType`. -/
def inferExpressionTypeModel (e : Expression) (schema : Schema) :
    Except String ColumnType :=
  let fallback : ColumnType :=
    match e.getType with
    | .DOUBLE => .Double
    | .INTEGER => .Integer
    | _ => .String
  match e with
  | .columnRef name =>
      match schema.findColumn name with
      | some idx => (schema.getColumn idx).map (fun c => c.type)
      | none => .ok fallback
  | _ => .ok fallback

/-- `AggregateOperator::resolveGroupColumns`. -/
def resolveGroupColumnsModel (groupByColumns : List String)
    (childSchema : Schema) : Except String (List Nat) :=
  groupByColumns.mapM (fun name =>
    match childSchema.findColumn name with
    | some idx => .ok idx
    | none => .error ("group by column not found: " ++ name))

/-- One step of `AggregateOperator::prepareAggregates`. -/
def prepareOneAggregate (childSchema : Schema) (agg : PreparedAggregate) :
    Except String PreparedAggregate :=
  let aliasName := if agg.aliasName.isEmpty then
      funcNameModel agg.func ++ "(" ++
        (if agg.expression.isEmpty then "*" else agg.expression) ++ ")"
    else agg.aliasName
  if agg.func = AggFunc.COUNT ∧
      (agg.expression.isEmpty ∨ agg.expression = "*") then
    .ok { agg with
          aliasName := aliasName,
          exprNode := none,
          resultType := ColumnType.Integer }
  else if agg.expression.isEmpty then
    .error ("aggregate expression missing for " ++ aliasName)
  else do
    let e ← parseExpressionModel agg.expression
    let rt₀ ← inferExpressionTypeModel e childSchema
    let rt := if agg.func = AggFunc.AVG then ColumnType.Double
      else if agg.func = AggFunc.SUM ∧ rt₀ = ColumnType.String then
        ColumnType.Double
      else rt₀
    .ok { agg with
          aliasName := aliasName,
          exprNode := some e,
          resultType := rt }

def prepareAggregatesModel (childSchema : Schema)
    (aggs : List PreparedAggregate) : Except String (List PreparedAggregate) :=
  aggs.mapM (prepareOneAggregate childSchema)

/-- `AggregateOperator::buildOutputSchema`. -/
def buildOutputSchemaModel (groupByIndices : List Nat)
    (prepared : List PreparedAggregate) (childSchema : Schema) :
    Except String Schema := do
  let s₀ ← groupByIndices.foldlM (fun s idx => do
      let c ← childSchema.getColumn idx
      pure (s.addColumn c)) ({ } : Schema)
  pure (prepared.foldl (fun s agg =>
    s.addColumn { name := agg.aliasName, type := agg.resultType,
                  sourceIndex := s.columnCount }) s₀)

/-- `AggregateOperator::buildGroupKey`. -/
def buildGroupKeyModel (groupByIndices : List Nat) (t : Tuple) :
    Except String (List String) :=
  groupByIndices.mapM (fun idx => t.getValue idx)

/-- One accumulator update in `AggregateOperator::accumulateTuple`; the
null-expression branches for SUM and the impossible non-COUNT cases follow
the source (`exprNode` is always present for SUM with an expression, AVG,
MIN and MAX after `prepareAggregates`). -/
def accumulateOne (agg : PreparedAggregate) (t : Tuple)
    (acc : AggregateAccumulator) : Except String AggregateAccumulator :=
  match agg.func with
  | .COUNT => .ok { acc with count := acc.count + 1 }
  | .SUM =>
      match agg.exprNode with
      | none => .ok { acc with count := acc.count + 1 }
      | some e => do
          let v ← e.evaluate t
          if agg.resultType = ColumnType.Double then do
            let d ← if v.type = EType.DOUBLE then v.asDouble
              else (v.asInt).map fracOfInt
            .ok { acc with
                  doubleSum := fracAdd acc.doubleSum d,
                  hasValue := true }
          else do
            let i ← v.asInt
            .ok { acc with intSum := acc.intSum + i, hasValue := true }
  | .AVG =>
      match agg.exprNode with
      | none => .error ("aggregate expression missing")
      | some e => do
          let v ← e.evaluate t
          let d ← if v.type = EType.DOUBLE then v.asDouble
            else (v.asInt).map fracOfInt
          .ok { acc with
                doubleSum := fracAdd acc.doubleSum d,
                count := acc.count + 1,
                hasValue := true }
  | .MIN =>
      match agg.exprNode with
      | none => .error ("aggregate expression missing")
      | some e => do
          let v ← e.evaluate t
          if acc.hasValue = false then
            .ok { acc with extreme := v, hasValue := true }
          else do
            let cmp ← v.compare acc.extreme
            if cmp < 0 then .ok { acc with extreme := v } else .ok acc
  | .MAX =>
      match agg.exprNode with
      | none => .error ("aggregate expression missing")
      | some e => do
          let v ← e.evaluate t
          if acc.hasValue = false then
            .ok { acc with extreme := v, hasValue := true }
          else do
            let cmp ← v.compare acc.extreme
            if cmp > 0 then .ok { acc with extreme := v } else .ok acc

def accumulateAll : List PreparedAggregate → List AggregateAccumulator →
    Tuple → Except String (List AggregateAccumulator)
  | [], _, _ => .ok []
  | _ :: _, [], _ => .ok []
  | agg :: aggs, acc :: accs, t => do
      let acc₂ ← accumulateOne agg t acc
      let rest ← accumulateAll aggs accs t
      .ok (acc₂ :: rest)

/-- `AggregateOperator::accumulateTuple` over the whole group map
(`operator[]` default-constructs and `resize` pads with defaults). -/
def accumulateTupleModel (prepared : List PreparedAggregate)
    (groupByIndices : List Nat)
    (groups : List (List String × List AggregateAccumulator)) (t : Tuple) :
    Except String (List (List String × List AggregateAccumulator)) := do
  let key ← buildGroupKeyModel groupByIndices t
  match groups.find? (fun p => p.1 == key) with
  | some p => do
      let accs := if p.2.length < prepared.length then
          p.2 ++ List.replicate (prepared.length - p.2.length) { }
        else p.2
      let accs₂ ← accumulateAll prepared accs t
      .ok (groups.map (fun q => if q.1 == key then (q.1, accs₂) else q))
  | none => do
      let accs₂ ← accumulateAll prepared
        (List.replicate prepared.length { }) t
      .ok (groups ++ [(key, accs₂)])

/-- The per-aggregate output cell of `AggregateOperator::buildOutputTuple`
(`std::to_string` on doubles prints six fixed decimals). -/
def buildOutputValues : List PreparedAggregate →
    List AggregateAccumulator → List String
  | [], _ => []
  | _ :: _, [] => []
  | agg :: aggs, acc :: accs =>
      (match agg.func with
        | .COUNT => intToString acc.count
        | .SUM => if agg.resultType = ColumnType.Double then
              fracToFixed6 acc.doubleSum
            else intToString acc.intSum
        | .AVG => if acc.count = 0 then "0"
            else fracToFixed6 (fracDiv acc.doubleSum (fracOfInt acc.count))
        | .MIN => if acc.hasValue then acc.extreme.asString else "NULL"
        | .MAX => if acc.hasValue then acc.extreme.asString else "NULL") ::
        buildOutputValues aggs accs

def buildOutputTupleModel (prepared : List PreparedAggregate)
    (key : List String) (accs : List AggregateAccumulator)
    (outputSchema : Schema) : Tuple :=
  { values := key ++ buildOutputValues prepared accs,
    schema := some outputSchema }

/-- The cell produced for a default accumulator (empty group). -/
def defaultAggValue (agg : PreparedAggregate) : String :=
  match agg.func with
  | .COUNT => "0"
  | .SUM => if agg.resultType = ColumnType.Double then "0.000000" else "0"
  | .AVG => "0"
  | .MIN => "NULL"
  | .MAX => "NULL"

/-- `AggregateOperator::init` (constructor trimming included), producing
the materialized `results_` list. -/
def aggInitModel (groupByColumns : List String) (specs : List AggregateSpec)
    (havingClause : String) (childSchema : Schema)
    (childTuples : List Tuple) : Except String (List Tuple) := do
  let prepared₀ := specs.map (fun s =>
    { func := s.func, expression := trimModel s.expression,
      aliasName := trimModel s.aliasName : PreparedAggregate })
  let havingTrimmed := trimModel havingClause
  let groupByIndices ← resolveGroupColumnsModel groupByColumns childSchema
  let prepared ← prepareAggregatesModel childSchema prepared₀
  let outputSchema ← buildOutputSchemaModel groupByIndices prepared
    childSchema
  let havingExpr ← if havingTrimmed.isEmpty then pure none
    else do
      let e ← parseExpressionModel havingTrimmed
      pure (some e)
  let groups ← childTuples.foldlM
    (fun gs t => accumulateTupleModel prepared groupByIndices gs t) []
  let groups := if groupByColumns.isEmpty ∧ groups.isEmpty then
      [([], List.replicate prepared.length { })]
    else groups
  groups.foldlM (fun acc entry => do
    let tuple := buildOutputTupleModel prepared entry.1 entry.2 outputSchema
    match havingExpr with
    | none => pure (acc ++ [tuple])
    | some he => do
        let res ← he.evaluate tuple
        if res.asBool then pure (acc ++ [tuple]) else pure acc) []

def c7Schema : Schema :=
  Schema.ofColumns [{ name := "x", type := .Integer }]

def c7Specs : List AggregateSpec :=
  [{ func := .COUNT, expression := "", aliasName := "cnt" },
    { func := .SUM, expression := "x", aliasName := "s" },
    { func := .MIN, expression := "x", aliasName := "m" }]

def c7Res : List Tuple :=
  match aggInitModel [] c7Specs "" c7Schema [] with
  | .ok r => r
  | .error _ => []

def c7ResA : List Tuple :=
  match aggInitModel ["x"] c7Specs "" c7Schema [] with
  | .ok r => r
  | .error _ => [{ }]

/-! ### Logical plans, optimizer rewrites and physical plan generation
(parser/query_processor.h, parser/query_processor.cpp)

`RelAlgNode` keeps the fields of the header struct that the modelled code
paths read: `columns`, `tableName`, `condition`, `joinType`,
`orderByClause` and the child vector (modelled as the mutual list
`RelChildren`).  The display-only `operationDesc` field is omitted.  The
C++ `kGroup` conversion branch also reads `aggregates` and `havingClause`
members that do not exist in the shipped `query_processor.h`; the
embedding follows the header struct. -/

inductive JoinType where
  | kInner | kLeft | kRight
deriving DecidableEq, Repr

inductive RelAlgOpType where
  | kScan | kSelect | kProject | kDistinct | kJoin | kCrossProduct
  | kUnion | kIntersect | kDifference | kSort | kGroup
deriving DecidableEq, Repr

mutual
inductive RelAlgNode where
  | mk (opType : RelAlgOpType) (columns : List String) (tableName : String)
       (condition : String) (joinType : JoinType) (orderByClause : String)
       (children : RelChildren)
inductive RelChildren where
  | nil
  | cons (head : RelAlgNode) (tail : RelChildren)
end

mutual
/-- `LogicalOptimizer::pushDownSelection`: a Select whose first child is a
CrossProduct is replaced, without recursing further, by a Join that
carries the Select condition and adopts the CrossProduct children; every
other field of the new Join keeps the `RelAlgNode` constructor defaults
(empty columns, empty table name, `kInner`, empty order-by).  On any
other node the rewrite recurses into the children. -/
def pushDownSelection : RelAlgNode → RelAlgNode
  | .mk op cols tn cond jt ob children =>
      match op, children with
      | .kSelect, .cons (.mk .kCrossProduct _ _ _ _ _ gkids) _ =>
          .mk .kJoin [] "" cond .kInner "" gkids
      | _, _ => .mk op cols tn cond jt ob (pushDownChildren children)
def pushDownChildren : RelChildren → RelChildren
  | .nil => .nil
  | .cons c rest => .cons (pushDownSelection c) (pushDownChildren rest)
end

mutual
/-- `LogicalOptimizer::combineSelections`: a Select whose first child is
another Select is replaced, without recursing further, by a single Select
whose condition is the string `"(" + outer + ") AND (" + inner + ")"` and
whose children are the inner Select children; other fields take the
constructor defaults.  On any other node the rewrite recurses into the
children. -/
def combineSelections : RelAlgNode → RelAlgNode
  | .mk op cols tn cond jt ob children =>
      match op, children with
      | .kSelect, .cons (.mk .kSelect _ _ icond _ _ ikids) _ =>
          .mk .kSelect [] "" ("(" ++ cond ++ ") AND (" ++ icond ++ ")")
            .kInner "" ikids
      | _, _ => .mk op cols tn cond jt ob (combineChildren children)
def combineChildren : RelChildren → RelChildren
  | .nil => .nil
  | .cons c rest => .cons (combineSelections c) (combineChildren rest)
end

inductive PhysicalOpType where
  | kTableScan | kIndexScan | kFilter | kProjection | kDistinct
  | kNestedLoopJoin | kHashJoin | kMergeJoin | kSort | kAggregate
deriving DecidableEq, Repr

mutual
/-- `PhysicalPlanNode`.  The string-keyed `parameters` map is modelled as
an association list (the C++ `std::map` is only ever read through point
lookups here, so ordering is irrelevant); `description`, `algorithm`,
`planFlow` and `estimatedCost` are display or costing data that
`QueryExecutor::buildOperatorTree` never reads, and are omitted. -/
inductive PhysNode where
  | mk (opType : PhysicalOpType) (outputColumns : List String)
       (parameters : List (String × String)) (joinType : JoinType)
       (children : PhysChildren)
inductive PhysChildren where
  | nil
  | cons (head : PhysNode) (tail : PhysChildren)
end

/-- Attach the recursively converted children to a node built by
`chooseJoinMethod` (the C++ code appends them after the switch). -/
def PhysNode.withChildren : PhysNode → PhysChildren → PhysNode
  | .mk op cols ps jt _, cs => .mk op cols ps jt cs

def joinTypeName : JoinType → String
  | .kInner => "INNER"
  | .kLeft => "LEFT"
  | .kRight => "RIGHT"

/-- `PhysicalPlanGenerator::stripTablePrefix` (renamed): the substring
after the first dot, or the name unchanged when there is no dot or the
dot is the final character. -/
def stripTableQual (name : String) : String :=
  let l := name.toList
  match l.findIdx? (fun c => c == '.') with
  | none => name
  | some pos => if pos + 1 ≥ l.length then name else String.mk (l.drop (pos + 1))

/-- `PhysicalPlanGenerator::extractColumnLiteralEquality`: parse the
condition; succeed only on a top-level equality between a column
reference and a literal (either side), returning the column name and the
literal rendered with `asString`. -/
def extractColumnLiteralEqualityModel (condition : String) :
    Option (String × String) :=
  if condition = "" then none
  else
    match parseExpressionModel condition with
    | .error _ => none
    | .ok (.comparison .EQ (.columnRef l) (.literal v)) => some (l, v.asString)
    | .ok (.comparison .EQ (.literal v) (.columnRef r)) => some (r, v.asString)
    | .ok _ => none

/-- `PhysicalPlanGenerator::extractJoinColumns`: parse the condition and
succeed only on a top-level equality between two column references. -/
def extractJoinColumnsModel (condition : String) : Option (String × String) :=
  if condition = "" then none
  else
    match parseExpressionModel condition with
    | .ok (.comparison .EQ (.columnRef l) (.columnRef r)) => some (l, r)
    | _ => none

/-- `PhysicalPlanGenerator::chooseJoinMethod`, without the recursively
converted children (appended afterwards by `convertNode`): a non-inner
join always becomes a nested-loop join; an inner join whose condition is
a column-column equality becomes a hash join keyed on those column names;
any other inner join becomes a nested-loop join. -/
def chooseJoinMethodModel (cond : String) (jt : JoinType) : PhysNode :=
  match jt with
  | .kInner =>
      (match extractJoinColumnsModel cond with
       | some ks =>
           .mk .kHashJoin []
             [("condition", cond), ("left_key", ks.1), ("right_key", ks.2),
              ("join_type", "INNER")] .kInner .nil
       | none =>
           .mk .kNestedLoopJoin []
             [("condition", cond), ("join_type", "INNER")] .kInner .nil)
  | _ =>
      .mk .kNestedLoopJoin []
        [("condition", cond), ("join_type", joinTypeName jt)] jt .nil

mutual
/-- `PhysicalPlanGenerator::convertNode`.  `findIdx` stands for the
`db_.findIndexForColumn` lookup.  A Select over a Scan with a
column-literal equality on an indexed column becomes an IndexScan and
returns early (its children are not converted, as in the source); any
other Select becomes a Filter with a `condition` parameter.  A
CrossProduct becomes an inner nested-loop join without a `condition`
parameter.  The informational parameters written by `chooseScanMethod`
(`blocks`, `records`) only feed `estimateCost` and are omitted.  The
`kUnion`, `kIntersect` and `kDifference` tags take the default switch
branch, a TableScan labelled as unknown with no `table` parameter. -/
def convertNode (findIdx : String → String → Option String) :
    RelAlgNode → PhysNode
  | .mk op cols tn cond jt ob children =>
      match op with
      | .kScan =>
          .mk .kTableScan [] [("table", tn)] .kInner
            (convertChildren findIdx children)
      | .kSelect =>
          (match children with
           | .cons (.mk .kScan _ stn _ _ _ _) _ =>
               (match extractColumnLiteralEqualityModel cond with
                | some eq =>
                    (match findIdx stn (stripTableQual eq.1) with
                     | some indexName =>
                         .mk .kIndexScan []
                           [("table", stn), ("index", indexName),
                            ("key", eq.2)] .kInner .nil
                     | none =>
                         .mk .kFilter [] [("condition", cond)] .kInner
                           (convertChildren findIdx children))
                | none =>
                    .mk .kFilter [] [("condition", cond)] .kInner
                      (convertChildren findIdx children))
           | _ =>
               .mk .kFilter [] [("condition", cond)] .kInner
                 (convertChildren findIdx children))
      | .kProject =>
          .mk .kProjection cols [] .kInner (convertChildren findIdx children)
      | .kDistinct =>
          .mk .kDistinct [] [] .kInner (convertChildren findIdx children)
      | .kJoin =>
          (chooseJoinMethodModel cond jt).withChildren
            (convertChildren findIdx children)
      | .kCrossProduct =>
          .mk .kNestedLoopJoin [] [("join_type", "INNER")] .kInner
            (convertChildren findIdx children)
      | .kSort =>
          .mk .kSort []
            (if ob ≠ "" then [("order_by", ob)]
             else if cond ≠ "" then [("order_by", cond)] else [])
            .kInner (convertChildren findIdx children)
      | .kGroup =>
          .mk .kAggregate []
            (if cols.isEmpty then []
             else [("group_by", String.intercalate "," cols)])
            .kInner (convertChildren findIdx children)
      | .kUnion =>
          .mk .kTableScan [] [] .kInner (convertChildren findIdx children)
      | .kIntersect =>
          .mk .kTableScan [] [] .kInner (convertChildren findIdx children)
      | .kDifference =>
          .mk .kTableScan [] [] .kInner (convertChildren findIdx children)
def convertChildren (findIdx : String → String → Option String) :
    RelChildren → PhysChildren
  | .nil => .nil
  | .cons c rest => .cons (convertNode findIdx c) (convertChildren findIdx rest)
end

/-! ### Executing physical plans (executor.cpp, table_scan.cpp,
filter.cpp, join.cpp)

A table is modelled as the executor sees it after
`TableScanOperator::init`: the runtime schema produced by
`buildSchemaFromTable` and the record values in block iteration order.
`evalPhys` denotes a physical operator tree as the finite list of tuples
it streams, together with its output schema; a thrown C++ exception
becomes `Except.error`.  The C++ split between the build phase
(`buildOperatorTree`, which extracts parameters and parses filter
conditions) and the execution phase (`init`/`next`) is folded into one
recursive pass, so when several stages fail the surfaced message can
differ from the C++ exception order; the theorems below only ever relate
runs in which the selected error, if any, is the same on both sides.
The `kIndexScan`, `kProjection`, `kDistinct`, `kSort` and `kAggregate`
operators are outside the slice needed by the optimizer-rewrite claims
and evaluate to an explicit error; no theorem below reaches them.
`kMergeJoin` faithfully mirrors the `buildOperatorTree` default branch,
which throws for it. -/

def c2Scan (tn : String) : RelAlgNode := .mk .kScan [] tn "" .kInner "" .nil

/-- Select (a <= 1) over Select (a >= 1) over Scan t1: the shape
rewritten by `combineSelections`. -/
def c2NestedPlan : RelAlgNode :=
  .mk .kSelect [] "" "a <= 1" .kInner ""
    (.cons (.mk .kSelect [] "" "a >= 1" .kInner ""
      (.cons (c2Scan "t1") .nil)) .nil)

inductive UndoType where
  | Insert | Delete | Update
deriving DecidableEq, Repr

structure UndoEntry where
  type : UndoType
  slot : Nat := 0
  before : Option Record := none
  after : Option Record := none
deriving DecidableEq, Repr

instance : DecidableEq BPlusTreeIndex := fun a b =>
  match a, b with
  | ⟨d1, t1⟩, ⟨d2, t2⟩ =>
      if hd : d1 = d2 then
        if ht : t1 = t2 then isTrue (by rw [hd, ht])
        else isFalse (by intro h; cases h; exact ht rfl)
      else isFalse (by intro h; cases h; exact hd rfl)

structure FacadeState where
  slots : List (Option Record) := []
  indexes : List BPlusTreeIndex := []
  undoLog : List UndoEntry := []
  transactionActive : Bool := false
deriving DecidableEq

def c1Addr : BlockAddress := { table := "t", index := 0 }

/-- Modelled from the spec: `get(slot)` returns the record when the slot
is active, absent when it does not exist or is tombstoned. -/
def blockGet (slots : List (Option Record)) (slot : Nat) : Option Record :=
  slots.getD slot none

/-- Modelled from the spec: `insert(record)` reuses a tombstoned slot id
when possible, otherwise appends a new slot; returns the slot id. -/
def blockInsertSlot (slots : List (Option Record)) (r : Record) :
    List (Option Record) × Nat :=
  match slots.findIdx? Option.isNone with
  | some i => (slots.set i (some r), i)
  | none => (slots ++ [some r], slots.length)

/-- `DatabaseSystem::enforceUniqueKeys`: probe every UNIQUE index of the
table with the projected key (skipping non-unique indexes, empty keys,
and a hit on the own slot during update) and fail on any other hit. -/
def enforceUniqueKeysModel :
    List BPlusTreeIndex → Record → Option Nat → Except String Unit
  | [], _, _ => .ok ()
  | idx :: rest, r, selfSlot =>
      if idx.definition.unique = false then
        enforceUniqueKeysModel rest r selfSlot
      else
        let key := idx.projectKey r
        if key = "" then enforceUniqueKeysModel rest r selfSlot
        else
          match idx.find key with
          | none => enforceUniqueKeysModel rest r selfSlot
          | some existing =>
              if selfSlot = some existing.slot then
                enforceUniqueKeysModel rest r selfSlot
              else .error ("duplicate key " ++ key ++ " for index "
                ++ idx.definition.name)

/-- `DatabaseSystem::applyIndexInsert` over the indexes of the table. -/
def applyIndexInsertModel (addr : BlockAddress) (slot : Nat) (r : Record) :
    List BPlusTreeIndex → Except String (List BPlusTreeIndex)
  | [] => .ok []
  | idx :: rest => do
      let idx1 ← idx.insertRecord r addr slot
      let rest1 ← applyIndexInsertModel addr slot r rest
      .ok (idx1 :: rest1)

/-- `DatabaseSystem::applyIndexDelete` over the indexes of the table. -/
def applyIndexDeleteModel (r : Record) (idxs : List BPlusTreeIndex) :
    List BPlusTreeIndex :=
  idxs.map (fun idx => idx.deleteRecord r)

/-- `DatabaseSystem::applyIndexUpdate` over the indexes of the table. -/
def applyIndexUpdateModel (addr : BlockAddress) (slot : Nat)
    (before after : Record) :
    List BPlusTreeIndex → Except String (List BPlusTreeIndex)
  | [] => .ok []
  | idx :: rest => do
      let idx1 ← idx.updateRecord before after addr slot
      let rest1 ← applyIndexUpdateModel addr slot before after rest
      .ok (idx1 :: rest1)

/-- `DatabaseSystem::insertRecord`: enforce unique keys, place the record
in the block, maintain every index (a failure there unwinds the slot via
the error path), and push an Insert undo entry when a transaction is
active and undo collection is not suppressed. -/
def insertRecordModel (st : FacadeState) (suppressUndo : Bool) (r : Record) :
    Except String FacadeState := do
  let _ ← enforceUniqueKeysModel st.indexes r none
  let placed := blockInsertSlot st.slots r
  let idxs ← applyIndexInsertModel c1Addr placed.2 r st.indexes
  let undo1 :=
    if st.transactionActive ∧ suppressUndo = false then
      st.undoLog ++ [{ type := .Insert, slot := placed.2, after := some r }]
    else st.undoLog
  .ok { st with slots := placed.1, indexes := idxs, undoLog := undo1 }

/-- `DatabaseSystem::deleteRecord`: tombstone the slot; on success delete
the before image from every index and push a Delete undo entry when
collecting undo.  Returns the success flag of the block erase. -/
def deleteRecordModel (st : FacadeState) (suppressUndo : Bool) (slot : Nat) :
    FacadeState × Bool :=
  match blockGet st.slots slot with
  | none => (st, false)
  | some before =>
      let slots1 := st.slots.set slot none
      let idxs := applyIndexDeleteModel before st.indexes
      let undo1 :=
        if st.transactionActive ∧ suppressUndo = false then
          st.undoLog ++
            [{ type := .Delete, slot := slot, before := some before }]
        else st.undoLog
      ({ st with slots := slots1, indexes := idxs, undoLog := undo1 }, true)

/-- `DatabaseSystem::updateRecord`: enforce unique keys (skipping the own
slot), overwrite in place, run the index update, and push an Update undo
entry carrying the before image. -/
def updateRecordModel (st : FacadeState) (suppressUndo : Bool) (slot : Nat)
    (r : Record) : Except String (FacadeState × Bool) := do
  let _ ← enforceUniqueKeysModel st.indexes r (some slot)
  match blockGet st.slots slot with
  | none => .ok (st, false)
  | some before => do
      let slots1 := st.slots.set slot (some r)
      let idxs ← applyIndexUpdateModel c1Addr slot before r st.indexes
      let undo1 :=
        if st.transactionActive ∧ suppressUndo = false then
          st.undoLog ++
            [{ type := .Update, slot := slot, before := some before }]
        else st.undoLog
      .ok ({ st with slots := slots1, indexes := idxs, undoLog := undo1 },
           true)

/-- `DatabaseSystem::restoreDeletedRecord`: un-tombstone the slot (the
page still holds the payload; the caller passes the before image), then
re-insert the record into every index. -/
def restoreDeletedRecordModel (st : FacadeState) (slot : Nat) (r : Record) :
    Except String (FacadeState × Bool) :=
  if slot < st.slots.length ∧ blockGet st.slots slot = none then do
    let slots1 := st.slots.set slot (some r)
    let idxs ← applyIndexInsertModel c1Addr slot r st.indexes
    .ok ({ st with slots := slots1, indexes := idxs }, true)
  else .ok (st, false)

def findMatchingSlot (slots : List (Option Record)) (target : Record) :
    Option Nat :=
  slots.findIdx? (fun s => decide (s = some target))

/-- `DatabaseSystem::applyUndo`: Insert undoes to a slot delete (falling
back to deleting a record with equal values when the slot is gone);
Delete undoes to a restore at the slot with the before image (falling
back to a fresh insert); Update undoes to an update with the before
image.  Always called with undo collection suppressed. -/
def applyUndoModel (st : FacadeState) (entry : UndoEntry) :
    Except String FacadeState :=
  match entry.type with
  | .Insert =>
      let deleted := deleteRecordModel st true entry.slot
      if deleted.2 then .ok deleted.1
      else
        match entry.after with
        | some a =>
            (match findMatchingSlot deleted.1.slots a with
             | some i => .ok (deleteRecordModel deleted.1 true i).1
             | none => .ok deleted.1)
        | none => .ok deleted.1
  | .Delete =>
      match entry.before with
      | some b => do
          let restored ← restoreDeletedRecordModel st entry.slot b
          if restored.2 then .ok restored.1
          else insertRecordModel restored.1 true b
      | none => .ok st
  | .Update =>
      match entry.before with
      | some b => do
          let updated ← updateRecordModel st true entry.slot b
          .ok updated.1
      | none => .ok st

/-- `DatabaseSystem::beginTransaction` (fails when one is active; clears
the undo buffer). -/
def beginTransactionModel (st : FacadeState) : Except String FacadeState :=
  if st.transactionActive then .error "transaction already in progress"
  else .ok { st with transactionActive := true, undoLog := [] }

/-- `DatabaseSystem::rollbackTransaction`: replay the undo list in
reverse with WAL and undo collection suppressed, then clear the undo
buffer and leave the transaction. -/
def rollbackTransactionModel (st : FacadeState) : Except String FacadeState :=
  if st.transactionActive = false then
    .error "no active transaction to rollback"
  else do
    let st1 ← List.foldlM applyUndoModel st st.undoLog.reverse
    .ok { st1 with undoLog := [], transactionActive := false }

/-- A NON-unique index on column 0 of table t (enforceUniqueKeys does not
probe it, so duplicate keys reach the B+ tree). -/
def c1Index0 : BPlusTreeIndex :=
  BPlusTreeIndex.mk' { name := "idx_t_c", tableName := "t",
                       columnName := "c", columnIndex := 0, keyLength := 8,
                       unique := false } 4096

def c1Rec1 : Record := { values := ["k", "1"] }

def c1Rec2 : Record := { values := ["k", "2"] }

def c1State0 : FacadeState := { indexes := [c1Index0] }

/-- Baseline: insert the first record outside any explicit transaction. -/
def c1Setup : Except String FacadeState :=
  insertRecordModel c1State0 false c1Rec1

/-- The transaction of the counterexample: begin, insert a second record
with the same index key, rollback. -/
def c1Run : Except String FacadeState := do
  let st1 ← c1Setup
  let st2 ← beginTransactionModel st1
  let st3 ← insertRecordModel st2 false c1Rec2
  rollbackTransactionModel st3

def c1St1 : FacadeState :=
  match c1Setup with
  | .ok s => s
  | .error _ => c1State0

def c1St4 : FacadeState :=
  match c1Run with
  | .ok s => s
  | .error _ => c1State0

/-! ## Theorems -/

theorem charEqOfToNatEq {a b : Char} (h : a.toNat = b.toNat) : a = b := by
  have hv : a.val = b.val := by
    unfold Char.toNat at h
    exact UInt32.eq_of_val_eq (Fin.ext h)
  exact Char.ext hv

theorem charListLt_irrefl : ∀ l : List Char, charListLt l l = false := by
  intro l
  induction l with
  | nil => rfl
  | cons a as ih => simp [charListLt, ih]

theorem charListLt_asymm : ∀ {l₁ l₂ : List Char},
    charListLt l₁ l₂ = true → charListLt l₂ l₁ = false := by
  intro l₁
  induction l₁ with
  | nil => intro l₂ h; cases l₂ <;> simp_all [charListLt]
  | cons a as ih =>
      intro l₂ h
      cases l₂ with
      | nil => simp_all [charListLt]
      | cons b bs =>
          by_cases hab : a.toNat < b.toNat
          · have hba : ¬ b.toNat < a.toNat := by omega
            simp [charListLt, hab, hba]
          · by_cases hba : b.toNat < a.toNat
            · simp [charListLt, hab, hba] at h
            · simp [charListLt, hab, hba] at h ⊢
              exact ih h

theorem charListLt_eq_of_not_lt : ∀ {l₁ l₂ : List Char},
    charListLt l₁ l₂ = false → charListLt l₂ l₁ = false → l₁ = l₂ := by
  intro l₁
  induction l₁ with
  | nil => intro l₂ h₁ _; cases l₂ <;> simp_all [charListLt]
  | cons a as ih =>
      intro l₂ h₁ h₂
      cases l₂ with
      | nil => simp_all [charListLt]
      | cons b bs =>
          by_cases hab : a.toNat < b.toNat
          · simp [charListLt, hab] at h₁
          · by_cases hba : b.toNat < a.toNat
            · simp [charListLt, hba, hab] at h₂
            · have hv : a.toNat = b.toNat := by omega
              have hc : a = b := charEqOfToNatEq hv
              subst hc
              simp [charListLt, hab] at h₁ h₂
              exact congrArg (a :: ·) (ih h₁ h₂)

theorem charListLt_trans : ∀ {l₁ l₂ l₃ : List Char},
    charListLt l₁ l₂ = true → charListLt l₂ l₃ = true → charListLt l₁ l₃ = true := by
  intro l₁
  induction l₁ with
  | nil =>
      intro l₂ l₃ h₁ h₂
      cases l₂ with
      | nil => simp [charListLt] at h₁
      | cons b bs => cases l₃ <;> simp_all [charListLt]
  | cons a as ih =>
      intro l₂ l₃ h₁ h₂
      cases l₂ with
      | nil => simp [charListLt] at h₁
      | cons b bs =>
          cases l₃ with
          | nil => simp [charListLt] at h₂
          | cons c cs =>
              by_cases hab : a.toNat < b.toNat
              · by_cases hbc : b.toNat < c.toNat
                · have : a.toNat < c.toNat := lt_trans hab hbc
                  simp [charListLt, this]
                · by_cases hcb : c.toNat < b.toNat
                  · simp [charListLt, hbc, hcb] at h₂
                  · have hbv : b.toNat = c.toNat := by omega
                    have : a.toNat < c.toNat := by omega
                    simp [charListLt, this]
              · by_cases hba : b.toNat < a.toNat
                · simp [charListLt, hab, hba] at h₁
                · have hav : a.toNat = b.toNat := by omega
                  simp [charListLt, hab, hba] at h₁
                  by_cases hbc : b.toNat < c.toNat
                  · have : a.toNat < c.toNat := by omega
                    simp [charListLt, this]
                  · by_cases hcb : c.toNat < b.toNat
                    · simp [charListLt, hbc, hcb] at h₂
                    · have hbv : b.toNat = c.toNat := by omega
                      simp [charListLt, hbc, hcb] at h₂
                      have hac : ¬ a.toNat < c.toNat := by omega
                      have hca : ¬ c.toNat < a.toNat := by omega
                      simp [charListLt, hac, hca]
                      exact ih h₁ h₂

theorem keyLt_irrefl (a : String) : keyLt a a = false := charListLt_irrefl _

theorem keyLt_asymm {a b : String} (h : keyLt a b = true) : keyLt b a = false :=
  charListLt_asymm h

theorem keyLt_trans {a b c : String} (h₁ : keyLt a b = true) (h₂ : keyLt b c = true) :
    keyLt a c = true := charListLt_trans h₁ h₂

theorem keyLt_eq_of_not_lt {a b : String} (h₁ : keyLt a b = false)
    (h₂ : keyLt b a = false) : a = b := by
  have hdata := charListLt_eq_of_not_lt h₁ h₂
  cases a; cases b
  simpa [String.toList] using congrArg String.mk hdata



/-- C10: when both operands of a comparison evaluate to NULL,
`ExprValue::compare` returns 0, so the comparison yields true for the
operators =, <= and >= and false for <> (and for < and >), rather than
yielding NULL or false for all operators. -/
theorem C10_null_compare (op : CompOp) (l r : Expression) (t : Tuple)
    (lv rv : ExprValue)
    (hl : Expression.evaluate l t = .ok lv)
    (hr : Expression.evaluate r t = .ok rv)
    (hnl : lv.isNull = true) (hnr : rv.isNull = true) :
    ExprValue.compare lv rv = .ok 0 ∧
    Expression.evaluate (.comparison op l r) t =
      .ok { type := .BOOLEAN,
            stringValue :=
              match op with
              | .EQ | .LE | .GE => "true"
              | .NE | .LT | .GT => "false" } := by
  have hcmp : ExprValue.compare lv rv = .ok 0 := by
    simp [ExprValue.compare, hnl, hnr]
  refine ⟨hcmp, ?_⟩
  simp only [Expression.evaluate, hl, hr, hcmp, Bind.bind, Except.bind]
  cases op <;> simp

/-- C10 witness: two NULL literals compare equal; = yields true, <> false. -/
theorem C10_null_compare_witness :
    ExprValue.compare { type := .NULL_VALUE, stringValue := "NULL" }
        { type := .NULL_VALUE, stringValue := "NULL" } = .ok 0 ∧
    Expression.evaluate
        (.comparison .EQ (.literal { type := .NULL_VALUE, stringValue := "NULL" })
          (.literal { type := .NULL_VALUE, stringValue := "NULL" })) {} =
      .ok { type := .BOOLEAN, stringValue := "true" } ∧
    Expression.evaluate
        (.comparison .NE (.literal { type := .NULL_VALUE, stringValue := "NULL" })
          (.literal { type := .NULL_VALUE, stringValue := "NULL" })) {} =
      .ok { type := .BOOLEAN, stringValue := "false" } := by
  have hv : Expression.evaluate
      (.literal { type := .NULL_VALUE, stringValue := "NULL" }) {} =
      .ok { type := .NULL_VALUE, stringValue := "NULL" } := rfl
  refine ⟨?_, ?_, ?_⟩
  · exact (C10_null_compare .EQ (.literal { type := .NULL_VALUE, stringValue := "NULL" })
      (.literal { type := .NULL_VALUE, stringValue := "NULL" }) {}
      { type := .NULL_VALUE, stringValue := "NULL" }
      { type := .NULL_VALUE, stringValue := "NULL" } hv hv rfl rfl).1
  · exact (C10_null_compare .EQ (.literal { type := .NULL_VALUE, stringValue := "NULL" })
      (.literal { type := .NULL_VALUE, stringValue := "NULL" }) {}
      { type := .NULL_VALUE, stringValue := "NULL" }
      { type := .NULL_VALUE, stringValue := "NULL" } hv hv rfl rfl).2
  · exact (C10_null_compare .NE (.literal { type := .NULL_VALUE, stringValue := "NULL" })
      (.literal { type := .NULL_VALUE, stringValue := "NULL" }) {}
      { type := .NULL_VALUE, stringValue := "NULL" }
      { type := .NULL_VALUE, stringValue := "NULL" } hv hv rfl rfl).2

/-- C5 counterexample: a Binary modulo expression whose operands are doubles
and whose right operand evaluates to zero does NOT fail with a domain
error; `BinaryOpExpr::evaluate` computes `std::fmod(left, 0.0)` and returns
a DOUBLE value (NaN), contradicting the claim that division or modulo by
zero fails in the double case as well. -/
theorem C5_counterexample :
    Expression.evaluate
        (.binaryOp .MOD (.literal { type := .DOUBLE, stringValue := "1.5" })
          (.literal { type := .DOUBLE, stringValue := "0" })) {} =
      .ok { type := .DOUBLE, stringValue := "nan" } := by
  decide

/-- C5 (amended): with both operands evaluating successfully, division or
modulo by an integer zero fails with the division-by-zero domain error, and
double division by zero fails as well; double modulo by zero does not fail
and instead yields the DOUBLE result of `std::fmod` (NaN). -/
theorem C5_amended_division_errors (l r : Expression) (t : Tuple)
    (lv rv : ExprValue)
    (hl : Expression.evaluate l t = .ok lv)
    (hr : Expression.evaluate r t = .ok rv) :
    (lv.type ≠ .DOUBLE → rv.type ≠ .DOUBLE →
      ∀ a, lv.asInt = .ok a → rv.asInt = .ok 0 →
      Expression.evaluate (.binaryOp .DIV l r) t = .error "division by zero" ∧
      Expression.evaluate (.binaryOp .MOD l r) t = .error "division by zero")
    ∧ ((lv.type = .DOUBLE ∨ rv.type = .DOUBLE) →
      ∀ x r0, lv.doubleOperand = .ok x → rv.doubleOperand = .ok r0 →
      r0.n = 0 → 0 < r0.d →
      Expression.evaluate (.binaryOp .DIV l r) t = .error "division by zero" ∧
      Expression.evaluate (.binaryOp .MOD l r) t =
        .ok { type := .DOUBLE, stringValue := "nan" }) := by
  constructor
  · intro hld hrd a ha h0
    have hnd : ¬ (lv.type = .DOUBLE ∨ rv.type = .DOUBLE) := by
      intro h; rcases h with h | h
      · exact hld h
      · exact hrd h
    constructor <;>
      simp [Expression.evaluate, hl, hr, Expression.evalBinary, hnd, ha, h0,
        Bind.bind, Except.bind]
  · intro hd x r0 hx h0 hz hdpos
    have habs : fracLt (fracAbs r0) epsFrac = true := by
      simp [fracLt, fracAbs, epsFrac, hz]
      omega
    have hzero : fracIsZero r0 = true := by
      simp [fracIsZero, hz]
    constructor <;>
      simp [Expression.evaluate, hl, hr, Expression.evalBinary, hd, hx, h0,
        habs, hzero, Bind.bind, Except.bind]

/-- C5 amended witness: 7 / 0 and 7 % 0 fail on integers; 1.5 / 0 fails and
1.5 % 0 yields NaN when the left operand is a double. -/
theorem C5_amended_division_errors_witness :
    Expression.evaluate
        (.binaryOp .DIV (.literal { type := .INTEGER, stringValue := "7" })
          (.literal { type := .INTEGER, stringValue := "0" })) {} =
      .error "division by zero" ∧
    Expression.evaluate
        (.binaryOp .MOD (.literal { type := .INTEGER, stringValue := "7" })
          (.literal { type := .INTEGER, stringValue := "0" })) {} =
      .error "division by zero" ∧
    Expression.evaluate
        (.binaryOp .DIV (.literal { type := .DOUBLE, stringValue := "1.5" })
          (.literal { type := .INTEGER, stringValue := "0" })) {} =
      .error "division by zero" ∧
    Expression.evaluate
        (.binaryOp .MOD (.literal { type := .DOUBLE, stringValue := "1.5" })
          (.literal { type := .INTEGER, stringValue := "0" })) {} =
      .ok { type := .DOUBLE, stringValue := "nan" } := by
  have hint := (C5_amended_division_errors
    (.literal { type := .INTEGER, stringValue := "7" })
    (.literal { type := .INTEGER, stringValue := "0" }) {}
    { type := .INTEGER, stringValue := "7" }
    { type := .INTEGER, stringValue := "0" } rfl rfl).1
    (by decide) (by decide) 7 (by decide) (by decide)
  have hdbl := (C5_amended_division_errors
    (.literal { type := .DOUBLE, stringValue := "1.5" })
    (.literal { type := .INTEGER, stringValue := "0" }) {}
    { type := .DOUBLE, stringValue := "1.5" }
    { type := .INTEGER, stringValue := "0" } rfl rfl).2
    (by decide) { n := 15, d := 10 } { n := 0, d := 1 }
    (by decide) (by decide) (by decide) (by decide)
  exact ⟨hint.1, hint.2, hdbl.1, hdbl.2⟩

mutual

/-- Find-then-insert agreement on the descent path: when `find` locates
`key`, `insertRecursive` with `failOnDuplicate = false` reaches the same
leaf, produces no split, and the re-run `find` returns the freshly stored
pointer. -/
theorem findInsertDupNode (mk : Nat) (key : String) (ptr : IndexPointer) :
    (n : BTNode) → (findNode key n).isSome = true →
      ∃ n', insertRecNode mk key ptr false n = .ok (n', none) ∧
        findNode key n' = some ptr
  | .leaf ks vs, h => by
      simp only [findNode] at h
      rcases hks : ks.get? (lowerBoundIdx ks key) with _ | k
      · simp only [hks, Option.isSome_none] at h; exact absurd h (by simp)
      · simp only [hks] at h
        by_cases hk : k = key
        · subst hk
          rw [if_pos rfl] at h
          have hlen : lowerBoundIdx ks k < vs.length := by
            rcases hvs : vs.get? (lowerBoundIdx ks k) with _ | v
            · rw [hvs] at h; simp at h
            · exact (List.get?_eq_some.mp hvs).fst
          refine ⟨.leaf ks (vs.set (lowerBoundIdx ks k) ptr), ?_, ?_⟩
          · simp only [insertRecNode, hks]
            simp
          · simp only [findNode, hks]
            simp [List.getElem?_set_eq_of_lt ptr hlen]
        · rw [if_neg hk] at h
          simp at h
  | .internal ks cs, h => by
      simp only [findNode] at h
      obtain ⟨cs', hrec, hfind⟩ :=
        findInsertDupChild mk key ptr (upperBoundIdx ks key) cs h
      refine ⟨.internal ks cs', ?_, ?_⟩
      · simp only [insertRecNode, hrec]
        rfl
      · simp only [findNode, hfind]

theorem findInsertDupChild (mk : Nat) (key : String) (ptr : IndexPointer) :
    (pos : Nat) → (l : NodeList) → (findChild key pos l).isSome = true →
      ∃ l', insertRecChild mk key ptr false pos l = .ok (l', none) ∧
        findChild key pos l' = some ptr
  | _, .nil, h => by simp [findChild] at h
  | 0, .cons hd tl, h => by
      simp only [findChild] at h
      obtain ⟨n', hrec, hfind⟩ := findInsertDupNode mk key ptr hd h
      refine ⟨.cons n' tl, ?_, ?_⟩
      · simp only [insertRecChild, hrec]
        rfl
      · simp only [findChild, hfind]
  | pos + 1, .cons hd tl, h => by
      simp only [findChild] at h
      obtain ⟨tl', hrec, hfind⟩ := findInsertDupChild mk key ptr pos tl h
      refine ⟨.cons hd tl', ?_, ?_⟩
      · simp only [insertRecChild, hrec]
        rfl
      · simp only [findChild, hfind]

end

/-- C3 counterexample: inserting an already-present key with `insertUnique`
does not fail with a duplicate-key error and does not leave the tree
unchanged: both call sites pass `failOnDuplicate = false` to
`insertRecursive` (b_plus_tree.h lines 72-86), so the second insert
succeeds and replaces the stored pointer in place. -/
theorem C3_counterexample :
    ((BPlusTree.initializeTree 62 10).insertUnique "a" c3Ptr1).map
        (fun t => t.find "a") = .ok (some c3Ptr1) ∧
    (((BPlusTree.initializeTree 62 10).insertUnique "a" c3Ptr1).bind
        (fun t => t.insertUnique "a" c3Ptr2)).map
        (fun t => t.find "a") = .ok (some c3Ptr2) := by
  exact ⟨by decide, by decide⟩

/-- C3 (amended): `insertUnique` and `insertOrAssign` behave identically
(both pass `failOnDuplicate = false`); on an initialized tree, inserting a
key that is already present succeeds and replaces the stored pointer in
place, exactly as claimed for `insertOrAssign`. -/
theorem C3_amended_insert_semantics (t : BPlusTree) (key : String)
    (ptr : IndexPointer) (hmk : t.maxKeys ≠ 0) :
    t.insertUnique key ptr = t.insertOrAssign key ptr ∧
    ((t.find key).isSome = true →
      ∃ t', t.insertUnique key ptr = .ok t' ∧ t'.find key = some ptr) := by
  refine ⟨rfl, ?_⟩
  intro hfind
  rcases hroot : t.root with _ | root
  · rw [BPlusTree.find, hroot] at hfind; simp at hfind
  · rw [BPlusTree.find, hroot] at hfind
    obtain ⟨n', hrec, hf⟩ := findInsertDupNode t.maxKeys key ptr root hfind
    refine ⟨{ t with root := some n' }, ?_, ?_⟩
    · rw [BPlusTree.insertUnique, BPlusTree.insertWith]
      simp [hmk, hroot, hrec, Bind.bind, Except.bind]
    · simp [BPlusTree.find, hf]

/-- C3 amended witness: on a one-leaf tree holding key a, `insertUnique`
with key a equals `insertOrAssign` and replaces the stored pointer. -/
theorem C3_amended_insert_semantics_witness :
    c3SampleTree.maxKeys ≠ 0 ∧
    (c3SampleTree.find "a").isSome = true ∧
    c3SampleTree.insertUnique "a" c3Ptr2 = c3SampleTree.insertOrAssign "a" c3Ptr2 ∧
    (c3SampleTree.insertUnique "a" c3Ptr2).map (fun t => t.find "a") =
      .ok (some c3Ptr2) := by
  have h := C3_amended_insert_semantics c3SampleTree "a" c3Ptr2 (by decide)
  obtain ⟨t', heq, hfind⟩ := h.2 (by decide)
  refine ⟨by decide, by decide, h.1, ?_⟩
  rw [heq]
  simp [Except.map, hfind]

/-- C4 counterexample: with pageSize 132 and keyLength 10 the configured
maximum keys per node is 5 = (132 - 32) / (10 + 8 + 2), not
max(3, (132 - 32) / (10 + 12)) = 4 as the claim computes. -/
theorem C4_counterexample :
    (BPlusTree.initializeTree 132 10).maxKeys ≠ max 3 ((132 - 32) / (10 + 12)) ∧
    (BPlusTree.initializeTree 132 10).maxKeys = 5 ∧
    max 3 ((132 - 32) / (10 + 12)) = 4 := by
  exact ⟨by decide, by decide, by decide⟩

/-- C4 (amended): after initialize(pageSize, keyLength) the maximum keys
per node is max(3, (pageSize - 32) / (keyLength + 10)) - the per-entry
footprint is the key plus an 8-byte pointer and a 2-byte slot - and the
minimum is max(1, maxKeys / 2).  (Natural subtraction makes the formula
cover the pageSize ≤ 32 early-exit as well.) -/
theorem C4_amended_capacity (p k : Nat) :
    (BPlusTree.initializeTree p k).maxKeys = max 3 ((p - 32) / (k + 10)) ∧
    (BPlusTree.initializeTree p k).minKeys =
      max 1 (max 3 ((p - 32) / (k + 10)) / 2) := by
  have hcm : BPlusTree.computeMaxKeys p k = max 3 ((p - 32) / (k + 10)) := by
    unfold BPlusTree.computeMaxKeys
    by_cases hp : p ≤ 32
    · have h0 : p - 32 = 0 := by omega
      simp [hp, h0]
    · have hm : max 1 (k + 10) = k + 10 := by omega
      simp [hp, hm]
  have hclamp : ¬ (BPlusTree.computeMaxKeys p k < 3) := by
    rw [hcm]; omega
  constructor
  · simp [BPlusTree.initializeTree, hclamp, hcm]
  · simp [BPlusTree.initializeTree, hclamp, hcm]


/-- C8: inserting a record whose indexed column value is the empty string
into an existing index DOES store an entry under the empty key:
`BPlusTreeIndex::insertRecord` extracts the key and inserts it
unconditionally, while `collectIndexEntries` (used when an index is built
from existing rows) skips empty keys.  After the insert, the index
resolves the empty key to the new row, contradicting the claim that no
index ever contains an empty-key entry. -/
theorem C8_empty_key_indexed :
    sliceIndexKey { values := [""] } 0 8 = "" ∧
    (c8Index.insertRecord { values := [""] } { table := "t", index := 0 } 0).map
        (fun idx => idx.find "") =
      .ok (some { address := { table := "t", index := 0 }, slot := 0 }) := by
  exact ⟨by decide, by decide⟩


/-! ### Order and bound lemmas for the B+ tree invariant (C9) -/

/-- Transitivity of the non-strict key order `keyLt _ _ = false`. -/
theorem keyLeTrans {a b c : String} (h₁ : keyLt b a = false)
    (h₂ : keyLt c b = false) : keyLt c a = false := by
  cases hca : keyLt c a with
  | false => rfl
  | true =>
    cases hbc : keyLt b c with
    | true => exact absurd (keyLt_trans hbc hca) (by simp [h₁])
    | false =>
      cases keyLt_eq_of_not_lt hbc h₂
      exact absurd hca (by simp [h₁])

theorem lowOk_of_le {lo : Option String} {a b : String} (h₁ : lowOk lo b)
    (h₂ : keyLt a b = false) : lowOk lo a := by
  cases lo with
  | none => trivial
  | some l => exact keyLeTrans h₁ h₂

theorem highOk_of_le {hi : Option String} {a b : String} (h₁ : highOk hi b)
    (h₂ : keyLt b a = false) : highOk hi a := by
  cases hi with
  | none => trivial
  | some u => exact keyLeTrans h₂ h₁

theorem inB_of_le_left {lo hi : Option String} {s k : String}
    (hs : inB lo hi s) (hk : highOk hi k) (h : keyLt k s = false) :
    inB lo hi k := ⟨lowOk_of_le hs.1 h, hk⟩

/-- A key between two keys of the range is in the range. -/
theorem inB_between {lo hi : Option String} {a b c : String}
    (ha : inB lo hi a) (hc : inB lo hi c) (h₁ : keyLt b a = false)
    (h₂ : keyLt c b = false) : inB lo hi b :=
  ⟨lowOk_of_le ha.1 h₁, highOk_of_le hc.2 h₂⟩

/-- The decidable sortedness check follows from the `Pairwise` invariant. -/
theorem sortedKeysB_of_sorted : ∀ {ks : List String}, sortedKeys ks →
    sortedKeysB ks = true
  | [], _ => rfl
  | [_], _ => rfl
  | a :: b :: rest, hs => by
      rw [sortedKeys, List.pairwise_cons] at hs
      have h1 : keyLt b a = false := hs.1 b (by simp)
      have h2 : sortedKeysB (b :: rest) = true := sortedKeysB_of_sorted hs.2
      simp [sortedKeysB, h1, h2]

theorem lowerBoundIdx_le_length (key : String) :
    ∀ ks : List String, lowerBoundIdx ks key ≤ ks.length
  | [] => Nat.le_refl 0
  | k :: ks => by
      rw [lowerBoundIdx]
      cases keyLt k key with
      | true => simpa using lowerBoundIdx_le_length key ks
      | false => simp

theorem upperBoundIdx_le_length (key : String) :
    ∀ ks : List String, upperBoundIdx ks key ≤ ks.length
  | [] => Nat.le_refl 0
  | k :: ks => by
      rw [upperBoundIdx]
      cases keyLt key k with
      | true => simp
      | false => simpa using upperBoundIdx_le_length key ks

/-- Inserting at the `std::lower_bound` position keeps the keys sorted. -/
theorem sorted_insertIdx_lowerBound (key : String) :
    ∀ {ks : List String}, sortedKeys ks →
      sortedKeys (List.insertIdx (lowerBoundIdx ks key) key ks)
  | [], _ => by
      simp [lowerBoundIdx, sortedKeys]
  | k :: ks, hs => by
      rw [sortedKeys, List.pairwise_cons] at hs
      rw [lowerBoundIdx]
      cases hk : keyLt k key with
      | true =>
          rw [if_pos rfl]
          rw [List.insertIdx_succ_cons]
          rw [sortedKeys, List.pairwise_cons]
          refine ⟨?_, sorted_insertIdx_lowerBound key hs.2⟩
          intro x hx
          rcases (List.mem_insertIdx (lowerBoundIdx_le_length key ks)).mp hx with
            hxk | hxm
          · subst hxk; exact keyLt_asymm hk
          · exact hs.1 x hxm
      | false =>
          rw [if_neg (by simp)]
          rw [List.insertIdx_zero]
          rw [sortedKeys, List.pairwise_cons]
          refine ⟨?_, List.pairwise_cons.mpr hs⟩
          intro x hx
          rcases List.mem_cons.mp hx with hxk | hxm
          · subst hxk; exact hk
          · exact keyLeTrans hk (hs.1 x hxm)

/-- Membership after a bounded `insertIdx`. -/
theorem mem_insertIdx_lowerBound {key x : String} {ks : List String}
    (hx : x ∈ List.insertIdx (lowerBoundIdx ks key) key ks) :
    x = key ∨ x ∈ ks :=
  (List.mem_insertIdx (lowerBoundIdx_le_length key ks)).mp hx

/-- The child pairing forces the internal arity invariant. -/
theorem wfc_length (h : Nat) :
    ∀ (lo hi : Option String) (ks : List String) (cs : NodeList),
      WfC h lo hi ks cs → cs.length = ks.length + 1
  | _, _, [], .nil, hw => by simp [WfC] at hw
  | _, _, [], .cons _ .nil, _ => rfl
  | _, _, [], .cons _ (.cons _ _), hw => by simp [WfC] at hw
  | _, _, _ :: _, .nil, hw => by simp [WfC] at hw
  | lo, hi, k :: ks, .cons _ rest, hw => by
      rw [WfC] at hw
      have := wfc_length h (some k) hi ks rest hw.2
      simp [NodeList.length, this]

/-- Under the height-indexed invariant, a node is a leaf iff its height is
zero; hence all siblings agree on leafness. -/
theorem wfn_isLeaf {h : Nat} {lo hi : Option String} :
    ∀ {n : BTNode}, WfN h lo hi n → n.isLeaf = decide (h = 0)
  | .leaf _ _, hw => by
      rw [WfN] at hw
      simp [BTNode.isLeaf, hw.1]
  | .internal _ _, hw => by
      rw [WfN] at hw
      have : h ≠ 0 := Nat.pos_iff_ne_zero.mp hw.1
      simp [BTNode.isLeaf, this]

mutual

/-- Range weakening for well-formed nodes. -/
theorem wfn_mono (h : Nat) :
    ∀ (lo hi lo2 hi2 : Option String) (n : BTNode), WfN h lo hi n →
      (∀ k, lowOk lo k → lowOk lo2 k) →
      (∀ k, highOk hi k → highOk hi2 k) → WfN h lo2 hi2 n
  | lo, hi, lo2, hi2, .leaf ks vs, hw, hl, hh => by
      rw [WfN] at hw ⊢
      exact ⟨hw.1, hw.2.1, hw.2.2.1, fun k hk =>
        ⟨hl k (hw.2.2.2 k hk).1, hh k (hw.2.2.2 k hk).2⟩⟩
  | lo, hi, lo2, hi2, .internal ks cs, hw, hl, hh => by
      rw [WfN] at hw ⊢
      exact ⟨hw.1, hw.2.1, fun k hk =>
        ⟨hl k (hw.2.2.1 k hk).1, hh k (hw.2.2.1 k hk).2⟩,
        wfc_mono (h - 1) lo hi lo2 hi2 ks cs hw.2.2.2 hl hh⟩

/-- Range weakening for the child pairing: the outer bounds can be
weakened; internal separators are untouched. -/
theorem wfc_mono (h : Nat) :
    ∀ (lo hi lo2 hi2 : Option String) (ks : List String) (cs : NodeList),
      WfC h lo hi ks cs →
      (∀ k, lowOk lo k → lowOk lo2 k) →
      (∀ k, highOk hi k → highOk hi2 k) → WfC h lo2 hi2 ks cs
  | _, _, _, _, [], .nil, hw, _, _ => by simp [WfC] at hw
  | lo, hi, lo2, hi2, [], .cons c .nil, hw, hl, hh => by
      rw [WfC] at hw ⊢
      exact wfn_mono h lo hi lo2 hi2 c hw hl hh
  | _, _, _, _, [], .cons _ (.cons _ _), hw, _, _ => by simp [WfC] at hw
  | _, _, _, _, _ :: _, .nil, hw, _, _ => by simp [WfC] at hw
  | lo, hi, lo2, hi2, k :: ks, .cons c rest, hw, hl, hh => by
      rw [WfC] at hw ⊢
      exact ⟨wfn_mono h lo (some k) lo2 (some k) c hw.1 hl (fun _ hx => hx),
        wfc_mono h (some k) hi (some k) hi2 ks rest hw.2 (fun _ hx => hx) hh⟩

end

mutual

/-- The claim's decidable node invariant follows from well-formedness. -/
theorem wfn_invB (h : Nat) :
    ∀ (lo hi : Option String) (n : BTNode), WfN h lo hi n →
      nodeInvariantB n = true
  | _, _, .leaf ks vs, hw => by
      rw [WfN] at hw
      simp [nodeInvariantB, sortedKeysB_of_sorted hw.2.1, hw.2.2.1]
  | lo, hi, .internal ks cs, hw => by
      rw [WfN] at hw
      simp [nodeInvariantB, sortedKeysB_of_sorted hw.2.1,
        wfc_length (h - 1) lo hi ks cs hw.2.2.2,
        wfc_invB (h - 1) lo hi ks cs hw.2.2.2]

theorem wfc_invB (h : Nat) :
    ∀ (lo hi : Option String) (ks : List String) (cs : NodeList),
      WfC h lo hi ks cs → childrenInvariantB cs = true
  | _, _, [], .nil, hw => by simp [WfC] at hw
  | lo, hi, [], .cons c .nil, hw => by
      rw [WfC] at hw
      simp [childrenInvariantB, wfn_invB h lo hi c hw]
  | _, _, [], .cons _ (.cons _ _), hw => by simp [WfC] at hw
  | _, _, _ :: _, .nil, hw => by simp [WfC] at hw
  | lo, hi, k :: ks, .cons c rest, hw => by
      rw [WfC] at hw
      simp [childrenInvariantB, wfn_invB h lo (some k) c hw.1,
        wfc_invB h (some k) hi ks rest hw.2]

end

/-- `splitLeaf` preserves well-formedness on both sides of the promoted
separator (the head key of the right half, which stays in the right
leaf). -/
theorem splitLeaf_wf {lo hi : Option String} {ks : List String}
    {vs : List IndexPointer} (hs : sortedKeys ks) (ha : vs.length = ks.length)
    (hb : ∀ k ∈ ks, inB lo hi k) (hne : 0 < ks.length) :
    InsResOk 0 lo hi (.ok (splitLeaf ks vs)) := by
  have hmid : ks.length / 2 < ks.length := Nat.div_lt_self hne (by norm_num)
  have hdropeq := List.drop_eq_getElem_cons hmid
  have hpw : List.Pairwise (fun a b => keyLt b a = false)
      (ks.take (ks.length / 2) ++ ks.drop (ks.length / 2)) := by
    rw [List.take_append_drop]; exact hs
  rw [List.pairwise_append] at hpw
  have hsd : List.Pairwise (fun a b => keyLt b a = false)
      (ks[ks.length / 2] :: ks.drop (ks.length / 2 + 1)) := by
    rw [← hdropeq]
    exact List.Pairwise.sublist (List.drop_sublist _ _) hs
  simp only [splitLeaf, hdropeq, List.headD_cons, InsResOk]
  refine ⟨?_, ?_, hb _ (List.getElem_mem hmid)⟩
  · rw [WfN]
    refine ⟨rfl, List.Pairwise.sublist (List.take_sublist _ _) hs, ?_, ?_⟩
    · rw [List.length_take, List.length_take, ha]
    · intro x hx
      exact ⟨(hb x (List.mem_of_mem_take hx)).1,
        hpw.2.2 x hx _ (by rw [hdropeq]; exact List.mem_cons_self _ _)⟩
  · rw [WfN]
    refine ⟨rfl, ?_, ?_, ?_⟩
    · rw [← hdropeq]
      exact List.Pairwise.sublist (List.drop_sublist _ _) hs
    · rw [← hdropeq, List.length_drop, List.length_drop, ha]
    · intro x hx
      rcases List.mem_cons.mp hx with hxe | hxm
      · subst hxe
        exact ⟨keyLt_irrefl _, (hb _ (List.getElem_mem hmid)).2⟩
      · exact ⟨(List.pairwise_cons.mp hsd).1 x hxm,
          (hb x (List.mem_of_mem_drop hxm)).2⟩

/-- Cutting the child pairing at a separator position yields two
well-formed pairings on the two sides of that separator. -/
theorem wfc_split_at (h2 : Nat) :
    ∀ (lo hi : Option String) (mid : Nat) (ks : List String) (cs : NodeList),
      WfC h2 lo hi ks cs → mid < ks.length →
      WfC h2 lo (some (ks.getD mid "")) (ks.take mid) (cs.take (mid + 1)) ∧
      WfC h2 (some (ks.getD mid "")) hi (ks.drop (mid + 1)) (cs.drop (mid + 1))
  | _, _, _, [], _, _, hmid => by simp at hmid
  | lo, hi, 0, k :: ks₁, .nil, hc, _ => by simp [WfC] at hc
  | lo, hi, 0, k :: ks₁, .cons c rest, hc, _ => by
      rw [WfC] at hc
      constructor
      · simp only [List.getD_cons_zero, List.take_zero, NodeList.take]
        rw [WfC]
        exact hc.1
      · simp only [List.getD_cons_zero, List.drop_succ_cons, List.drop_zero,
          NodeList.drop]
        exact hc.2
  | lo, hi, m + 1, k :: ks₁, .nil, hc, _ => by simp [WfC] at hc
  | lo, hi, m + 1, k :: ks₁, .cons c rest, hc, hmid => by
      rw [WfC] at hc
      have ih := wfc_split_at h2 (some k) hi m ks₁ rest hc.2 (by simpa using hmid)
      constructor
      · simp only [List.getD_cons_succ, List.take_succ_cons, NodeList.take]
        rw [WfC]
        exact ⟨hc.1, ih.1⟩
      · simp only [List.getD_cons_succ, List.drop_succ_cons, NodeList.drop]
        exact ih.2

/-- `splitInternal` preserves well-formedness: the median key is promoted
and removed from both halves. -/
theorem splitInternal_wf {h : Nat} {lo hi : Option String} {ks : List String}
    {cs : NodeList} (hpos : 0 < h) (hs : sortedKeys ks)
    (hb : ∀ k ∈ ks, inB lo hi k) (hc : WfC (h - 1) lo hi ks cs)
    (hne : 0 < ks.length) :
    InsResOk h lo hi (.ok (splitInternal ks cs)) := by
  have hmid : ks.length / 2 < ks.length := Nat.div_lt_self hne (by norm_num)
  have hgd : ks.getD (ks.length / 2) "" = ks[ks.length / 2] :=
    List.getD_eq_getElem ks "" hmid
  have hdropeq := List.drop_eq_getElem_cons hmid
  have hpw : List.Pairwise (fun a b => keyLt b a = false)
      (ks.take (ks.length / 2) ++ ks.drop (ks.length / 2)) := by
    rw [List.take_append_drop]; exact hs
  rw [List.pairwise_append] at hpw
  have hsd : List.Pairwise (fun a b => keyLt b a = false)
      (ks[ks.length / 2] :: ks.drop (ks.length / 2 + 1)) := by
    rw [← hdropeq]
    exact List.Pairwise.sublist (List.drop_sublist _ _) hs
  have hsplit := wfc_split_at (h - 1) lo hi (ks.length / 2) ks cs hc hmid
  rw [hgd] at hsplit
  simp only [splitInternal, hgd, InsResOk]
  refine ⟨?_, ?_, hb _ (List.getElem_mem hmid)⟩
  · rw [WfN]
    refine ⟨hpos, List.Pairwise.sublist (List.take_sublist _ _) hs, ?_,
      hsplit.1⟩
    intro x hx
    exact ⟨(hb x (List.mem_of_mem_take hx)).1,
      hpw.2.2 x hx _ (by rw [hdropeq]; exact List.mem_cons_self _ _)⟩
  · rw [WfN]
    refine ⟨hpos, ?_, ?_, hsplit.2⟩
    · exact List.Pairwise.sublist (List.drop_sublist _ _) hs
    · intro x hx
      exact ⟨(List.pairwise_cons.mp hsd).1 x hx,
        (hb x (List.mem_of_mem_drop hx)).2⟩

mutual

/-- `insertRecursive` preserves well-formedness at every node: the
rewritten node (and, on overflow, both split halves and the promoted
separator) stay within the node's key range. -/
theorem wfn_insert (mk : Nat) (key : String) (ptr : IndexPointer)
    (fod : Bool) (h : Nat) :
    ∀ (lo hi : Option String) (n : BTNode), WfN h lo hi n → inB lo hi key →
      InsResOk h lo hi (insertRecNode mk key ptr fod n)
  | lo, hi, .leaf ks vs, hw, hkey => by
      rw [WfN] at hw
      obtain ⟨hh0, hs, ha, hb⟩ := hw
      subst hh0
      have hInsBranch : InsResOk 0 lo hi
          (if (List.insertIdx (lowerBoundIdx ks key) key ks).length > mk then
            .ok (splitLeaf (List.insertIdx (lowerBoundIdx ks key) key ks)
              (List.insertIdx (lowerBoundIdx ks key) ptr vs))
          else .ok (.leaf (List.insertIdx (lowerBoundIdx ks key) key ks)
            (List.insertIdx (lowerBoundIdx ks key) ptr vs), none)) := by
        have hlen : (List.insertIdx (lowerBoundIdx ks key) key ks).length =
            ks.length + 1 :=
          List.length_insertIdx _ _ (lowerBoundIdx_le_length key ks)
        have hlenv : (List.insertIdx (lowerBoundIdx ks key) ptr vs).length =
            vs.length + 1 :=
          List.length_insertIdx _ _
            (by rw [ha]; exact lowerBoundIdx_le_length key ks)
        have hs' := sorted_insertIdx_lowerBound key hs
        have hb' : ∀ x ∈ List.insertIdx (lowerBoundIdx ks key) key ks,
            inB lo hi x := by
          intro x hx
          rcases mem_insertIdx_lowerBound hx with he | hm
          · subst he; exact hkey
          · exact hb x hm
        split
        · exact splitLeaf_wf hs' (by rw [hlen, hlenv, ha]) hb' (by omega)
        · rw [InsResOk, WfN]
          exact ⟨rfl, hs', by rw [hlen, hlenv, ha], hb'⟩
      rcases hks : ks.get? (lowerBoundIdx ks key) with _ | k
      · simp only [insertRecNode, hks]
        rw [if_neg (by simp)]
        exact hInsBranch
      · by_cases hk : k = key
        · subst hk
          simp only [insertRecNode, hks]
          rw [if_pos (by simp)]
          cases fod with
          | true =>
              rw [if_pos rfl]
              rw [InsResOk]
              trivial
          | false =>
              rw [if_neg (by simp)]
              rw [InsResOk, WfN]
              exact ⟨rfl, hs, by rw [List.length_set]; exact ha, hb⟩
        · simp only [insertRecNode, hks]
          rw [if_neg (by simp [hk])]
          exact hInsBranch
  | lo, hi, .internal ks cs, hw, hkey => by
      rw [WfN] at hw
      obtain ⟨hhp, hs, hb, hc⟩ := hw
      have hchild := wfc_insert mk key ptr fod (h - 1) lo hi
        (upperBoundIdx ks key) ks cs hc hs hb rfl hkey
      rcases hres : insertRecChild mk key ptr fod (upperBoundIdx ks key) cs
        with e | ⟨cs₁, sp⟩
      · simp only [insertRecNode, hres, Bind.bind, Except.bind]
        rw [InsResOk]
        trivial
      · rw [hres] at hchild
        rcases sp with _ | ⟨s, rn⟩
        · rw [InsChildOk] at hchild
          simp only [insertRecNode, hres, Bind.bind, Except.bind]
          rw [InsResOk, WfN]
          exact ⟨hhp, hs, hb, hchild⟩
        · rw [InsChildOk] at hchild
          obtain ⟨hs', hb', hc'⟩ := hchild
          simp only [insertRecNode, hres, Bind.bind, Except.bind]
          split
          · refine splitInternal_wf hhp hs' hb' hc' ?_
            have hL : (List.insertIdx (upperBoundIdx ks key) s ks).length =
                ks.length + 1 :=
              List.length_insertIdx _ _ (upperBoundIdx_le_length key ks)
            omega
          · rw [InsResOk, WfN]
            exact ⟨hhp, hs', hb', hc'⟩

/-- `insertRecursive` on the selected child preserves the parent's child
pairing; on a child split, the parent's key/child surgery at the descent
position is well formed. -/
theorem wfc_insert (mk : Nat) (key : String) (ptr : IndexPointer)
    (fod : Bool) (h2 : Nat) :
    ∀ (lo hi : Option String) (pos : Nat) (ks : List String) (cs : NodeList),
      WfC h2 lo hi ks cs → sortedKeys ks → (∀ k ∈ ks, inB lo hi k) →
      pos = upperBoundIdx ks key → inB lo hi key →
      InsChildOk h2 lo hi ks pos (insertRecChild mk key ptr fod pos cs)
  | _, _, _, [], .nil, hc, _, _, _, _ => by simp [WfC] at hc
  | _, _, _, [], .cons _ (.cons _ _), hc, _, _, _, _ => by simp [WfC] at hc
  | _, _, _, _ :: _, .nil, hc, _, _, _, _ => by simp [WfC] at hc
  | lo, hi, pos, [], .cons c .nil, hc, hs, hb, hpos, hkey => by
      rw [WfC] at hc
      subst hpos
      simp only [upperBoundIdx]
      have hnode := wfn_insert mk key ptr fod h2 lo hi c hc hkey
      rcases hres : insertRecNode mk key ptr fod c with e | ⟨n', sp⟩
      · simp only [insertRecChild, hres, Bind.bind, Except.bind]
        rw [InsChildOk]
        trivial
      · rw [hres] at hnode
        rcases sp with _ | ⟨s, rn⟩
        · rw [InsResOk] at hnode
          simp only [insertRecChild, hres, Bind.bind, Except.bind]
          rw [InsChildOk, WfC]
          exact hnode
        · rw [InsResOk] at hnode
          obtain ⟨hn', hrn, hsB⟩ := hnode
          simp only [insertRecChild, hres, Bind.bind, Except.bind]
          rw [InsChildOk]
          refine ⟨?_, ?_, ?_⟩
          · rw [List.insertIdx_zero]
            exact List.pairwise_singleton _ _
          · intro x hx
            rw [List.insertIdx_zero] at hx
            rcases List.mem_singleton.mp hx with he
            subst he
            exact hsB
          · rw [List.insertIdx_zero]
            simp only [NodeList.insertAt]
            rw [WfC]
            refine ⟨hn', ?_⟩
            rw [WfC]
            exact hrn
  | lo, hi, pos, k :: ks₁, .cons c rest, hc, hs, hb, hpos, hkey => by
      rw [WfC] at hc
      rw [sortedKeys, List.pairwise_cons] at hs
      subst hpos
      simp only [upperBoundIdx]
      cases hk : keyLt key k with
      | true =>
          rw [if_pos rfl]
          have hnode := wfn_insert mk key ptr fod h2 lo (some k) c hc.1
            ⟨hkey.1, keyLt_asymm hk⟩
          rcases hres : insertRecNode mk key ptr fod c with e | ⟨n', sp⟩
          · simp only [insertRecChild, hres, Bind.bind, Except.bind]
            rw [InsChildOk]
            trivial
          · rw [hres] at hnode
            rcases sp with _ | ⟨s, rn⟩
            · rw [InsResOk] at hnode
              simp only [insertRecChild, hres, Bind.bind, Except.bind]
              rw [InsChildOk, WfC]
              exact ⟨hnode, hc.2⟩
            · rw [InsResOk] at hnode
              obtain ⟨hn', hrn, hsB⟩ := hnode
              simp only [insertRecChild, hres, Bind.bind, Except.bind]
              rw [InsChildOk]
              refine ⟨?_, ?_, ?_⟩
              · rw [List.insertIdx_zero, sortedKeys, List.pairwise_cons]
                refine ⟨?_, List.pairwise_cons.mpr hs⟩
                intro x hx
                rcases List.mem_cons.mp hx with he | hm
                · subst he
                  exact hsB.2
                · exact keyLeTrans hsB.2 (hs.1 x hm)
              · intro x hx
                rw [List.insertIdx_zero] at hx
                rcases List.mem_cons.mp hx with he | hm
                · subst he
                  exact ⟨hsB.1,
                    highOk_of_le (hb k (List.mem_cons_self _ _)).2 hsB.2⟩
                · exact hb x hm
              · rw [List.insertIdx_zero]
                simp only [NodeList.insertAt]
                rw [WfC]
                refine ⟨hn', ?_⟩
                rw [WfC]
                exact ⟨hrn, hc.2⟩
      | false =>
          rw [if_neg (by simp)]
          have hbt : ∀ x ∈ ks₁, inB (some k) hi x := fun x hx =>
            ⟨hs.1 x hx, (hb x (List.mem_cons_of_mem _ hx)).2⟩
          have ih := wfc_insert mk key ptr fod h2 (some k) hi
            (upperBoundIdx ks₁ key) ks₁ rest hc.2 hs.2 hbt rfl ⟨hk, hkey.2⟩
          rcases hres : insertRecChild mk key ptr fod (upperBoundIdx ks₁ key)
            rest with e | ⟨rest₁, sp⟩
          · simp only [insertRecChild, hres, Bind.bind, Except.bind]
            rw [InsChildOk]
            trivial
          · rw [hres] at ih
            rcases sp with _ | ⟨s, rn⟩
            · rw [InsChildOk] at ih
              simp only [insertRecChild, hres, Bind.bind, Except.bind]
              rw [InsChildOk, WfC]
              exact ⟨hc.1, ih⟩
            · rw [InsChildOk] at ih
              obtain ⟨hs', hb', hc'⟩ := ih
              have hsmem : s ∈ List.insertIdx (upperBoundIdx ks₁ key) s ks₁ :=
                (List.mem_insertIdx (upperBoundIdx_le_length key ks₁)).mpr
                  (Or.inl rfl)
              simp only [insertRecChild, hres, Bind.bind, Except.bind]
              rw [InsChildOk]
              refine ⟨?_, ?_, ?_⟩
              · rw [List.insertIdx_succ_cons, sortedKeys, List.pairwise_cons]
                refine ⟨?_, hs'⟩
                intro x hx
                rcases (List.mem_insertIdx
                    (upperBoundIdx_le_length key ks₁)).mp hx with he | hm
                · rw [he]
                  exact (hb' s hsmem).1
                · exact hs.1 x hm
              · intro x hx
                rw [List.insertIdx_succ_cons] at hx
                rcases List.mem_cons.mp hx with he | hm
                · rw [he]
                  exact hb k (List.mem_cons_self _ _)
                · have hxb := hb' x hm
                  exact ⟨lowOk_of_le (hb k (List.mem_cons_self _ _)).1 hxb.1,
                    hxb.2⟩
              · rw [List.insertIdx_succ_cons]
                simp only [NodeList.insertAt]
                rw [WfC]
                exact ⟨hc.1, hc'⟩

end

mutual

/-- `update` only replaces a stored pointer, preserving well-formedness. -/
theorem wfn_update (key : String) (ptr : IndexPointer) (h : Nat) :
    ∀ (lo hi : Option String) (n : BTNode), WfN h lo hi n →
      WfN h lo hi (updateNode key ptr n).1
  | lo, hi, .leaf ks vs, hw => by
      rw [WfN] at hw
      obtain ⟨hh0, hs, ha, hb⟩ := hw
      subst hh0
      rcases hks : ks.get? (lowerBoundIdx ks key) with _ | k
      · simp only [updateNode, hks]
        rw [WfN]
        exact ⟨rfl, hs, ha, hb⟩
      · simp only [updateNode, hks]
        by_cases hk : k = key
        · rw [if_pos hk, WfN]
          exact ⟨rfl, hs, by rw [List.length_set]; exact ha, hb⟩
        · rw [if_neg hk, WfN]
          exact ⟨rfl, hs, ha, hb⟩
  | lo, hi, .internal ks cs, hw => by
      rw [WfN] at hw
      obtain ⟨hhp, hs, hb, hc⟩ := hw
      rcases hu : updateChild key ptr (upperBoundIdx ks key) cs with ⟨cs₂, fnd⟩
      have hwc := wfc_update key ptr (h - 1) lo hi (upperBoundIdx ks key) ks cs hc
      rw [hu] at hwc
      simp only [updateNode, hu]
      rw [WfN]
      exact ⟨hhp, hs, hb, hwc⟩

theorem wfc_update (key : String) (ptr : IndexPointer) (h2 : Nat) :
    ∀ (lo hi : Option String) (pos : Nat) (ks : List String) (cs : NodeList),
      WfC h2 lo hi ks cs → WfC h2 lo hi ks (updateChild key ptr pos cs).1
  | _, _, _, [], .nil, hc => by simp [WfC] at hc
  | _, _, _, [], .cons _ (.cons _ _), hc => by simp [WfC] at hc
  | _, _, _, _ :: _, .nil, hc => by simp [WfC] at hc
  | lo, hi, 0, [], .cons c .nil, hc => by
      rw [WfC] at hc
      rcases hu : updateNode key ptr c with ⟨c₂, fnd⟩
      have hwn := wfn_update key ptr h2 lo hi c hc
      rw [hu] at hwn
      simp only [updateChild, hu]
      rw [WfC]
      exact hwn
  | lo, hi, pos + 1, [], .cons c .nil, hc => by
      rw [WfC] at hc
      simp only [updateChild]
      rw [WfC]
      exact hc
  | lo, hi, 0, k :: ks₁, .cons c rest, hc => by
      rw [WfC] at hc
      rcases hu : updateNode key ptr c with ⟨c₂, fnd⟩
      have hwn := wfn_update key ptr h2 lo (some k) c hc.1
      rw [hu] at hwn
      simp only [updateChild, hu]
      rw [WfC]
      exact ⟨hwn, hc.2⟩
  | lo, hi, pos + 1, k :: ks₁, .cons c rest, hc => by
      rw [WfC] at hc
      rcases hu : updateChild key ptr pos rest with ⟨rest₂, fnd⟩
      have hwc := wfc_update key ptr h2 (some k) hi pos ks₁ rest hc.2
      rw [hu] at hwc
      simp only [updateChild, hu]
      rw [WfC]
      exact ⟨hc.1, hwc⟩

end

/-- The default value of `getLastD` is irrelevant on a non-empty list. -/
theorem getLastD_default_irrel (x a b : String) (l : List String) :
    (x :: l).getLastD a = (x :: l).getLastD b := by
  rw [List.getLastD_cons, List.getLastD_cons]

theorem getLastD_mem (d : String) :
    ∀ (l : List String), l ≠ [] → l.getLastD d ∈ l
  | [], hne => absurd rfl hne
  | [x], _ => by simp [List.getLastD_cons]
  | x :: y :: l, _ => by
      rw [List.getLastD_cons]
      exact List.mem_cons_of_mem _ (getLastD_mem x (y :: l) (by simp))

/-- In a sorted key list every element is at most the last element. -/
theorem sorted_le_getLastD (d : String) :
    ∀ {l : List String}, sortedKeys l → ∀ x ∈ l, keyLt (l.getLastD d) x = false
  | [], _, x, hx => absurd hx (by simp)
  | [a], _, x, hx => by
      rcases List.mem_singleton.mp hx with rfl
      simp [List.getLastD_cons, keyLt_irrefl]
  | a :: b :: l, hs, x, hx => by
      rw [sortedKeys, List.pairwise_cons] at hs
      rw [List.getLastD_cons]
      rcases List.mem_cons.mp hx with he | hm
      · rw [he]
        rw [getLastD_default_irrel b a d]
        exact hs.1 _ (getLastD_mem d (b :: l) (by simp))
      · rw [getLastD_default_irrel b a d]
        exact sorted_le_getLastD d hs.2 x hm

/-- Removing the last separator and child of a pairing leaves a pairing
bounded above by that separator, plus the detached last child. -/
theorem wfc_unsnoc (h2 : Nat) :
    ∀ (lo hi : Option String) (ks : List String) (cs : NodeList),
      WfC h2 lo hi ks cs → ks ≠ [] →
      WfC h2 lo (some (ks.getLastD "")) ks.dropLast cs.popBack ∧
      WfN h2 (some (ks.getLastD "")) hi cs.lastD
  | _, _, [], _, _, hne => absurd rfl hne
  | _, _, [_], .nil, hc, _ => by simp [WfC] at hc
  | lo, hi, [k], .cons c .nil, hc, _ => by
      rw [WfC] at hc
      simp [WfC] at hc
  | lo, hi, [k], .cons c (.cons c₂ .nil), hc, _ => by
      rw [WfC] at hc
      have hc2 := hc.2
      rw [WfC] at hc2
      constructor
      · show WfC h2 lo (some k) [] (.cons c .nil)
        rw [WfC]
        exact hc.1
      · show WfN h2 (some k) hi c₂
        exact hc2
  | lo, hi, [k], .cons c (.cons c₂ (.cons c₃ r)), hc, _ => by
      rw [WfC] at hc
      have hc2 := hc.2
      simp [WfC] at hc2
  | _, _, _ :: _ :: _, .nil, hc, _ => by simp [WfC] at hc
  | lo, hi, k :: k₂ :: ks, .cons c .nil, hc, _ => by
      rw [WfC] at hc
      have hc2 := hc.2
      simp [WfC] at hc2
  | lo, hi, k :: k₂ :: ks, .cons c (.cons c₂ r), hc, _ => by
      rw [WfC] at hc
      have ih := wfc_unsnoc h2 (some k) hi (k₂ :: ks) (.cons c₂ r) hc.2
        (by simp)
      have hgl : ((k :: k₂ :: ks : List String)).getLastD "" =
          (k₂ :: ks).getLastD "" := by
        rw [List.getLastD_cons]
        exact getLastD_default_irrel k₂ k "" ks
      rw [hgl, List.dropLast_cons₂]
      constructor
      · show WfC h2 lo (some ((k₂ :: ks).getLastD ""))
          (k :: (k₂ :: ks).dropLast) (.cons c (NodeList.cons c₂ r).popBack)
        rw [WfC]
        exact ⟨hc.1, ih.1⟩
      · show WfN h2 (some ((k₂ :: ks).getLastD "")) hi (NodeList.cons c₂ r).lastD
        exact ih.2

/-- Concatenating two pairings around their shared separator key. -/
theorem wfc_append (h2 : Nat) :
    ∀ (lo hi : Option String) (m : String) (ksa : List String)
      (csa : NodeList) (ksb : List String) (csb : NodeList),
      WfC h2 lo (some m) ksa csa → WfC h2 (some m) hi ksb csb →
      WfC h2 lo hi (ksa ++ m :: ksb) (csa.appendNL csb)
  | _, _, _, [], .nil, _, _, hca, _ => by simp [WfC] at hca
  | _, _, _, [], .cons _ (.cons _ _), _, _, hca, _ => by simp [WfC] at hca
  | _, _, _, _ :: _, .nil, _, _, hca, _ => by simp [WfC] at hca
  | lo, hi, m, [], .cons c .nil, ksb, csb, hca, hcb => by
      rw [WfC] at hca
      rw [List.nil_append]
      show WfC h2 lo hi (m :: ksb) (.cons c csb)
      rw [WfC]
      exact ⟨hca, hcb⟩
  | lo, hi, m, k :: ksa, .cons c rest, ksb, csb, hca, hcb => by
      rw [WfC] at hca
      rw [List.cons_append]
      show WfC h2 lo hi (k :: (ksa ++ m :: ksb)) (.cons c (rest.appendNL csb))
      rw [WfC]
      exact ⟨hca.1, wfc_append h2 (some k) hi m ksa rest ksb csb hca.2 hcb⟩

/-- Lifting a well-formed surgery on the tail of the pairing over the
untouched head separator and child. -/
theorem wfPack_cons_lift {h2 : Nat} {lo hi : Option String} {k : String}
    {c : BTNode} {p : List String × NodeList}
    (hck : inB lo hi k) (hcc : WfN h2 lo (some k) c)
    (hp : WfPack h2 (some k) hi p) :
    WfPack h2 lo hi (k :: p.1, .cons c p.2) := by
  obtain ⟨hs, hb, hc⟩ := hp
  refine ⟨?_, ?_, ?_⟩
  · rw [sortedKeys, List.pairwise_cons]
    exact ⟨fun x hx => (hb x hx).1, hs⟩
  · intro x hx
    rcases List.mem_cons.mp hx with he | hm
    · rw [he]; exact hck
    · exact ⟨lowOk_of_le hck.1 (hb x hm).1, (hb x hm).2⟩
  · show WfC h2 lo hi (k :: p.1) (.cons c p.2)
    rw [WfC]
    exact ⟨hcc, hc⟩

theorem wfn_zero_leaf {lo hi : Option String} {ks : List String}
    {cs : NodeList} (h : WfN 0 lo hi (.internal ks cs)) : False := by
  rw [WfN] at h
  exact absurd h.1 (by simp)

theorem wfn_pos_not_leaf {h2 : Nat} (hp : 0 < h2) {lo hi : Option String}
    {ks : List String} {vs : List IndexPointer}
    (h : WfN h2 lo hi (.leaf ks vs)) : False := by
  rw [WfN] at h
  exact absurd h.1 (by omega)

/-- The local window facts for borrowing the last key of the left leaf
sibling: both rewritten leaves are well formed around the moved key, which
becomes the new separator. -/
theorem borrowLeftLeaf_window {lo hi₁ hi : Option String} {k₀ : String}
    {lks cks : List String} {lvs cvs : List IndexPointer}
    (hsl : sortedKeys lks) (hal : lvs.length = lks.length)
    (hbl : ∀ x ∈ lks, inB lo (some k₀) x)
    (hsc : sortedKeys cks) (hac : cvs.length = cks.length)
    (hbc : ∀ x ∈ cks, inB (some k₀) hi₁ x)
    (hk₀ : inB lo hi k₀) (hk0hi : highOk hi₁ k₀) (hlksne : lks ≠ []) :
    WfN 0 lo (some (lks.getLastD "")) (.leaf lks.dropLast lvs.dropLast) ∧
    WfN 0 (some (lks.getLastD "")) hi₁
      (.leaf (lks.getLastD "" :: cks) (lvs.getLastD { } :: cvs)) ∧
    inB lo hi (lks.getLastD "") ∧
    (∀ x, keyLt x k₀ = false → keyLt x (lks.getLastD "") = false) := by
  have hmb : inB lo (some k₀) (lks.getLastD "") :=
    hbl _ (getLastD_mem "" lks hlksne)
  refine ⟨?_, ?_, ?_, ?_⟩
  · rw [WfN]
    refine ⟨rfl, List.Pairwise.sublist (List.dropLast_sublist _) hsl, ?_, ?_⟩
    · rw [List.length_dropLast, List.length_dropLast, hal]
    · intro x hx
      have hxm : x ∈ lks := (List.dropLast_sublist _).mem hx
      exact ⟨(hbl x hxm).1, sorted_le_getLastD "" hsl x hxm⟩
  · rw [WfN]
    refine ⟨rfl, ?_, ?_, ?_⟩
    · rw [sortedKeys, List.pairwise_cons]
      exact ⟨fun x hx => keyLeTrans hmb.2 (hbc x hx).1, hsc⟩
    · simp [hac]
    · intro x hx
      rcases List.mem_cons.mp hx with he | hm
      · rw [he]
        exact ⟨keyLt_irrefl _, highOk_of_le hk0hi hmb.2⟩
      · exact ⟨keyLeTrans hmb.2 (hbc x hm).1, (hbc x hm).2⟩
  · exact ⟨hmb.1, highOk_of_le hk₀.2 hmb.2⟩
  · intro x hx
    exact keyLeTrans hmb.2 hx

/-- `borrowFromLeftLeaf` preserves the parent package when the left
sibling has a key to spare. -/
theorem borrowFromLeftLeaf_wf (minK : Nat) (hminK : 1 ≤ minK) :
    ∀ (lo hi : Option String) (ks : List String) (cs : NodeList) (ci : Nat),
      sortedKeys ks → (∀ x ∈ ks, inB lo hi x) → WfC 0 lo hi ks cs →
      1 ≤ ci → ci < cs.length →
      minK < (cs.getD (ci - 1)).keysOf.length →
      WfPack 0 lo hi (borrowFromLeftLeaf ks cs ci)
  | _, _, _, _, 0, _, _, _, hci, _, _ => absurd hci (by omega)
  | _, _, _, .nil, ci + 1, _, _, _, _, hlen, _ => by
      simp [NodeList.length] at hlen
  | _, _, _, .cons _ .nil, ci + 1, _, _, _, _, hlen, _ => by
      have h1 : ci + 1 < 1 := hlen
      omega
  | _, _, [], .cons _ (.cons _ _), _ + 1, _, _, hc, _, _, _ => by
      simp [WfC] at hc
  | lo, hi, k₀ :: ks₁, .cons c₀ (.cons c₁ rest), 1, hs, hb, hc, _, hlen,
      hguard => by
      rw [WfC] at hc
      obtain ⟨hw0, hc2⟩ := hc
      rw [sortedKeys, List.pairwise_cons] at hs
      cases c₀ with
      | internal ia ib => exact (wfn_zero_leaf hw0).elim
      | leaf lks lvs =>
        rw [WfN] at hw0
        obtain ⟨_, hsl, hal, hbl⟩ := hw0
        have hg : minK < lks.length := hguard
        have hlksne : lks ≠ [] := by
          intro he
          rw [he] at hg
          simp at hg
        rcases ks₁ with _ | ⟨k₁, ks₂⟩
        · rcases rest with _ | ⟨c₂, r₂⟩
          · rw [WfC] at hc2
            cases c₁ with
            | internal ia ib => exact (wfn_zero_leaf hc2).elim
            | leaf cks cvs =>
              rw [WfN] at hc2
              obtain ⟨_, hsc, hac, hbc⟩ := hc2
              obtain ⟨hL, hC, hmB, hrel⟩ := borrowLeftLeaf_window hsl hal hbl
                hsc hac hbc (hb k₀ (List.mem_cons_self _ _))
                (hb k₀ (List.mem_cons_self _ _)).2 hlksne
              show WfPack 0 lo hi ([lks.getLastD ""],
                .cons (.leaf lks.dropLast lvs.dropLast)
                  (.cons (.leaf (lks.getLastD "" :: cks)
                    (lvs.getLastD { } :: cvs)) .nil))
              refine ⟨List.pairwise_singleton _ _, ?_, ?_⟩
              · intro x hx
                rw [List.mem_singleton.mp hx]
                exact hmB
              · rw [WfC]
                refine ⟨hL, ?_⟩
                rw [WfC]
                exact hC
          · exfalso
            simp [WfC] at hc2
        · rw [WfC] at hc2
          obtain ⟨hw1, hc3⟩ := hc2
          cases c₁ with
          | internal ia ib => exact (wfn_zero_leaf hw1).elim
          | leaf cks cvs =>
            rw [WfN] at hw1
            obtain ⟨_, hsc, hac, hbc⟩ := hw1
            obtain ⟨hL, hC, hmB, hrel⟩ := borrowLeftLeaf_window hsl hal hbl
              hsc hac hbc (hb k₀ (List.mem_cons_self _ _))
              (hs.1 k₁ (List.mem_cons_self _ _)) hlksne
            show WfPack 0 lo hi (lks.getLastD "" :: k₁ :: ks₂,
              .cons (.leaf lks.dropLast lvs.dropLast)
                (.cons (.leaf (lks.getLastD "" :: cks)
                  (lvs.getLastD { } :: cvs)) rest))
            refine ⟨?_, ?_, ?_⟩
            · rw [sortedKeys, List.pairwise_cons]
              refine ⟨?_, hs.2⟩
              intro x hx
              exact hrel x (hs.1 x hx)
            · intro x hx
              rcases List.mem_cons.mp hx with he | hm
              · rw [he]
                exact hmB
              · exact hb x (List.mem_cons_of_mem _ hm)
            · rw [WfC]
              refine ⟨hL, ?_⟩
              rw [WfC]
              exact ⟨hC, hc3⟩
  | lo, hi, k :: ks₁, .cons c cs₁, j + 2, hs, hb, hc, _, hlen, hguard => by
      rw [WfC] at hc
      rw [sortedKeys, List.pairwise_cons] at hs
      have hpeel : borrowFromLeftLeaf (k :: ks₁) (.cons c cs₁) (j + 2) =
          ((k :: (borrowFromLeftLeaf ks₁ cs₁ (j + 1)).1),
            .cons c (borrowFromLeftLeaf ks₁ cs₁ (j + 1)).2) := rfl
      rw [hpeel]
      refine wfPack_cons_lift (hb k (List.mem_cons_self _ _)) hc.1 ?_
      have hlen₁ : (NodeList.cons c cs₁).length = cs₁.length + 1 := rfl
      exact borrowFromLeftLeaf_wf minK hminK (some k) hi ks₁ cs₁ (j + 1)
        hs.2 (fun x hx => ⟨hs.1 x hx, (hb x (List.mem_cons_of_mem _ hx)).2⟩)
        hc.2 (by omega) (by omega) hguard

/-- The local window facts for borrowing the first key of the right leaf
sibling: the moved key is appended to the child and the right sibling's
new head key becomes the new separator. -/
theorem borrowRightLeaf_window {lo hi₁ : Option String} {k₀ r0 r1 : String}
    {cks rk₂ : List String} {cvs rvs : List IndexPointer}
    (hsc : sortedKeys cks) (hac : cvs.length = cks.length)
    (hbc : ∀ x ∈ cks, inB lo (some k₀) x)
    (hsr : sortedKeys (r0 :: r1 :: rk₂))
    (har : rvs.length = (r0 :: r1 :: rk₂).length)
    (hbr : ∀ x ∈ r0 :: r1 :: rk₂, inB (some k₀) hi₁ x)
    (hk₀ : lowOk lo k₀) :
    WfN 0 lo (some r1) (.leaf (cks ++ [r0]) (cvs ++ [rvs.headD { }])) ∧
    WfN 0 (some r1) hi₁ (.leaf (r1 :: rk₂) rvs.tail) := by
  have hr0 : inB (some k₀) hi₁ r0 := hbr r0 (List.mem_cons_self _ _)
  have hr1r0 : keyLt r1 r0 = false :=
    (List.pairwise_cons.mp hsr).1 r1 (List.mem_cons_self _ _)
  have hcks_r0 : ∀ x ∈ cks, keyLt r0 x = false := fun x hx =>
    keyLeTrans (hbc x hx).2 hr0.1
  constructor
  · rw [WfN]
    refine ⟨rfl, ?_, ?_, ?_⟩
    · rw [sortedKeys, List.pairwise_append]
      exact ⟨hsc, List.pairwise_singleton _ _, fun x hx y hy => by
        rw [List.mem_singleton.mp hy]
        exact hcks_r0 x hx⟩
    · simp [hac]
    · intro x hx
      rcases List.mem_append.mp hx with hm | he
      · exact ⟨(hbc x hm).1, keyLeTrans (hcks_r0 x hm) hr1r0⟩
      · rw [List.mem_singleton.mp he]
        exact ⟨lowOk_of_le hk₀ hr0.1, hr1r0⟩
  · rw [WfN]
    have hsr1 := (List.pairwise_cons.mp hsr).2
    refine ⟨rfl, hsr1, ?_, ?_⟩
    · rw [List.length_tail, har]
      rfl
    · intro x hx
      rcases List.mem_cons.mp hx with he | hm
      · rw [he]
        exact ⟨keyLt_irrefl _, (hbr r1 (by simp)).2⟩
      · exact ⟨(List.pairwise_cons.mp hsr1).1 x hm,
          (hbr x (by simp [hm])).2⟩

/-- `borrowFromRightLeaf` preserves the parent package when the right
sibling has a key to spare. -/
theorem borrowFromRightLeaf_wf (minK : Nat) (hminK : 1 ≤ minK) :
    ∀ (lo hi : Option String) (ks : List String) (cs : NodeList) (ci : Nat),
      sortedKeys ks → (∀ x ∈ ks, inB lo hi x) → WfC 0 lo hi ks cs →
      ci + 1 < cs.length →
      minK < (cs.getD (ci + 1)).keysOf.length →
      WfPack 0 lo hi (borrowFromRightLeaf ks cs ci)
  | _, _, _, .nil, _, _, _, _, hlen, _ => by
      simp [NodeList.length] at hlen
  | _, _, _, .cons _ .nil, ci, _, _, _, hlen, _ => by
      have h1 : ci + 1 < 1 := hlen
      omega
  | _, _, [], .cons _ (.cons _ _), _, _, _, hc, _, _ => by
      simp [WfC] at hc
  | lo, hi, k₀ :: ks₁, .cons c₀ (.cons c₁ rest), 0, hs, hb, hc, hlen,
      hguard => by
      rw [WfC] at hc
      obtain ⟨hw0, hc2⟩ := hc
      rw [sortedKeys, List.pairwise_cons] at hs
      cases c₀ with
      | internal ia ib => exact (wfn_zero_leaf hw0).elim
      | leaf cks cvs =>
        rw [WfN] at hw0
        obtain ⟨_, hsc, hac, hbc⟩ := hw0
        rcases ks₁ with _ | ⟨k₁, ks₂⟩
        · rcases rest with _ | ⟨c₂, r₂⟩
          · rw [WfC] at hc2
            cases c₁ with
            | internal ia ib => exact (wfn_zero_leaf hc2).elim
            | leaf rks rvs =>
              rw [WfN] at hc2
              obtain ⟨_, hsr, har, hbr⟩ := hc2
              have hg : minK < rks.length := hguard
              rcases rks with _ | ⟨r0, rks'⟩
              · simp at hg
              rcases rks' with _ | ⟨r1, rk₂⟩
              · have : minK < 1 := by simpa using hg
                omega
              obtain ⟨hC, hR⟩ := borrowRightLeaf_window hsc hac hbc hsr har
                hbr (hb k₀ (List.mem_cons_self _ _)).1
              show WfPack 0 lo hi ([r1],
                .cons (.leaf (cks ++ [r0]) (cvs ++ [rvs.headD { }]))
                  (.cons (.leaf (r1 :: rk₂) rvs.tail) .nil))
              refine ⟨List.pairwise_singleton _ _, ?_, ?_⟩
              · intro x hx
                rw [List.mem_singleton.mp hx]
                exact ⟨lowOk_of_le (hb k₀ (List.mem_cons_self _ _)).1
                    (hbr r1 (by simp)).1,
                  (hbr r1 (by simp)).2⟩
              · rw [WfC]
                refine ⟨hC, ?_⟩
                rw [WfC]
                exact hR
          · exfalso
            simp [WfC] at hc2
        · rw [WfC] at hc2
          obtain ⟨hw1, hc3⟩ := hc2
          cases c₁ with
          | internal ia ib => exact (wfn_zero_leaf hw1).elim
          | leaf rks rvs =>
            rw [WfN] at hw1
            obtain ⟨_, hsr, har, hbr⟩ := hw1
            have hg : minK < rks.length := hguard
            rcases rks with _ | ⟨r0, rks'⟩
            · simp at hg
            rcases rks' with _ | ⟨r1, rk₂⟩
            · have : minK < 1 := by simpa using hg
              omega
            obtain ⟨hC, hR⟩ := borrowRightLeaf_window hsc hac hbc hsr har
              hbr (hb k₀ (List.mem_cons_self _ _)).1
            have hr1k₁ : keyLt k₁ r1 = false := (hbr r1 (by simp)).2
            show WfPack 0 lo hi (r1 :: k₁ :: ks₂,
              .cons (.leaf (cks ++ [r0]) (cvs ++ [rvs.headD { }]))
                (.cons (.leaf (r1 :: rk₂) rvs.tail) rest))
            refine ⟨?_, ?_, ?_⟩
            · rw [sortedKeys, List.pairwise_cons]
              refine ⟨?_, hs.2⟩
              intro x hx
              rcases List.mem_cons.mp hx with he | hm
              · rw [he]
                exact hr1k₁
              · exact keyLeTrans hr1k₁ ((List.pairwise_cons.mp hs.2).1 x hm)
            · intro x hx
              rcases List.mem_cons.mp hx with he | hm
              · rw [he]
                refine ⟨lowOk_of_le (hb k₀ (List.mem_cons_self _ _)).1
                    (hbr r1 (by simp)).1, ?_⟩
                exact highOk_of_le (hb k₁ (by simp)).2 hr1k₁
              · exact hb x (List.mem_cons_of_mem _ hm)
            · rw [WfC]
              refine ⟨hC, ?_⟩
              rw [WfC]
              exact ⟨hR, hc3⟩
  | lo, hi, k :: ks₁, .cons c cs₁, j + 1, hs, hb, hc, hlen, hguard => by
      rw [WfC] at hc
      rw [sortedKeys, List.pairwise_cons] at hs
      have hpeel : borrowFromRightLeaf (k :: ks₁) (.cons c cs₁) (j + 1) =
          ((k :: (borrowFromRightLeaf ks₁ cs₁ j).1),
            .cons c (borrowFromRightLeaf ks₁ cs₁ j).2) := rfl
      rw [hpeel]
      refine wfPack_cons_lift (hb k (List.mem_cons_self _ _)) hc.1 ?_
      have hlen₁ : (NodeList.cons c cs₁).length = cs₁.length + 1 := rfl
      exact borrowFromRightLeaf_wf minK hminK (some k) hi ks₁ cs₁ j
        hs.2 (fun x hx => ⟨hs.1 x hx, (hb x (List.mem_cons_of_mem _ hx)).2⟩)
        hc.2 (by omega) hguard

/-- Merging two adjacent leaves absorbs the separator position: the merged
leaf covers both ranges and the separator is erased from the parent. -/
theorem mergeLeaves_wf :
    ∀ (lo hi : Option String) (ks : List String) (cs : NodeList) (li : Nat),
      sortedKeys ks → (∀ x ∈ ks, inB lo hi x) → WfC 0 lo hi ks cs →
      li + 1 < cs.length →
      WfPack 0 lo hi (mergeLeaves ks cs li)
  | _, _, _, .nil, _, _, _, _, hlen => by
      simp [NodeList.length] at hlen
  | _, _, _, .cons _ .nil, li, _, _, _, hlen => by
      have h1 : li + 1 < 1 := hlen
      omega
  | _, _, [], .cons _ (.cons _ _), _, _, _, hc, _ => by
      simp [WfC] at hc
  | lo, hi, k₀ :: ks₁, .cons c₀ (.cons c₁ rest), 0, hs, hb, hc, hlen => by
      rw [WfC] at hc
      obtain ⟨hw0, hc2⟩ := hc
      rw [sortedKeys, List.pairwise_cons] at hs
      have hlcs : (NodeList.cons c₀ (NodeList.cons c₁ rest)).length =
          rest.length + 2 := rfl
      rw [mergeLeaves, if_neg (by omega)]
      cases c₀ with
      | internal ia ib => exact (wfn_zero_leaf hw0).elim
      | leaf aks avs =>
        rw [WfN] at hw0
        obtain ⟨_, hsa, haa, hba⟩ := hw0
        rcases ks₁ with _ | ⟨k₁, ks₂⟩
        · rcases rest with _ | ⟨c₂, r₂⟩
          · rw [WfC] at hc2
            cases c₁ with
            | internal ia ib => exact (wfn_zero_leaf hc2).elim
            | leaf bks bvs =>
              rw [WfN] at hc2
              obtain ⟨_, hsb, hab, hbb⟩ := hc2
              show WfPack 0 lo hi ([],
                .cons (.leaf (aks ++ bks) (avs ++ bvs)) .nil)
              refine ⟨List.Pairwise.nil, by simp, ?_⟩
              rw [WfC, WfN]
              refine ⟨rfl, ?_, by simp [haa, hab], ?_⟩
              · rw [sortedKeys, List.pairwise_append]
                exact ⟨hsa, hsb, fun x hx y hy =>
                  keyLeTrans (hba x hx).2 (hbb y hy).1⟩
              · intro x hx
                rcases List.mem_append.mp hx with hm | hm
                · exact ⟨(hba x hm).1,
                    highOk_of_le (hb k₀ (by simp)).2 (hba x hm).2⟩
                · exact ⟨lowOk_of_le (hb k₀ (by simp)).1 (hbb x hm).1,
                    (hbb x hm).2⟩
          · exfalso
            simp [WfC] at hc2
        · rw [WfC] at hc2
          obtain ⟨hw1, hc3⟩ := hc2
          cases c₁ with
          | internal ia ib => exact (wfn_zero_leaf hw1).elim
          | leaf bks bvs =>
            rw [WfN] at hw1
            obtain ⟨_, hsb, hab, hbb⟩ := hw1
            show WfPack 0 lo hi (k₁ :: ks₂,
              .cons (.leaf (aks ++ bks) (avs ++ bvs)) rest)
            refine ⟨hs.2, ?_, ?_⟩
            · intro x hx
              exact hb x (List.mem_cons_of_mem _ hx)
            · rw [WfC]
              refine ⟨?_, hc3⟩
              rw [WfN]
              refine ⟨rfl, ?_, by simp [haa, hab], ?_⟩
              · rw [sortedKeys, List.pairwise_append]
                exact ⟨hsa, hsb, fun x hx y hy =>
                  keyLeTrans (hba x hx).2 (hbb y hy).1⟩
              · intro x hx
                rcases List.mem_append.mp hx with hm | hm
                · exact ⟨(hba x hm).1,
                    highOk_of_le (hs.1 k₁ (by simp)) (hba x hm).2⟩
                · exact ⟨lowOk_of_le (hb k₀ (by simp)).1 (hbb x hm).1,
                    (hbb x hm).2⟩
  | lo, hi, k :: ks₁, .cons c cs₁, j + 1, hs, hb, hc, hlen => by
      rw [WfC] at hc
      rw [sortedKeys, List.pairwise_cons] at hs
      have hlcs : (NodeList.cons c cs₁).length = cs₁.length + 1 := rfl
      have hpeel : mergeLeaves (k :: ks₁) (.cons c cs₁) (j + 1) =
          ((k :: (mergeLeaves ks₁ cs₁ j).1),
            .cons c (mergeLeaves ks₁ cs₁ j).2) := by
        rw [mergeLeaves, mergeLeaves, if_neg (by omega), if_neg (by omega)]
        rfl
      rw [hpeel]
      refine wfPack_cons_lift (hb k (List.mem_cons_self _ _)) hc.1 ?_
      exact mergeLeaves_wf (some k) hi ks₁ cs₁ j
        hs.2 (fun x hx => ⟨hs.1 x hx, (hb x (List.mem_cons_of_mem _ hx)).2⟩)
        hc.2 (by omega)

/-- The local window facts for borrowing from the left internal sibling:
the parent separator rotates down into the child, the left sibling's last
key rotates up, and the left sibling's last subtree moves across. -/
theorem borrowLeftInternal_window {h2 : Nat} (hp : 0 < h2)
    {lo hi₁ hi : Option String} {k₀ : String}
    {lks cks : List String} {lcs ccs : NodeList}
    (hsl : sortedKeys lks) (hbl : ∀ x ∈ lks, inB lo (some k₀) x)
    (hcl : WfC (h2 - 1) lo (some k₀) lks lcs)
    (hsc : sortedKeys cks) (hbc : ∀ x ∈ cks, inB (some k₀) hi₁ x)
    (hcc : WfC (h2 - 1) (some k₀) hi₁ cks ccs)
    (hk₀ : inB lo hi k₀) (hk0hi : highOk hi₁ k₀) (hlksne : lks ≠ []) :
    WfN h2 lo (some (lks.getLastD ""))
      (.internal lks.dropLast lcs.popBack) ∧
    WfN h2 (some (lks.getLastD "")) hi₁
      (.internal (k₀ :: cks) (.cons lcs.lastD ccs)) ∧
    inB lo hi (lks.getLastD "") ∧
    (∀ x, keyLt x k₀ = false → keyLt x (lks.getLastD "") = false) := by
  have hmb : inB lo (some k₀) (lks.getLastD "") :=
    hbl _ (getLastD_mem "" lks hlksne)
  have huns := wfc_unsnoc (h2 - 1) lo (some k₀) lks lcs hcl hlksne
  refine ⟨?_, ?_, ?_, ?_⟩
  · rw [WfN]
    refine ⟨hp, List.Pairwise.sublist (List.dropLast_sublist _) hsl, ?_,
      huns.1⟩
    intro x hx
    have hxm : x ∈ lks := (List.dropLast_sublist _).mem hx
    exact ⟨(hbl x hxm).1, sorted_le_getLastD "" hsl x hxm⟩
  · rw [WfN]
    refine ⟨hp, ?_, ?_, ?_⟩
    · rw [sortedKeys, List.pairwise_cons]
      exact ⟨fun x hx => (hbc x hx).1, hsc⟩
    · intro x hx
      rcases List.mem_cons.mp hx with he | hm
      · rw [he]
        exact ⟨hmb.2, hk0hi⟩
      · exact ⟨keyLeTrans hmb.2 (hbc x hm).1, (hbc x hm).2⟩
    · rw [WfC]
      exact ⟨huns.2, hcc⟩
  · exact ⟨hmb.1, highOk_of_le hk₀.2 hmb.2⟩
  · intro x hx
    exact keyLeTrans hmb.2 hx

/-- `borrowFromLeftInternal` preserves the parent package when the left
sibling has a key to spare. -/
theorem borrowFromLeftInternal_wf (minK : Nat) (hminK : 1 ≤ minK)
    (h2 : Nat) (hp : 0 < h2) :
    ∀ (lo hi : Option String) (ks : List String) (cs : NodeList) (ci : Nat),
      sortedKeys ks → (∀ x ∈ ks, inB lo hi x) → WfC h2 lo hi ks cs →
      1 ≤ ci → ci < cs.length →
      minK < (cs.getD (ci - 1)).keysOf.length →
      WfPack h2 lo hi (borrowFromLeftInternal ks cs ci)
  | _, _, _, _, 0, _, _, _, hci, _, _ => absurd hci (by omega)
  | _, _, _, .nil, ci + 1, _, _, _, _, hlen, _ => by
      simp [NodeList.length] at hlen
  | _, _, _, .cons _ .nil, ci + 1, _, _, _, _, hlen, _ => by
      have h1 : ci + 1 < 1 := hlen
      omega
  | _, _, [], .cons _ (.cons _ _), _ + 1, _, _, hc, _, _, _ => by
      simp [WfC] at hc
  | lo, hi, k₀ :: ks₁, .cons c₀ (.cons c₁ rest), 1, hs, hb, hc, _, hlen,
      hguard => by
      rw [WfC] at hc
      obtain ⟨hw0, hc2⟩ := hc
      rw [sortedKeys, List.pairwise_cons] at hs
      cases c₀ with
      | leaf a b => exact (wfn_pos_not_leaf hp hw0).elim
      | internal lks lcs =>
        rw [WfN] at hw0
        obtain ⟨_, hsl, hbl, hcl⟩ := hw0
        have hg : minK < lks.length := hguard
        have hlksne : lks ≠ [] := by
          intro he
          rw [he] at hg
          simp at hg
        rcases ks₁ with _ | ⟨k₁, ks₂⟩
        · rcases rest with _ | ⟨c₂, r₂⟩
          · rw [WfC] at hc2
            cases c₁ with
            | leaf a b => exact (wfn_pos_not_leaf hp hc2).elim
            | internal cks ccs =>
              rw [WfN] at hc2
              obtain ⟨_, hsc, hbc, hcc⟩ := hc2
              obtain ⟨hL, hC, hmB, hrel⟩ := borrowLeftInternal_window hp hsl
                hbl hcl hsc hbc hcc (hb k₀ (List.mem_cons_self _ _))
                (hb k₀ (List.mem_cons_self _ _)).2 hlksne
              show WfPack h2 lo hi ([lks.getLastD ""],
                .cons (.internal lks.dropLast lcs.popBack)
                  (.cons (.internal (k₀ :: cks) (.cons lcs.lastD ccs)) .nil))
              refine ⟨List.pairwise_singleton _ _, ?_, ?_⟩
              · intro x hx
                rw [List.mem_singleton.mp hx]
                exact hmB
              · rw [WfC]
                refine ⟨hL, ?_⟩
                rw [WfC]
                exact hC
          · exfalso
            simp [WfC] at hc2
        · rw [WfC] at hc2
          obtain ⟨hw1, hc3⟩ := hc2
          cases c₁ with
          | leaf a b => exact (wfn_pos_not_leaf hp hw1).elim
          | internal cks ccs =>
            rw [WfN] at hw1
            obtain ⟨_, hsc, hbc, hcc⟩ := hw1
            obtain ⟨hL, hC, hmB, hrel⟩ := borrowLeftInternal_window hp hsl
              hbl hcl hsc hbc hcc (hb k₀ (List.mem_cons_self _ _))
              (hs.1 k₁ (List.mem_cons_self _ _)) hlksne
            show WfPack h2 lo hi (lks.getLastD "" :: k₁ :: ks₂,
              .cons (.internal lks.dropLast lcs.popBack)
                (.cons (.internal (k₀ :: cks) (.cons lcs.lastD ccs)) rest))
            refine ⟨?_, ?_, ?_⟩
            · rw [sortedKeys, List.pairwise_cons]
              refine ⟨?_, hs.2⟩
              intro x hx
              exact hrel x (hs.1 x hx)
            · intro x hx
              rcases List.mem_cons.mp hx with he | hm
              · rw [he]
                exact hmB
              · exact hb x (List.mem_cons_of_mem _ hm)
            · rw [WfC]
              refine ⟨hL, ?_⟩
              rw [WfC]
              exact ⟨hC, hc3⟩
  | lo, hi, k :: ks₁, .cons c cs₁, j + 2, hs, hb, hc, _, hlen, hguard => by
      rw [WfC] at hc
      rw [sortedKeys, List.pairwise_cons] at hs
      have hpeel : borrowFromLeftInternal (k :: ks₁) (.cons c cs₁) (j + 2) =
          ((k :: (borrowFromLeftInternal ks₁ cs₁ (j + 1)).1),
            .cons c (borrowFromLeftInternal ks₁ cs₁ (j + 1)).2) := rfl
      rw [hpeel]
      refine wfPack_cons_lift (hb k (List.mem_cons_self _ _)) hc.1 ?_
      have hlen₁ : (NodeList.cons c cs₁).length = cs₁.length + 1 := rfl
      exact borrowFromLeftInternal_wf minK hminK h2 hp (some k) hi ks₁ cs₁
        (j + 1) hs.2
        (fun x hx => ⟨hs.1 x hx, (hb x (List.mem_cons_of_mem _ hx)).2⟩)
        hc.2 (by omega) (by omega) hguard

/-- The local window facts for borrowing from the right internal sibling:
the parent separator rotates down onto the end of the child, the right
sibling's head key rotates up, and its first subtree moves across. -/
theorem borrowRightInternal_window {h2 : Nat} (hp : 0 < h2)
    {lo hi₁ : Option String} {k₀ r0 : String}
    {cks rk₁ : List String} {ccs : NodeList} {rc0 : BTNode} {rcs₁ : NodeList}
    (hsc : sortedKeys cks) (hbc : ∀ x ∈ cks, inB lo (some k₀) x)
    (hcc : WfC (h2 - 1) lo (some k₀) cks ccs)
    (hsr : sortedKeys (r0 :: rk₁))
    (hbr : ∀ x ∈ r0 :: rk₁, inB (some k₀) hi₁ x)
    (hrc0 : WfN (h2 - 1) (some k₀) (some r0) rc0)
    (hrcs : WfC (h2 - 1) (some r0) hi₁ rk₁ rcs₁)
    (hk₀ : lowOk lo k₀) :
    WfN h2 lo (some r0)
      (.internal (cks ++ [k₀]) (ccs.appendNL (.cons rc0 .nil))) ∧
    WfN h2 (some r0) hi₁ (.internal rk₁ rcs₁) := by
  have hr0 : inB (some k₀) hi₁ r0 := hbr r0 (List.mem_cons_self _ _)
  constructor
  · rw [WfN]
    refine ⟨hp, ?_, ?_, ?_⟩
    · rw [sortedKeys, List.pairwise_append]
      exact ⟨hsc, List.pairwise_singleton _ _, fun x hx y hy => by
        rw [List.mem_singleton.mp hy]
        exact (hbc x hx).2⟩
    · intro x hx
      rcases List.mem_append.mp hx with hm | he
      · exact ⟨(hbc x hm).1, keyLeTrans (hbc x hm).2 hr0.1⟩
      · rw [List.mem_singleton.mp he]
        exact ⟨hk₀, hr0.1⟩
    · exact wfc_append (h2 - 1) lo (some r0) k₀ cks ccs [] (.cons rc0 .nil)
        hcc (by rw [WfC]; exact hrc0)
  · rw [WfN]
    refine ⟨hp, (List.pairwise_cons.mp hsr).2, ?_, hrcs⟩
    intro x hx
    exact ⟨(List.pairwise_cons.mp hsr).1 x hx,
      (hbr x (List.mem_cons_of_mem _ hx)).2⟩

/-- `borrowFromRightInternal` preserves the parent package when the right
sibling has a key to spare. -/
theorem borrowFromRightInternal_wf (minK : Nat) (hminK : 1 ≤ minK)
    (h2 : Nat) (hp : 0 < h2) :
    ∀ (lo hi : Option String) (ks : List String) (cs : NodeList) (ci : Nat),
      sortedKeys ks → (∀ x ∈ ks, inB lo hi x) → WfC h2 lo hi ks cs →
      ci + 1 < cs.length →
      minK < (cs.getD (ci + 1)).keysOf.length →
      WfPack h2 lo hi (borrowFromRightInternal ks cs ci)
  | _, _, _, .nil, _, _, _, _, hlen, _ => by
      simp [NodeList.length] at hlen
  | _, _, _, .cons _ .nil, ci, _, _, _, hlen, _ => by
      have h1 : ci + 1 < 1 := hlen
      omega
  | _, _, [], .cons _ (.cons _ _), _, _, _, hc, _, _ => by
      simp [WfC] at hc
  | lo, hi, k₀ :: ks₁, .cons c₀ (.cons c₁ rest), 0, hs, hb, hc, hlen,
      hguard => by
      rw [WfC] at hc
      obtain ⟨hw0, hc2⟩ := hc
      rw [sortedKeys, List.pairwise_cons] at hs
      cases c₀ with
      | leaf a b => exact (wfn_pos_not_leaf hp hw0).elim
      | internal cks ccs =>
        rw [WfN] at hw0
        obtain ⟨_, hsc, hbc, hcc⟩ := hw0
        rcases ks₁ with _ | ⟨k₁, ks₂⟩
        · rcases rest with _ | ⟨c₂, r₂⟩
          · rw [WfC] at hc2
            cases c₁ with
            | leaf a b => exact (wfn_pos_not_leaf hp hc2).elim
            | internal rks rcs =>
              rw [WfN] at hc2
              obtain ⟨_, hsr, hbr, hcr⟩ := hc2
              have hg : minK < rks.length := hguard
              rcases rks with _ | ⟨r0, rk₁⟩
              · simp at hg
              rcases hrcs : rcs with _ | ⟨rc0, rcs₁⟩
              · rw [hrcs] at hcr
                simp [WfC] at hcr
              rw [hrcs] at hcr
              rw [WfC] at hcr
              obtain ⟨hC, hR⟩ := borrowRightInternal_window hp hsc hbc hcc
                hsr hbr hcr.1 hcr.2 (hb k₀ (List.mem_cons_self _ _)).1
              show WfPack h2 lo hi ([r0],
                .cons (.internal (cks ++ [k₀]) (ccs.appendNL (.cons rc0 .nil)))
                  (.cons (.internal rk₁ rcs₁) .nil))
              refine ⟨List.pairwise_singleton _ _, ?_, ?_⟩
              · intro x hx
                rw [List.mem_singleton.mp hx]
                exact ⟨lowOk_of_le (hb k₀ (List.mem_cons_self _ _)).1
                    (hbr r0 (by simp)).1,
                  (hbr r0 (by simp)).2⟩
              · rw [WfC]
                refine ⟨hC, ?_⟩
                rw [WfC]
                exact hR
          · exfalso
            simp [WfC] at hc2
        · rw [WfC] at hc2
          obtain ⟨hw1, hc3⟩ := hc2
          cases c₁ with
          | leaf a b => exact (wfn_pos_not_leaf hp hw1).elim
          | internal rks rcs =>
            rw [WfN] at hw1
            obtain ⟨_, hsr, hbr, hcr⟩ := hw1
            have hg : minK < rks.length := hguard
            rcases rks with _ | ⟨r0, rk₁⟩
            · simp at hg
            rcases hrcs : rcs with _ | ⟨rc0, rcs₁⟩
            · rw [hrcs] at hcr
              simp [WfC] at hcr
            rw [hrcs] at hcr
            rw [WfC] at hcr
            obtain ⟨hC, hR⟩ := borrowRightInternal_window hp hsc hbc hcc
              hsr hbr hcr.1 hcr.2 (hb k₀ (List.mem_cons_self _ _)).1
            have hr0k₁ : keyLt k₁ r0 = false := (hbr r0 (by simp)).2
            show WfPack h2 lo hi (r0 :: k₁ :: ks₂,
              .cons (.internal (cks ++ [k₀]) (ccs.appendNL (.cons rc0 .nil)))
                (.cons (.internal rk₁ rcs₁) rest))
            refine ⟨?_, ?_, ?_⟩
            · rw [sortedKeys, List.pairwise_cons]
              refine ⟨?_, hs.2⟩
              intro x hx
              rcases List.mem_cons.mp hx with he | hm
              · rw [he]
                exact hr0k₁
              · exact keyLeTrans hr0k₁ ((List.pairwise_cons.mp hs.2).1 x hm)
            · intro x hx
              rcases List.mem_cons.mp hx with he | hm
              · rw [he]
                refine ⟨lowOk_of_le (hb k₀ (List.mem_cons_self _ _)).1
                    (hbr r0 (by simp)).1, ?_⟩
                exact highOk_of_le (hb k₁ (by simp)).2 hr0k₁
              · exact hb x (List.mem_cons_of_mem _ hm)
            · rw [WfC]
              refine ⟨hC, ?_⟩
              rw [WfC]
              exact ⟨hR, hc3⟩
  | lo, hi, k :: ks₁, .cons c cs₁, j + 1, hs, hb, hc, hlen, hguard => by
      rw [WfC] at hc
      rw [sortedKeys, List.pairwise_cons] at hs
      have hpeel : borrowFromRightInternal (k :: ks₁) (.cons c cs₁) (j + 1) =
          ((k :: (borrowFromRightInternal ks₁ cs₁ j).1),
            .cons c (borrowFromRightInternal ks₁ cs₁ j).2) := rfl
      rw [hpeel]
      refine wfPack_cons_lift (hb k (List.mem_cons_self _ _)) hc.1 ?_
      have hlen₁ : (NodeList.cons c cs₁).length = cs₁.length + 1 := rfl
      exact borrowFromRightInternal_wf minK hminK h2 hp (some k) hi ks₁ cs₁ j
        hs.2 (fun x hx => ⟨hs.1 x hx, (hb x (List.mem_cons_of_mem _ hx)).2⟩)
        hc.2 (by omega) hguard

/-- Merging two adjacent internal children pulls the parent separator down
between their key lists and concatenates their subtrees. -/
theorem mergeInternal_wf (h2 : Nat) (hp : 0 < h2) :
    ∀ (lo hi : Option String) (ks : List String) (cs : NodeList) (li : Nat),
      sortedKeys ks → (∀ x ∈ ks, inB lo hi x) → WfC h2 lo hi ks cs →
      li + 1 < cs.length →
      WfPack h2 lo hi (mergeInternal ks cs li)
  | _, _, _, .nil, _, _, _, _, hlen => by
      simp [NodeList.length] at hlen
  | _, _, _, .cons _ .nil, li, _, _, _, hlen => by
      have h1 : li + 1 < 1 := hlen
      omega
  | _, _, [], .cons _ (.cons _ _), _, _, _, hc, _ => by
      simp [WfC] at hc
  | lo, hi, k₀ :: ks₁, .cons c₀ (.cons c₁ rest), 0, hs, hb, hc, hlen => by
      rw [WfC] at hc
      obtain ⟨hw0, hc2⟩ := hc
      rw [sortedKeys, List.pairwise_cons] at hs
      have hlcs : (NodeList.cons c₀ (NodeList.cons c₁ rest)).length =
          rest.length + 2 := rfl
      rw [mergeInternal, if_neg (by omega)]
      cases c₀ with
      | leaf a b => exact (wfn_pos_not_leaf hp hw0).elim
      | internal aks acs =>
        rw [WfN] at hw0
        obtain ⟨_, hsa, hba, hca⟩ := hw0
        rcases ks₁ with _ | ⟨k₁, ks₂⟩
        · rcases rest with _ | ⟨c₂, r₂⟩
          · rw [WfC] at hc2
            cases c₁ with
            | leaf a b => exact (wfn_pos_not_leaf hp hc2).elim
            | internal bks bcs =>
              rw [WfN] at hc2
              obtain ⟨_, hsb, hbb, hcb⟩ := hc2
              show WfPack h2 lo hi ([],
                .cons (.internal (aks ++ [k₀] ++ bks) (acs.appendNL bcs))
                  .nil)
              refine ⟨List.Pairwise.nil, by simp, ?_⟩
              rw [WfC, WfN]
              rw [List.append_assoc, List.singleton_append]
              refine ⟨hp, ?_, ?_, wfc_append (h2 - 1) lo hi k₀ aks acs bks
                bcs hca hcb⟩
              · rw [sortedKeys, List.pairwise_append]
                refine ⟨hsa, ?_, ?_⟩
                · rw [List.pairwise_cons]
                  exact ⟨fun x hx => (hbb x hx).1, hsb⟩
                · intro x hx y hy
                  rcases List.mem_cons.mp hy with he | hm
                  · rw [he]
                    exact (hba x hx).2
                  · exact keyLeTrans (hba x hx).2 (hbb y hm).1
              · intro x hx
                rcases List.mem_append.mp hx with hm | hm
                · exact ⟨(hba x hm).1,
                    highOk_of_le (hb k₀ (by simp)).2 (hba x hm).2⟩
                · rcases List.mem_cons.mp hm with he | hm₂
                  · rw [he]
                    exact hb k₀ (by simp)
                  · exact ⟨lowOk_of_le (hb k₀ (by simp)).1 (hbb x hm₂).1,
                      (hbb x hm₂).2⟩
          · exfalso
            simp [WfC] at hc2
        · rw [WfC] at hc2
          obtain ⟨hw1, hc3⟩ := hc2
          cases c₁ with
          | leaf a b => exact (wfn_pos_not_leaf hp hw1).elim
          | internal bks bcs =>
            rw [WfN] at hw1
            obtain ⟨_, hsb, hbb, hcb⟩ := hw1
            show WfPack h2 lo hi (k₁ :: ks₂,
              .cons (.internal (aks ++ [k₀] ++ bks) (acs.appendNL bcs)) rest)
            refine ⟨hs.2, ?_, ?_⟩
            · intro x hx
              exact hb x (List.mem_cons_of_mem _ hx)
            · rw [WfC]
              refine ⟨?_, hc3⟩
              rw [WfN]
              rw [List.append_assoc, List.singleton_append]
              refine ⟨hp, ?_, ?_, wfc_append (h2 - 1) lo (some k₁) k₀ aks acs
                bks bcs hca hcb⟩
              · rw [sortedKeys, List.pairwise_append]
                refine ⟨hsa, ?_, ?_⟩
                · rw [List.pairwise_cons]
                  exact ⟨fun x hx => (hbb x hx).1, hsb⟩
                · intro x hx y hy
                  rcases List.mem_cons.mp hy with he | hm
                  · rw [he]
                    exact (hba x hx).2
                  · exact keyLeTrans (hba x hx).2 (hbb y hm).1
              · intro x hx
                rcases List.mem_append.mp hx with hm | hm
                · exact ⟨(hba x hm).1,
                    highOk_of_le (hs.1 k₁ (by simp)) (hba x hm).2⟩
                · rcases List.mem_cons.mp hm with he | hm₂
                  · rw [he]
                    exact ⟨(hb k₀ (by simp)).1, hs.1 k₁ (by simp)⟩
                  · exact ⟨lowOk_of_le (hb k₀ (by simp)).1 (hbb x hm₂).1,
                      (hbb x hm₂).2⟩
  | lo, hi, k :: ks₁, .cons c cs₁, j + 1, hs, hb, hc, hlen => by
      rw [WfC] at hc
      rw [sortedKeys, List.pairwise_cons] at hs
      have hlcs : (NodeList.cons c cs₁).length = cs₁.length + 1 := rfl
      have hpeel : mergeInternal (k :: ks₁) (.cons c cs₁) (j + 1) =
          ((k :: (mergeInternal ks₁ cs₁ j).1),
            .cons c (mergeInternal ks₁ cs₁ j).2) := by
        rw [mergeInternal, mergeInternal, if_neg (by omega), if_neg (by omega)]
        rfl
      rw [hpeel]
      refine wfPack_cons_lift (hb k (List.mem_cons_self _ _)) hc.1 ?_
      exact mergeInternal_wf h2 hp (some k) hi ks₁ cs₁ j
        hs.2 (fun x hx => ⟨hs.1 x hx, (hb x (List.mem_cons_of_mem _ hx)).2⟩)
        hc.2 (by omega)

/-- Every child of a well-formed pairing is well formed for some range. -/
theorem wfc_getD_wf (h2 : Nat) :
    ∀ (lo hi : Option String) (ks : List String) (cs : NodeList) (i : Nat),
      WfC h2 lo hi ks cs → i < cs.length →
      ∃ lo2 hi2, WfN h2 lo2 hi2 (cs.getD i)
  | _, _, [], .nil, _, hc, _ => by simp [WfC] at hc
  | _, _, [], .cons _ (.cons _ _), _, hc, _ => by simp [WfC] at hc
  | _, _, _ :: _, .nil, _, hc, _ => by simp [WfC] at hc
  | lo, hi, [], .cons c .nil, 0, hc, _ => by
      rw [WfC] at hc
      exact ⟨lo, hi, hc⟩
  | lo, hi, [], .cons c .nil, i + 1, hc, hlen => by
      have h1 : i + 1 < 1 := hlen
      omega
  | lo, hi, k :: ks₁, .cons c rest, 0, hc, _ => by
      rw [WfC] at hc
      exact ⟨lo, some k, hc.1⟩
  | lo, hi, k :: ks₁, .cons c rest, i + 1, hc, hlen => by
      rw [WfC] at hc
      have hr : (NodeList.cons c rest).length = rest.length + 1 := rfl
      exact wfc_getD_wf h2 (some k) hi ks₁ rest i hc.2 (by omega)

/-- The rebalancing dispatch (borrow from the richer sibling, otherwise
merge) preserves the parent package at any in-range child index. -/
theorem rebalanceDispatch_wf (minK : Nat) (hminK : 1 ≤ minK) (h2 : Nat)
    (lo hi : Option String) (ks : List String) (cs : NodeList) (ci : Nat)
    (hs : sortedKeys ks) (hb : ∀ x ∈ ks, inB lo hi x)
    (hc : WfC h2 lo hi ks cs) (hci : ci < cs.length) :
    WfPack h2 lo hi
      (if (cs.getD ci).isLeaf then
        if ci > 0 ∧ (cs.getD (ci - 1)).keysOf.length > minK then
          borrowFromLeftLeaf ks cs ci
        else if ci + 1 < cs.length ∧
            (cs.getD (ci + 1)).keysOf.length > minK then
          borrowFromRightLeaf ks cs ci
        else if ci > 0 then mergeLeaves ks cs (ci - 1)
        else if cs.length ≥ 2 then mergeLeaves ks cs 0
        else (ks, cs)
      else
        if ci > 0 ∧ (cs.getD (ci - 1)).keysOf.length > minK then
          borrowFromLeftInternal ks cs ci
        else if ci + 1 < cs.length ∧
            (cs.getD (ci + 1)).keysOf.length > minK then
          borrowFromRightInternal ks cs ci
        else if ci > 0 then mergeInternal ks cs (ci - 1)
        else if cs.length ≥ 2 then mergeInternal ks cs 0
        else (ks, cs)) := by
  obtain ⟨lo2, hi2, hwchild⟩ := wfc_getD_wf h2 lo hi ks cs ci hc hci
  have hleaf := wfn_isLeaf hwchild
  cases h2 with
  | zero =>
    rw [if_pos (by rw [hleaf]; rfl)]
    by_cases h1 : ci > 0 ∧ (cs.getD (ci - 1)).keysOf.length > minK
    · rw [if_pos h1]
      exact borrowFromLeftLeaf_wf minK hminK lo hi ks cs ci hs hb hc h1.1
        hci h1.2
    · rw [if_neg h1]
      by_cases h2g : ci + 1 < cs.length ∧
          (cs.getD (ci + 1)).keysOf.length > minK
      · rw [if_pos h2g]
        exact borrowFromRightLeaf_wf minK hminK lo hi ks cs ci hs hb hc
          h2g.1 h2g.2
      · rw [if_neg h2g]
        by_cases h3 : ci > 0
        · rw [if_pos h3]
          exact mergeLeaves_wf lo hi ks cs (ci - 1) hs hb hc (by omega)
        · rw [if_neg h3]
          by_cases h4 : cs.length ≥ 2
          · rw [if_pos h4]
            exact mergeLeaves_wf lo hi ks cs 0 hs hb hc (by omega)
          · rw [if_neg h4]
            exact ⟨hs, hb, hc⟩
  | succ hh =>
    rw [if_neg (by rw [hleaf]; simp)]
    have hp : 0 < hh + 1 := Nat.succ_pos hh
    by_cases h1 : ci > 0 ∧ (cs.getD (ci - 1)).keysOf.length > minK
    · rw [if_pos h1]
      exact borrowFromLeftInternal_wf minK hminK (hh + 1) hp lo hi ks cs ci
        hs hb hc h1.1 hci h1.2
    · rw [if_neg h1]
      by_cases h2g : ci + 1 < cs.length ∧
          (cs.getD (ci + 1)).keysOf.length > minK
      · rw [if_pos h2g]
        exact borrowFromRightInternal_wf minK hminK (hh + 1) hp lo hi ks cs
          ci hs hb hc h2g.1 h2g.2
      · rw [if_neg h2g]
        by_cases h3 : ci > 0
        · rw [if_pos h3]
          exact mergeInternal_wf (hh + 1) hp lo hi ks cs (ci - 1) hs hb hc
            (by omega)
        · rw [if_neg h3]
          by_cases h4 : cs.length ≥ 2
          · rw [if_pos h4]
            exact mergeInternal_wf (hh + 1) hp lo hi ks cs 0 hs hb hc
              (by omega)
          · rw [if_neg h4]
            exact ⟨hs, hb, hc⟩

/-- `rebalanceChild` preserves the parent package for any child index. -/
theorem rebalanceChild_wf (minK : Nat) (hminK : 1 ≤ minK) (h2 : Nat)
    (lo hi : Option String) (ks : List String) (cs : NodeList) (ci : Nat)
    (hs : sortedKeys ks) (hb : ∀ x ∈ ks, inB lo hi x)
    (hc : WfC h2 lo hi ks cs) :
    WfPack h2 lo hi (rebalanceChild minK ks cs ci) := by
  have hlc := wfc_length h2 lo hi ks cs hc
  have hne0 : ¬(cs.length = 0) := by omega
  simp only [rebalanceChild]
  rw [if_neg hne0]
  by_cases hcl : ci ≥ cs.length
  · rw [if_pos hcl]
    exact rebalanceDispatch_wf minK hminK h2 lo hi ks cs (cs.length - 1)
      hs hb hc (by omega)
  · rw [if_neg hcl]
    exact rebalanceDispatch_wf minK hminK h2 lo hi ks cs ci hs hb hc
      (by omega)

mutual

/-- `eraseRecursive` on a non-root node preserves well-formedness at the
same height and range (the state component only drives rebalancing). -/
theorem wfn_erase (minK : Nat) (hminK : 1 ≤ minK) (key : String) (h : Nat) :
    ∀ (lo hi : Option String) (n : BTNode), WfN h lo hi n →
      WfN h lo hi (eraseRecNode minK key false n).1
  | lo, hi, .leaf ks vs, hw => by
      rw [WfN] at hw
      obtain ⟨hh0, hs, ha, hb⟩ := hw
      subst hh0
      rcases hks : ks.get? (lowerBoundIdx ks key) with _ | k
      · simp only [eraseRecNode, hks]
        rw [if_neg (by simp)]
        rw [WfN]
        exact ⟨rfl, hs, ha, hb⟩
      · by_cases hk : k = key
        · have hidx : lowerBoundIdx ks key < ks.length :=
            (List.get?_eq_some.mp hks).1
          have hwf : WfN 0 lo hi
              (.leaf (ks.eraseIdx (lowerBoundIdx ks key))
                (vs.eraseIdx (lowerBoundIdx ks key))) := by
            rw [WfN]
            refine ⟨rfl,
              List.Pairwise.sublist (List.eraseIdx_sublist _ _) hs, ?_, ?_⟩
            · rw [List.length_eraseIdx, List.length_eraseIdx, ha]
            · intro x hx
              exact hb x ((List.eraseIdx_sublist _ _).mem hx)
          simp only [eraseRecNode, hks]
          rw [if_pos (by simp [hk])]
          rw [if_neg (by simp)]
          split
          · exact hwf
          · exact hwf
        · simp only [eraseRecNode, hks]
          rw [if_neg (by simp [hk])]
          rw [WfN]
          exact ⟨rfl, hs, ha, hb⟩
  | lo, hi, .internal ks cs, hw => by
      rw [WfN] at hw
      obtain ⟨hhp, hs, hb, hc⟩ := hw
      have hwc := wfc_erase minK hminK key (h - 1) lo hi ks cs
        (if upperBoundIdx ks key ≥ cs.length then cs.length - 1
          else upperBoundIdx ks key) hc
      rcases hcr : eraseRecChild minK key
          (if upperBoundIdx ks key ≥ cs.length then cs.length - 1
            else upperBoundIdx ks key) cs with ⟨cs₂, st⟩
      rw [hcr] at hwc
      simp only [eraseRecNode, hcr]
      by_cases hnf : st = DeleteState.NotFound
      · rw [if_pos hnf]
        rw [WfN]
        exact ⟨hhp, hs, hb, hwc⟩
      · rw [if_neg hnf]
        have hpack : WfPack (h - 1) lo hi
            (if st = DeleteState.NeedsRebalance then
              rebalanceChild minK ks cs₂
                (if upperBoundIdx ks key ≥ cs.length then cs.length - 1
                  else upperBoundIdx ks key)
            else (ks, cs₂)) := by
          split
          · exact rebalanceChild_wf minK hminK (h - 1) lo hi ks cs₂ _ hs hb
              hwc
          · exact ⟨hs, hb, hwc⟩
        rcases hre : (if st = DeleteState.NeedsRebalance then
            rebalanceChild minK ks cs₂
              (if upperBoundIdx ks key ≥ cs.length then cs.length - 1
                else upperBoundIdx ks key)
          else (ks, cs₂)) with ⟨ks₃, cs₃⟩
        rw [hre] at hpack
        obtain ⟨hs₃, hb₃, hc₃⟩ := hpack
        rw [if_neg (by simp)]
        split
        · rw [WfN]
          exact ⟨hhp, hs₃, hb₃, hc₃⟩
        · rw [WfN]
          exact ⟨hhp, hs₃, hb₃, hc₃⟩

/-- `eraseRecursive` through the child list preserves the pairing. -/
theorem wfc_erase (minK : Nat) (hminK : 1 ≤ minK) (key : String) (h2 : Nat) :
    ∀ (lo hi : Option String) (ks : List String) (cs : NodeList) (pos : Nat),
      WfC h2 lo hi ks cs → WfC h2 lo hi ks (eraseRecChild minK key pos cs).1
  | _, _, [], .nil, _, hc => by simp [WfC] at hc
  | _, _, [], .cons _ (.cons _ _), _, hc => by simp [WfC] at hc
  | _, _, _ :: _, .nil, _, hc => by simp [WfC] at hc
  | lo, hi, [], .cons c .nil, 0, hc => by
      rw [WfC] at hc
      rcases her : eraseRecNode minK key false c with ⟨c₂, st⟩
      have hwn := wfn_erase minK hminK key h2 lo hi c hc
      rw [her] at hwn
      simp only [eraseRecChild, her]
      rw [WfC]
      exact hwn
  | lo, hi, [], .cons c .nil, pos + 1, hc => by
      rw [WfC] at hc
      simp only [eraseRecChild]
      rw [WfC]
      exact hc
  | lo, hi, k :: ks₁, .cons c rest, 0, hc => by
      rw [WfC] at hc
      rcases her : eraseRecNode minK key false c with ⟨c₂, st⟩
      have hwn := wfn_erase minK hminK key h2 lo (some k) c hc.1
      rw [her] at hwn
      simp only [eraseRecChild, her]
      rw [WfC]
      exact ⟨hwn, hc.2⟩
  | lo, hi, k :: ks₁, .cons c rest, pos + 1, hc => by
      rw [WfC] at hc
      rcases her : eraseRecChild minK key pos rest with ⟨rest₂, st⟩
      have hwc := wfc_erase minK hminK key h2 (some k) hi ks₁ rest pos hc.2
      rw [her] at hwc
      simp only [eraseRecChild, her]
      rw [WfC]
      exact ⟨hc.1, hwc⟩

end

/-- Collapsing a keyless root: its single child is a well-formed root. -/
theorem wfn_headD_of_empty {h : Nat} {cs : NodeList}
    (hw : WfN h none none (.internal [] cs)) :
    ∃ h2, WfN h2 none none cs.headD := by
  rw [WfN] at hw
  rcases cs with _ | ⟨c, rest⟩
  · exact absurd hw.2.2.2 (by simp [WfC])
  · rcases rest with _ | ⟨c₂, r₂⟩
    · have hc := hw.2.2.2
      rw [WfC] at hc
      exact ⟨h - 1, hc⟩
    · exact absurd hw.2.2.2 (by simp [WfC])

/-- `eraseRecursive` at the root preserves well-formedness, possibly at a
smaller height when the root collapses. -/
theorem wfn_erase_root (minK : Nat) (hminK : 1 ≤ minK) (key : String)
    (h : Nat) (n : BTNode) (hw : WfN h none none n) :
    ∃ h2, WfN h2 none none (eraseRecNode minK key true n).1 := by
  cases n with
  | leaf ks vs =>
    rw [WfN] at hw
    obtain ⟨hh0, hs, ha, hb⟩ := hw
    subst hh0
    rcases hks : ks.get? (lowerBoundIdx ks key) with _ | k
    · simp only [eraseRecNode, hks]
      rw [if_neg (by simp)]
      refine ⟨0, ?_⟩
      rw [WfN]
      exact ⟨rfl, hs, ha, hb⟩
    · by_cases hk : k = key
      · have hwf : WfN 0 none none
            (.leaf (ks.eraseIdx (lowerBoundIdx ks key))
              (vs.eraseIdx (lowerBoundIdx ks key))) := by
          rw [WfN]
          refine ⟨rfl,
            List.Pairwise.sublist (List.eraseIdx_sublist _ _) hs, ?_, ?_⟩
          · rw [List.length_eraseIdx, List.length_eraseIdx, ha]
          · intro x hx
            exact hb x ((List.eraseIdx_sublist _ _).mem hx)
        simp only [eraseRecNode, hks]
        rw [if_pos (by simp [hk])]
        rw [if_pos trivial]
        exact ⟨0, hwf⟩
      · simp only [eraseRecNode, hks]
        rw [if_neg (by simp [hk])]
        refine ⟨0, ?_⟩
        rw [WfN]
        exact ⟨rfl, hs, ha, hb⟩
  | internal ks cs =>
    rw [WfN] at hw
    obtain ⟨hhp, hs, hb, hc⟩ := hw
    have hwc := wfc_erase minK hminK key (h - 1) none none ks cs
      (if upperBoundIdx ks key ≥ cs.length then cs.length - 1
        else upperBoundIdx ks key) hc
    rcases hcr : eraseRecChild minK key
        (if upperBoundIdx ks key ≥ cs.length then cs.length - 1
          else upperBoundIdx ks key) cs with ⟨cs₂, st⟩
    rw [hcr] at hwc
    simp only [eraseRecNode, hcr]
    by_cases hnf : st = DeleteState.NotFound
    · rw [if_pos hnf]
      refine ⟨h, ?_⟩
      rw [WfN]
      exact ⟨hhp, hs, hb, hwc⟩
    · rw [if_neg hnf]
      have hpack : WfPack (h - 1) none none
          (if st = DeleteState.NeedsRebalance then
            rebalanceChild minK ks cs₂
              (if upperBoundIdx ks key ≥ cs.length then cs.length - 1
                else upperBoundIdx ks key)
          else (ks, cs₂)) := by
        split
        · exact rebalanceChild_wf minK hminK (h - 1) none none ks cs₂ _ hs
            hb hwc
        · exact ⟨hs, hb, hwc⟩
      rcases hre : (if st = DeleteState.NeedsRebalance then
          rebalanceChild minK ks cs₂
            (if upperBoundIdx ks key ≥ cs.length then cs.length - 1
              else upperBoundIdx ks key)
        else (ks, cs₂)) with ⟨ks₃, cs₃⟩
      rw [hre] at hpack
      obtain ⟨hs₃, hb₃, hc₃⟩ := hpack
      have hwint : WfN h none none (.internal ks₃ cs₃) := by
        rw [WfN]
        exact ⟨hhp, hs₃, hb₃, hc₃⟩
      rw [if_pos trivial]
      split
      · rename_i hcond
        have hks₃ : ks₃ = [] := by simpa using hcond.1
        subst hks₃
        exact wfn_headD_of_empty hwint
      · exact ⟨h, hwint⟩

/-- `insertWith` (hence `insertUnique` and `insertOrAssign`) preserves the
whole-tree invariant and the configured occupancy bounds. -/
theorem insertWith_wfT (t : BPlusTree) (key : String) (ptr : IndexPointer)
    (fod : Bool) (t2 : BPlusTree) (hw : WfT t)
    (happ : BPlusTree.insertWith t key ptr fod = .ok t2) :
    t2.minKeys = t.minKeys ∧ WfT t2 := by
  simp only [BPlusTree.insertWith] at happ
  by_cases hmk : t.maxKeys = 0
  · rw [if_pos hmk] at happ
    exact absurd happ (by simp)
  · rw [if_neg hmk] at happ
    have hroot : ∃ h, WfN h none none (t.root.getD (.leaf [] [])) := by
      rcases hr : t.root with _ | r
      · refine ⟨0, ?_⟩
        show WfN 0 none none (.leaf [] [])
        rw [WfN]
        exact ⟨rfl, List.Pairwise.nil, rfl, by simp⟩
      · show ∃ h, WfN h none none r
        simpa [WfT, hr] using hw
    obtain ⟨h, hwn⟩ := hroot
    have hins := wfn_insert t.maxKeys key ptr fod h none none
      (t.root.getD (.leaf [] [])) hwn ⟨trivial, trivial⟩
    rcases hres : insertRecNode t.maxKeys key ptr fod
        (t.root.getD (.leaf [] [])) with e | ⟨n2, sp⟩
    · rw [hres] at happ
      simp [Bind.bind, Except.bind] at happ
    · rw [hres] at hins happ
      rcases sp with _ | ⟨s, rn⟩
      · rw [InsResOk] at hins
        simp only [Bind.bind, Except.bind, Except.ok.injEq] at happ
        subst happ
        refine ⟨rfl, ?_⟩
        show ∃ h2, WfN h2 none none n2
        exact ⟨h, hins⟩
      · rw [InsResOk] at hins
        simp only [Bind.bind, Except.bind, Except.ok.injEq] at happ
        subst happ
        refine ⟨rfl, ?_⟩
        show ∃ h2, WfN h2 none none
          (.internal [s] (.cons n2 (.cons rn .nil)))
        refine ⟨h + 1, ?_⟩
        rw [WfN]
        refine ⟨by omega, List.pairwise_singleton _ _,
          fun x _ => ⟨trivial, trivial⟩, ?_⟩
        show WfC h none none [s] (.cons n2 (.cons rn .nil))
        rw [WfC]
        refine ⟨hins.1, ?_⟩
        rw [WfC]
        exact hins.2.1

/-- `update` preserves the whole-tree invariant. -/
theorem update_wfT (t : BPlusTree) (key : String) (ptr : IndexPointer)
    (hw : WfT t) :
    (t.update key ptr).2.minKeys = t.minKeys ∧ WfT (t.update key ptr).2 := by
  rcases hr : t.root with _ | r
  · simp only [BPlusTree.update, hr]
    exact ⟨trivial, hw⟩
  · have hwr : ∃ h, WfN h none none r := by simpa [WfT, hr] using hw
    obtain ⟨h, hwn⟩ := hwr
    have hup := wfn_update key ptr h none none r hwn
    rcases hu : updateNode key ptr r with ⟨r2, fnd⟩
    rw [hu] at hup
    simp only [BPlusTree.update, hr, hu]
    cases fnd with
    | true =>
        rw [if_pos rfl]
        refine ⟨rfl, ?_⟩
        show ∃ h2, WfN h2 none none r2
        exact ⟨h, hup⟩
    | false =>
        rw [if_neg (by simp)]
        exact ⟨rfl, hw⟩

/-- `erase` preserves the whole-tree invariant, including both root
collapse checks. -/
theorem erase_wfT (t : BPlusTree) (key : String) (hminK : 1 ≤ t.minKeys)
    (hw : WfT t) :
    (t.erase key).2.minKeys = t.minKeys ∧ WfT (t.erase key).2 := by
  rcases hr : t.root with _ | r
  · simp only [BPlusTree.erase, hr]
    exact ⟨trivial, hw⟩
  · have hwr : ∃ h, WfN h none none r := by simpa [WfT, hr] using hw
    obtain ⟨h, hwn⟩ := hwr
    obtain ⟨h2, hroot2⟩ := wfn_erase_root t.minKeys hminK key h r hwn
    rcases her : eraseRecNode t.minKeys key true r with ⟨r2, st⟩
    rw [her] at hroot2
    by_cases hnf : st = DeleteState.NotFound
    · simp only [BPlusTree.erase, hr, her]
      rw [if_pos hnf]
      exact ⟨rfl, hw⟩
    · rcases r2 with ⟨ks2, vs2⟩ | ⟨ks2, cs2⟩
      · simp only [BPlusTree.erase, hr, her]
        rw [if_neg hnf]
        refine ⟨rfl, ?_⟩
        show ∃ h3, WfN h3 none none (.leaf ks2 vs2)
        exact ⟨h2, hroot2⟩
      · simp only [BPlusTree.erase, hr, her]
        rw [if_neg hnf]
        by_cases hcond : ks2.isEmpty = true ∧ cs2.length = 1
        · rw [if_pos hcond]
          have hks2 : ks2 = [] := by simpa using hcond.1
          subst hks2
          obtain ⟨h3, hhead⟩ := wfn_headD_of_empty hroot2
          refine ⟨rfl, ?_⟩
          show ∃ h4, WfN h4 none none cs2.headD
          exact ⟨h3, hhead⟩
        · rw [if_neg hcond]
          refine ⟨rfl, ?_⟩
          show ∃ h3, WfN h3 none none (.internal ks2 cs2)
          exact ⟨h2, hroot2⟩

/-- A single public tree operation preserves the invariant package. -/
theorem applyTreeOp_inv (t t2 : BPlusTree) (op : TreeOp)
    (hminK : 1 ≤ t.minKeys) (hw : WfT t)
    (happ : applyTreeOp t op = .ok t2) : 1 ≤ t2.minKeys ∧ WfT t2 := by
  cases op with
  | insertUniqueOp k p =>
      rw [applyTreeOp, BPlusTree.insertUnique] at happ
      obtain ⟨hmin, hwt⟩ := insertWith_wfT t k p false t2 hw happ
      exact ⟨by omega, hwt⟩
  | insertOrAssignOp k p =>
      rw [applyTreeOp, BPlusTree.insertOrAssign] at happ
      obtain ⟨hmin, hwt⟩ := insertWith_wfT t k p false t2 hw happ
      exact ⟨by omega, hwt⟩
  | updateOp k p =>
      rw [applyTreeOp] at happ
      simp only [Except.ok.injEq] at happ
      obtain ⟨hmin, hwt⟩ := update_wfT t k p hw
      rw [happ] at hmin hwt
      exact ⟨by omega, hwt⟩
  | eraseOp k =>
      rw [applyTreeOp] at happ
      simp only [Except.ok.injEq] at happ
      obtain ⟨hmin, hwt⟩ := erase_wfT t k hminK hw
      rw [happ] at hmin hwt
      exact ⟨by omega, hwt⟩

/-- A whole operation sequence preserves the invariant package. -/
theorem applyTreeOps_inv :
    ∀ (ops : List TreeOp) (t t2 : BPlusTree), 1 ≤ t.minKeys → WfT t →
      applyTreeOps t ops = .ok t2 → 1 ≤ t2.minKeys ∧ WfT t2
  | [], t, t2, hm, hw, happ => by
      rw [applyTreeOps] at happ
      simp only [Except.ok.injEq] at happ
      rw [← happ]
      exact ⟨hm, hw⟩
  | op :: ops, t, t2, hm, hw, happ => by
      rw [applyTreeOps] at happ
      rcases hstep : applyTreeOp t op with e | t3
      · rw [hstep] at happ
        simp [Bind.bind, Except.bind] at happ
      · rw [hstep] at happ
        simp only [Bind.bind, Except.bind] at happ
        obtain ⟨hm3, hw3⟩ := applyTreeOp_inv t t3 op hm hw hstep
        exact applyTreeOps_inv ops t3 t2 hm3 hw3 happ

/-- The decidable whole-tree invariant follows from well-formedness. -/
theorem treeInvariantB_of_wfT (t : BPlusTree) (hw : WfT t) :
    treeInvariantB t = true := by
  rcases hr : t.root with _ | r
  · simp [treeInvariantB, hr]
  · have hwr : ∃ h, WfN h none none r := by simpa [WfT, hr] using hw
    obtain ⟨h, hwn⟩ := hwr
    simp only [treeInvariantB, hr]
    exact wfn_invB h none none r hwn

/-- A freshly initialized tree satisfies the invariant package. -/
theorem initializeTree_inv (p k : Nat) :
    1 ≤ (BPlusTree.initializeTree p k).minKeys ∧
      WfT (BPlusTree.initializeTree p k) := by
  constructor
  · show 1 ≤ max 1 ((if BPlusTree.computeMaxKeys p k < 3 then 3
      else BPlusTree.computeMaxKeys p k) / 2)
    exact Nat.le_max_left _ _
  · show WfT (BPlusTree.initializeTree p k)
    simp [WfT, BPlusTree.initializeTree]

/-- C9: for every B+ tree produced from an initialized tree by any
sequence of insertUnique / insertOrAssign / update / erase operations,
every node keeps its keys sorted, every leaf has exactly as many pointer
values as keys, and every internal node has keys.size + 1 children. -/
theorem C9_invariants (p k : Nat) (ops : List TreeOp) (t : BPlusTree)
    (happ : applyTreeOps (BPlusTree.initializeTree p k) ops = .ok t) :
    treeInvariantB t = true := by
  obtain ⟨hm, hw⟩ := applyTreeOps_inv ops (BPlusTree.initializeTree p k) t
    (initializeTree_inv p k).1 (initializeTree_inv p k).2 happ
  exact treeInvariantB_of_wfT t hw

/-- C9 witness: a concrete nine-operation sequence (with leaf splits, a
root split, an update, and erasures that trigger borrowing, merging and
root collapse) ends in a tree satisfying the decidable invariant. -/
theorem C9_invariants_witness :
    applyTreeOps (BPlusTree.initializeTree 62 10) c9Ops = .ok c9Result ∧
    treeInvariantB c9Result = true :=
  ⟨by decide, C9_invariants 62 10 c9Ops c9Result (by decide)⟩

/-- On a default (empty-group) accumulator row, each aggregate cell takes
its per-function default value. -/
theorem buildOutputValues_default :
    ∀ prepared : List PreparedAggregate,
      buildOutputValues prepared (List.replicate prepared.length { }) =
        prepared.map defaultAggValue
  | [] => rfl
  | agg :: rest => by
      have ih := buildOutputValues_default rest
      rw [List.length_cons, List.replicate_succ, buildOutputValues,
        List.map_cons, ih]
      congr 1

/-- C7 counterexample: with an empty child, no GROUP BY, a COUNT aggregate
aliased cnt, and the HAVING clause cnt > 0, the operator emits zero rows,
not the claimed exactly one: the default global row built for empty input
is still filtered through HAVING (aggregate.cpp lines 75-89). -/
theorem C7_counterexample :
    aggInitModel []
      [{ func := .COUNT, expression := "", aliasName := "cnt" }]
      "cnt > 0" c7Schema [] = .ok [] := by
  decide

/-- C7 (amended): whenever the child yields no tuples, a non-empty GROUP
BY list yields zero rows; an empty GROUP BY list with an empty (trimmed)
HAVING clause yields exactly one row whose aggregate cells carry the
per-function defaults: COUNT prints 0, integer SUM prints 0, double SUM
prints 0.000000, AVG prints 0, and MIN/MAX print NULL. -/
theorem C7_amended_empty_input (groupByColumns : List String)
    (specs : List AggregateSpec) (havingClause : String)
    (childSchema : Schema) (res : List Tuple)
    (happ : aggInitModel groupByColumns specs havingClause childSchema [] =
      .ok res) :
    (groupByColumns ≠ [] → res = []) ∧
    (groupByColumns = [] → trimModel havingClause = "" →
      ∃ prepared outputSchema,
        prepareAggregatesModel childSchema (specs.map (fun s =>
          { func := s.func, expression := trimModel s.expression,
            aliasName := trimModel s.aliasName : PreparedAggregate })) =
          .ok prepared ∧
        buildOutputSchemaModel [] prepared childSchema = .ok outputSchema ∧
        res = [{ values := prepared.map defaultAggValue,
                 schema := some outputSchema }]) := by
  constructor
  · intro hne
    have hie : groupByColumns.isEmpty = false := by
      cases groupByColumns with
      | nil => exact absurd rfl hne
      | cons a l => rfl
    simp only [aggInitModel, Bind.bind, Except.bind] at happ
    rcases hg : resolveGroupColumnsModel groupByColumns childSchema
      with e | gidx
    · simp only [hg] at happ
      exact absurd happ (by simp)
    · simp only [hg] at happ
      rcases hp : prepareAggregatesModel childSchema
          (specs.map (fun s =>
            { func := s.func, expression := trimModel s.expression,
              aliasName := trimModel s.aliasName : PreparedAggregate }))
        with e | prepared
      · simp only [hp] at happ
        exact absurd happ (by simp)
      · simp only [hp] at happ
        rcases ho : buildOutputSchemaModel gidx prepared childSchema
          with e | outS
        · simp only [ho] at happ
          exact absurd happ (by simp)
        · simp only [ho] at happ
          by_cases hhe : (trimModel havingClause).isEmpty
          · simp only [hhe, if_true, pure, Except.pure, List.foldlM, hie,
              Bool.false_eq_true, false_and, if_false,
              Except.ok.injEq] at happ
            exact happ.symm
          · simp only [hhe, if_false] at happ
            rcases hpe : parseExpressionModel (trimModel havingClause)
              with e | pe
            · simp only [hpe] at happ
              exact absurd happ (by simp)
            · simp only [hpe, pure, Except.pure, List.foldlM, hie,
                Bool.false_eq_true, false_and, if_false,
                Except.ok.injEq] at happ
              exact happ.symm
  · rintro rfl hhv
    simp only [aggInitModel, Bind.bind, Except.bind] at happ
    have hg : resolveGroupColumnsModel [] childSchema = .ok [] := rfl
    simp only [hg] at happ
    rcases hp : prepareAggregatesModel childSchema
        (specs.map (fun s =>
          { func := s.func, expression := trimModel s.expression,
            aliasName := trimModel s.aliasName : PreparedAggregate }))
      with e | prepared
    · simp only [hp] at happ
      exact absurd happ (by simp)
    · simp only [hp] at happ
      rcases ho : buildOutputSchemaModel [] prepared childSchema
        with e | outS
      · simp only [ho] at happ
        exact absurd happ (by simp)
      · simp only [ho] at happ
        have hhe : (trimModel havingClause).isEmpty = true := by
          rw [hhv]
          rfl
        simp only [hhe, if_true, pure, Except.pure, List.foldlM,
          List.isEmpty_nil, eq_self_iff_true, and_self, Bind.bind,
          Except.bind, List.nil_append, Except.ok.injEq] at happ
        refine ⟨prepared, outS, hp, ho, ?_⟩
        rw [← happ, buildOutputTupleModel, List.nil_append,
          buildOutputValues_default]

/-- C7 amended witness: with an empty child, grouping by x yields zero
rows, while no grouping and no HAVING yields exactly the single default
row COUNT = 0, SUM = 0, MIN = NULL. -/
theorem C7_amended_empty_input_witness :
    (aggInitModel ["x"] c7Specs "" c7Schema [] = .ok c7ResA ∧ c7ResA = []) ∧
    (aggInitModel [] c7Specs "" c7Schema [] = .ok c7Res ∧
      ∃ prepared outputSchema,
        prepareAggregatesModel c7Schema (c7Specs.map (fun s =>
          { func := s.func, expression := trimModel s.expression,
            aliasName := trimModel s.aliasName : PreparedAggregate })) =
          .ok prepared ∧
        buildOutputSchemaModel [] prepared c7Schema = .ok outputSchema ∧
        c7Res = [{ values := prepared.map defaultAggValue,
                   schema := some outputSchema }]) := by
  constructor
  · exact ⟨by decide,
      (C7_amended_empty_input ["x"] c7Specs "" c7Schema c7ResA
        (by decide)).1 (by simp)⟩
  · exact ⟨by decide,
      (C7_amended_empty_input [] c7Specs "" c7Schema c7Res
        (by decide)).2 rfl (by decide)⟩

/-! ### Lemmas about the executor slice (C2) -/

/-- C1: the observable table contents return to the pre-transaction state
but the index contents do NOT, so the mutation-rollback identity fails.
With a non-unique index on column 0 keyed by the text k, a baseline row
r1 gives the index entry k -> slot 0.  Inside an explicit transaction,
inserting r2 with the same key reaches BPlusTree::insertUnique, which
replaces the stored pointer in place (k -> slot 1).  Rollback undoes the
insert with deleteRecord, whose applyIndexDelete erases the key k
entirely, so after rollback the index no longer has any entry for k even
though row r1 is still present. -/
theorem C1_rollback_divergence :
    c1Setup = .ok c1St1 ∧ c1Run = .ok c1St4 ∧
    c1St4.slots.filterMap id = c1St1.slots.filterMap id ∧
    c1St1.indexes.map (fun i => i.find "k")
      = [some { address := c1Addr, slot := 0 }] ∧
    c1St4.indexes.map (fun i => i.find "k") = [none] := by
  exact ⟨by decide, by decide, by decide, by decide, by decide⟩

end DbmsSpec
